import Mathlib

/-!
# Verification of `DataFrameMLVisitors.h`

A shallow embedding, in Lean 4, of the machine-learning visitors of the
DataFrame library (`src/include/DataFrame/DataFrameMLVisitors.h`), together
with theorems settling the specification claims about them.

Conventions used throughout:

* The visitors are C++ templates over an element type `T`; the embedding is
  likewise parametric over a type `V` of column elements.
* C++ `double` scalars (distances, weights) are modelled as `ℚ` where only
  finite values are reachable, and as `Option ℚ` (`none` = NaN/∞ degenerate
  value) where the claims concern degenerate propagation (MeanShift).
* C++ `std::vector` is modelled as `List`; `v[i]` reads are `List.getD i d`
  where the index is in bounds at the call site, and checked reads
  (`List.get?`) where a claim concerns an out-of-bounds access.
* The distance functors (`dfunc_`) and kernel functors are explicit function
  parameters, as in the source.
-/

set_option linter.unusedSectionVars false
set_option linter.unusedVariables false
set_option maxRecDepth 8000

/-- Decidable equality on `Except`, used to evaluate concrete runs of the
models below inside the kernel. -/
instance exceptDecEq {e a : Type} [DecidableEq e] [DecidableEq a] :
    DecidableEq (Except e a) := fun x y =>
  match x, y with
  | .error u, .error v => decidable_of_iff (u = v) (by simp)
  | .ok u, .ok v => decidable_of_iff (u = v) (by simp)
  | .error _, .ok _ => isFalse (by simp)
  | .ok _, .error _ => isFalse (by simp)

/-- The exact value of `std::numeric_limits<double>::max()`,
`(2^53 − 1)·2^971 = 2^1024 − 2^971`, as a rational. -/
def dblMaxD : ℚ := ((2 ^ 1024 - 2 ^ 971 : ℕ) : ℚ)

/-- Squared difference over integer-valued samples (the default
`distance_func` of the clustering visitors, at integer inputs). -/
def sqDistZQ (x y : ℤ) : ℚ := ((x - y) * (x - y) : ℤ)

/-- A value reference stored in a published cluster view: a pointer into the
caller's column (`&*(column_begin + j)`) or a pointer into visitor-owned
storage (KMeans' `&result_[k]`, the centroid array). -/
inductive PRef where
  | col (j : ℕ)
  | own (k : ℕ)
  deriving DecidableEq, Repr

namespace DBSCAN

variable {V : Type} [DecidableEq V] [Inhabited V]

/-- Labels as in the source: `id_t = long`, `UNCLASSIFIED = -1`, `NOISE = -2`,
and non-negative cluster ids. -/
abbrev Label := ℤ

/-- `DBSCANVisitor::UNCLASSIFIED`. -/
def UNCLASSIFIED : Label := -1

/-- `DBSCANVisitor::NOISE`. -/
def NOISE : Label := -2

/-- Errors a run of the (otherwise deterministic, single threaded) DBSCAN
algorithm can produce; each corresponds to a C++ undefined behaviour the
embedding makes explicit. -/
inductive Err where
  | oobRead    -- `std::vector::operator[]` with an index `≥ size()`
  | divByZero  -- integer division by zero
  | fuel       -- (never reached in any run below) recursion fuel exhausted
  deriving DecidableEq, Repr

/-- `DBSCANVisitor::calculate_cluster_`: the neighborhood of `col[idx]` —
every position `i < col.length` with `d col[idx] col[i] ≤ maxDist`,
in increasing order. -/
def calculateCluster (d : V → V → ℚ) (maxDist : ℚ) (col : List V) (idx : ℕ) :
    List ℕ :=
  (List.range col.length).filter
    (fun i => d (col.getD idx default) (col.getD i default) ≤ maxDist)

/-- State of the expansion loop of `DBSCANVisitor::expand_cluster_`:
the label vector `cluster_ids`, the work list `seeds`, and the loop bound
`n` (which the source updates only when it pushes onto `seeds`). -/
structure LoopSt where
  labels : List Label
  seeds  : List ℕ
  bound  : ℕ
  deriving DecidableEq, Repr

/-- One iteration `j` of the inner loop of `expand_cluster_` (source lines
620–630): read `cluster_ids[j]` — note the source indexes the label vector
with `j`, the position *inside the neighborhood list* — and if it is negative,
push `cluster_neighors[j]` when it is `UNCLASSIFIED` (updating the loop bound
`n` to the new `seeds` size) and relabel `cluster_ids[j]` with `cluster_id`. -/
def innerStep (clusterId : ℤ) (nb : List ℕ) (st : LoopSt) (j : ℕ) : LoopSt :=
  let lv := st.labels.getD j 0
  if lv < 0 then
    let seeds' := if lv = UNCLASSIFIED then st.seeds ++ [nb.getD j 0] else st.seeds
    let bound' := if lv = UNCLASSIFIED then seeds'.length else st.bound
    { labels := st.labels.set j clusterId, seeds := seeds', bound := bound' }
  else st

/-- The inner loop of `expand_cluster_` over `j < cluster_neighors.size()`. -/
def innerLoop (clusterId : ℤ) (nb : List ℕ) (st : LoopSt) : LoopSt :=
  (List.range nb.length).foldl (innerStep clusterId nb) st

/-- One iteration of the outer expansion loop of `expand_cluster_` (source
lines 616–632), processing work-list slot `i`: read `seeds[i]` (an
out-of-bounds read is an error), compute its neighborhood, and if the
neighborhood is at least `min_mems_` strong run the inner loop. -/
def expandStep (d : V → V → ℚ) (maxDist : ℚ) (minMems : ℕ) (col : List V)
    (clusterId : ℤ) (st : LoopSt) (i : ℕ) : Except Err LoopSt :=
  match st.seeds.get? i with
  | none => .error .oobRead
  | some sv =>
      let nb := calculateCluster d maxDist col sv
      if minMems ≤ nb.length then .ok (innerLoop clusterId nb st) else .ok st

/-- The outer expansion loop of `expand_cluster_`
(`for (id_t i = 0, n = seeds_s; i < n; ++i)`), with explicit fuel. -/
def expandLoop (d : V → V → ℚ) (maxDist : ℚ) (minMems : ℕ) (col : List V)
    (clusterId : ℤ) : ℕ → ℕ → LoopSt → Except Err LoopSt
  | 0, _, _ => .error .fuel
  | fuel + 1, i, st =>
      if i < st.bound then
        match expandStep d maxDist minMems col clusterId st i with
        | .error e => .error e
        | .ok st' => expandLoop d maxDist minMems col clusterId fuel (i + 1) st'
      else .ok st

/-- `DBSCANVisitor::expand_cluster_`: returns `false` (labelling the point
`NOISE`) when the point is not core; otherwise labels the whole seed
neighborhood with `cluster_id`, erases the core point from the seed list
(found by *value* equality, last match winning), and runs the expansion
loop with initial bound `seeds_s` (the size *before* the erase). -/
def expandCluster (d : V → V → ℚ) (maxDist : ℚ) (minMems : ℕ) (col : List V)
    (idx : ℕ) (clusterId : ℤ) (labels : List Label) :
    Except Err (Bool × List Label) :=
  let seeds := calculateCluster d maxDist col idx
  let value := col.getD idx default
  if seeds.length < minMems then .ok (false, labels.set idx NOISE)
  else
    let labels1 := seeds.foldl (fun ls s => ls.set s clusterId) labels
    let coreIndex := (List.range seeds.length).foldl
      (fun acc i => if col.getD (seeds.getD i 0) default = value then i else acc) 0
    let seeds1 := seeds.eraseIdx coreIndex
    match expandLoop d maxDist minMems col clusterId
        (col.length * col.length + seeds.length + 2) 0
        { labels := labels1, seeds := seeds1, bound := seeds.length } with
    | .error e => .error e
    | .ok st => .ok (true, st.labels)

/-- The labelling phase of `DBSCANVisitor::operator()` (source lines
653–664): scan positions in order, expanding a new cluster from every
still-`UNCLASSIFIED` position.  Returns the final label vector and the
number of clusters found. -/
def runLabels (d : V → V → ℚ) (maxDist : ℚ) (minMems : ℕ) (col : List V) :
    Except Err (List Label × ℤ) :=
  (List.range col.length).foldl
    (fun acc i =>
      match acc with
      | .error e => .error e
      | .ok (labels, cid) =>
          if labels.getD i 0 = UNCLASSIFIED then
            match expandCluster d maxDist minMems col i cid labels with
            | .error e => .error e
            | .ok (grew, labels') => .ok (labels', if grew then cid + 1 else cid)
          else .ok (labels, cid))
    (.ok (List.replicate col.length UNCLASSIFIED, 0))

/-- The partition loop of `DBSCANVisitor::operator()` (source lines
675–683): scan positions in order; a position with a non-negative label is
appended (as a column value reference and as an index) to its cluster, every
other position goes to the noise list. -/
def materialize (n k : ℕ) (labels : List Label) :
    List (List PRef) × List (List ℕ) × List ℕ :=
  (List.range n).foldl
    (fun acc i =>
      let l := labels.getD i 0
      if 0 ≤ l then
        (acc.1.set l.toNat (acc.1.getD l.toNat [] ++ [PRef.col i]),
         acc.2.1.set l.toNat (acc.2.1.getD l.toNat [] ++ [i]),
         acc.2.2)
      else (acc.1, acc.2.1, acc.2.2 ++ [i]))
    (List.replicate k [], List.replicate k [], [])

/-- `DBSCANVisitor::operator()` (source lines 639–684): label every
position, compute the reserve size `col_s / cluster_id` — an *unguarded*
integer division, an error when no cluster was found — and partition the
positions into per-cluster membership views and index lists plus the noise
list. -/
def apply (d : V → V → ℚ) (maxDist : ℚ) (minMems : ℕ) (col : List V) :
    Except Err (List (List PRef) × List (List ℕ) × List ℕ) :=
  match runLabels d maxDist minMems col with
  | .error e => .error e
  | .ok (labels, cid) =>
      if cid = 0 then .error .divByZero
      else .ok (materialize col.length cid.toNat labels)

/-- The property claim C3 asserts of one work-list step of the expansion
loop: if the processed member's own neighborhood `nb` has at least
`min_mems` elements, then every *member of `nb`* whose current label is
negative (`UNCLASSIFIED` or `NOISE`) is relabeled with the current cluster
id, and the `UNCLASSIFIED` ones are appended to the work list. -/
def StepClaim (d : V → V → ℚ) (maxDist : ℚ) (minMems : ℕ) (col : List V)
    (cid : ℤ) (st : LoopSt) (i : ℕ) : Prop :=
  ∀ sv ∈ st.seeds.get? i,
    minMems ≤ (calculateCluster d maxDist col sv).length →
    ∀ p ∈ calculateCluster d maxDist col sv, st.labels.getD p 0 < 0 →
      ∀ st' ∈ (expandStep d maxDist minMems col cid st i).toOption,
        st'.labels.getD p 0 = cid ∧
        (st.labels.getD p 0 = UNCLASSIFIED → p ∈ st'.seeds)

instance {d : V → V → ℚ} {maxDist minMems col cid st i} :
    Decidable (StepClaim d maxDist minMems col cid st i) := by
  unfold StepClaim; infer_instance

end DBSCAN

/-- **C3** (code bug).  On column `[10, 0, 1, 2]` with `min_mems = 2` and
`max_dist = 1` (squared-difference distance), expanding the cluster seeded
at position 1 labels positions 1 and 2, erases the core point, and the
expansion loop then processes work-list member `2` (value `1`).  Its
neighborhood is `[1, 2, 3]`, which qualifies as core, yet the step leaves
neighborhood member 3 `UNCLASSIFIED` and unqueued while relabelling
position 0 — which is *not* in the neighborhood — from `NOISE` to the
cluster id: the inner loop of `expand_cluster_` indexes `cluster_ids[j]`
by the neighborhood-list offset `j` instead of by the neighborhood member
`cluster_neighors[j]`.  This refutes the per-step labelling property the
claim states. -/
theorem dbscan_c3_step_mislabels :
    ¬ DBSCAN.StepClaim sqDistZQ 1 2 [10, 0, 1, 2] 0
        ⟨[-2, 0, 0, -1], [2], 2⟩ 0 ∧
    DBSCAN.calculateCluster sqDistZQ 1 ([10, 0, 1, 2] : List ℤ) 2 =
      [1, 2, 3] ∧
    DBSCAN.expandStep sqDistZQ 1 2 ([10, 0, 1, 2] : List ℤ) 0
        ⟨[-2, 0, 0, -1], [2], 2⟩ 0 =
      .ok ⟨[0, 0, 0, -1], [2], 2⟩ := by
  refine ⟨fun h => ?_, by decide, by decide⟩
  have := h 2 (by decide) (by decide) 3 (by decide) (by decide)
    ⟨[0, 0, 0, -1], [2], 2⟩ (by decide)
  exact absurd this.1 (by decide)

/-- **C4** (code bug).  On column `[0, 10]` with `min_mems = 1` and
`max_dist = 1`, position 0 is core with the singleton neighborhood `[0]`:
the seed list has size `seeds_s = 1`, position 0 is labelled, the core
point is erased (leaving the seed list empty), and the expansion loop —
whose bound was fixed at `seeds_s` *before* the erase and is only refreshed
when a push occurs — still runs its first iteration and reads `seeds[0]`
of an empty vector, an out-of-bounds read.  The whole `apply` run fails the
same way, refuting the claim that every work-list read index is strictly
below the list's current size. -/
theorem dbscan_c4_oob_read :
    DBSCAN.expandCluster sqDistZQ 1 1 ([0, 10] : List ℤ) 0 0 [-1, -1] =
      .error .oobRead ∧
    DBSCAN.apply sqDistZQ 1 1 ([0, 10] : List ℤ) = .error .oobRead := by
  constructor <;> decide

/-- **C10** (confirmed).  On column `[0, 10]` with `min_mems = 2` and
`max_dist = 1`, every point's neighborhood is the singleton containing only
itself, so both points are labelled `NOISE` and the cluster count stays 0;
`operator()` then computes the reserve size `col_s / cluster_id` — an
unguarded integer division by zero — before it would have published the
empty partition and the noise list. -/
theorem dbscan_c10_div_by_zero :
    DBSCAN.runLabels sqDistZQ 1 2 ([0, 10] : List ℤ) =
      .ok ([-2, -2], 0) ∧
    DBSCAN.apply sqDistZQ 1 2 ([0, 10] : List ℤ) =
      .error .divByZero := by
  constructor <;> decide

section FoldHelpers

variable {α β γ : Type}

/-- A left fold over a product state whose components evolve independently
is the pair of the component folds. -/
theorem foldl_pair_split (xs : List γ) (f : γ → α → α) (g : γ → β → β)
    (a : α) (b : β) :
    xs.foldl (fun p x => (f x p.1, g x p.2)) (a, b) =
      (xs.foldl (fun y x => f x y) a, xs.foldl (fun y x => g x y) b) := by
  induction xs generalizing a b with
  | nil => rfl
  | cons c cs ih => simp only [List.foldl_cons, ih]

/-- Folding `List.set` writes preserves the length. -/
theorem foldl_set_length (ws : List (ℕ × α)) (init : List α) :
    (ws.foldl (fun l w => l.set w.1 w.2) init).length = init.length := by
  induction ws generalizing init with
  | nil => rfl
  | cons w ws ih => simp only [List.foldl_cons, ih, List.length_set]

/-- A fold of `List.set` writes none of which target index `i` leaves the
entry at `i` unchanged. -/
theorem foldl_set_getD_not_mem {ws : List (ℕ × α)} {init : List α} {dflt : α}
    {i : ℕ} (h : ∀ w ∈ ws, w.1 ≠ i) :
    (ws.foldl (fun l w => l.set w.1 w.2) init).getD i dflt =
      init.getD i dflt := by
  induction ws generalizing init with
  | nil => rfl
  | cons w ws ih =>
      rw [List.foldl_cons, ih (fun v hv => h v (List.mem_cons_of_mem w hv))]
      simp [List.getD, List.getElem?_set, h w (List.mem_cons_self w ws)]

/-- In a fold of `List.set` writes with pairwise-distinct target indices,
the entry at a written index ends up holding the written value. -/
theorem foldl_set_getD_mem {ws : List (ℕ × α)} {init : List α} {dflt : α}
    (hnd : (ws.map Prod.fst).Nodup) {i : ℕ} {v : α}
    (hmem : (i, v) ∈ ws) (hlen : i < init.length) :
    (ws.foldl (fun l w => l.set w.1 w.2) init).getD i dflt = v := by
  induction ws generalizing init with
  | nil => cases hmem
  | cons w ws ih =>
      rw [List.map_cons, List.nodup_cons] at hnd
      rcases List.mem_cons.1 hmem with rfl | hm
      · rw [List.foldl_cons,
          foldl_set_getD_not_mem (fun u hu he => hnd.1 (by
            rw [show (i, v).1 = u.1 from he.symm]
            exact List.mem_map_of_mem Prod.fst hu))]
        simp [List.getD, List.getElem?_set, hlen]
      · rw [List.foldl_cons]
        exact ih hnd.2 hm (by simpa using hlen)

/-- `List.getD` after `List.set`. -/
theorem getD_set' (l : List α) (i c : ℕ) (x dflt : α) :
    ((l.set i x).getD c dflt) = if i = c ∧ i < l.length then x else l.getD c dflt := by
  by_cases h : i = c
  · subst h
    by_cases h2 : i < l.length
    · rw [if_pos ⟨rfl, h2⟩]
      simp [List.getD_eq_getElem?_getD, List.getElem?_set, h2]
    · rw [if_neg (by tauto)]
      simp [List.getD_eq_getElem?_getD, List.getElem?_set, h2,
        List.getElem?_eq_none (le_of_not_lt h2)]
  · rw [if_neg (by tauto)]
    simp [List.getD_eq_getElem?_getD, List.getElem?_set, h]

/-- An invariant preserved by every step of a left fold holds of the fold. -/
theorem foldl_invariant (P : α → Prop) (step : α → β → α) (l : List β) :
    ∀ (init : α), P init → (∀ a, P a → ∀ b ∈ l, P (step a b)) →
    P (l.foldl step init) := by
  intro init h0 hstep
  induction l generalizing init with
  | nil => exact h0
  | cons b bs ih =>
      rw [List.foldl_cons]
      exact ih (step init b) (hstep init h0 b (List.mem_cons_self b bs))
        (fun a ha c hc => hstep a ha c (List.mem_cons_of_mem b hc))

/-- Folding a nested iteration as a fold over the flattened pair list. -/
theorem foldl_bind' (xs : List γ) (f : γ → List β) (g : α → β → α) (a : α) :
    (xs.flatMap f).foldl g a = xs.foldl (fun acc x => (f x).foldl g acc) a := by
  induction xs generalizing a with
  | nil => rfl
  | cons c cs ih => simp only [List.flatMap_cons, List.foldl_append, List.foldl_cons, ih]

end FoldHelpers

namespace AffinityProp

variable {V : Type} [DecidableEq V] [Inhabited V]

/-- Offset of entry `(i, j)` (`i ≤ j`) in the packed upper-triangular
similarity table: the source's `(i * col_s) - ((i * (i + 1)) >> 1) + j`. -/
def simIdx (n i j : ℕ) : ℕ := i * n + j - i * (i + 1) / 2

theorem simIdx_two_mul (n : ℕ) {i j : ℕ} (hij : i ≤ j) (hj : j < n) :
    2 * simIdx n i j + i * (i + 1) = 2 * (i * n + j) := by
  have he : 2 * (i * (i + 1) / 2) = i * (i + 1) :=
    Nat.two_mul_div_two_of_even (Nat.even_mul_succ_self i)
  have hle : i * (i + 1) ≤ 2 * (i * n) := by
    calc i * (i + 1) ≤ i * (2 * n) := by
          exact Nat.mul_le_mul_left i (by omega)
      _ = 2 * (i * n) := by ring
  unfold simIdx
  omega

theorem simIdx_lt_len (n : ℕ) {i j : ℕ} (hij : i ≤ j) (hj : j < n) :
    simIdx n i j < n * (n + 1) / 2 := by
  have h1 := simIdx_two_mul n hij hj
  have he : 2 * (n * (n + 1) / 2) = n * (n + 1) :=
    Nat.two_mul_div_two_of_even (Nat.even_mul_succ_self n)
  have key : 2 * (i * n + j) < n * (n + 1) + i * (i + 1) := by
    nlinarith [Nat.sub_add_cancel (le_of_lt hj), sq_nonneg (n - i - 1)]
  omega

theorem simIdx_strictMono (n : ℕ) {i j p q : ℕ} (hij : i ≤ j) (hj : j < n)
    (hpq : p ≤ q) (hq : q < n) (hlex : i < p ∨ (i = p ∧ j < q)) :
    simIdx n i j < simIdx n p q := by
  have h1 := simIdx_two_mul n hij hj
  have h2 := simIdx_two_mul n hpq hq
  rcases hlex with hip | ⟨rfl, hjq⟩
  · have key : 2 * (i * n + j) + p * (p + 1) < 2 * (p * n + q) + i * (i + 1) := by
      zify
      nlinarith [sq_nonneg ((p : ℤ) - i), sq_nonneg ((p : ℤ) - i - 1)]
    omega
  · omega

end AffinityProp

namespace AffinityProp

variable {V : Type} [DecidableEq V] [Inhabited V]

/-- `AffinityPropVisitor::get_similarity_` (source lines 340–367): build the
packed upper-triangular table with `simil[idx(i,j)] = -dfunc(col[i], col[j])`
for `i < j`, tracking the running minimum of those (negated) values starting
from `std::numeric_limits<double>::max()` (the `dblMax` parameter), then
overwrite every diagonal entry with that minimum. -/
def getSimilarity (d : V → V → ℚ) (dblMax : ℚ) (col : List V) : List ℚ :=
  let n := col.length
  let filled :=
    (List.range (n - 1)).foldl
      (fun acc i =>
        (List.range' (i + 1) (n - (i + 1))).foldl
          (fun acc2 j =>
            let dist := -(d (col.getD i default) (col.getD j default))
            (acc2.1.set (simIdx n i j) dist,
             if dist < acc2.2 then dist else acc2.2))
          acc)
      ((List.replicate (n * (n + 1) / 2) 0 : List ℚ), dblMax)
  (List.range n).foldl (fun s i => s.set (simIdx n i i) filled.2) filled.1

/-- The `(i, j)` pairs (`i < j < n`) in the order the table-building loop
visits them. -/
def pairList (n : ℕ) : List (ℕ × ℕ) :=
  (List.range (n - 1)).flatMap
    (fun i => (List.range' (i + 1) (n - (i + 1))).map (fun j => (i, j)))

/-- The negated pairwise distances (the similarities) in visit order. -/
def pairSims (d : V → V → ℚ) (col : List V) : List ℚ :=
  (pairList col.length).map
    (fun p => -(d (col.getD p.1 default) (col.getD p.2 default)))

/-- The pairwise distances in visit order. -/
def pairDists (d : V → V → ℚ) (col : List V) : List ℚ :=
  (pairList col.length).map
    (fun p => d (col.getD p.1 default) (col.getD p.2 default))

theorem mem_pairList {n i j : ℕ} : (i, j) ∈ pairList n ↔ i < j ∧ j < n := by
  unfold pairList
  simp only [List.mem_flatMap, List.mem_map, List.mem_range, List.mem_range',
    Prod.mk.injEq]
  constructor
  · rintro ⟨a, ha, b, ⟨c, hc, rfl⟩, rfl, rfl⟩
    omega
  · rintro ⟨hij, hj⟩
    exact ⟨i, by omega, j, ⟨j - (i + 1), by omega⟩, rfl, rfl⟩

theorem pairList_nodup (n : ℕ) : (pairList n).Nodup := by
  unfold pairList
  rw [List.nodup_flatMap]
  constructor
  · intro i _
    exact ((List.nodup_range' _ _).map (fun a b h => by
      simpa using congrArg Prod.snd h))
  · have : ∀ (a b : ℕ), a ≠ b →
        List.Disjoint ((List.range' (a + 1) (n - (a + 1))).map (fun j => (a, j)))
          ((List.range' (b + 1) (n - (b + 1))).map (fun j => (b, j))) := by
      intro a b hab x hxa hxb
      simp only [List.mem_map] at hxa hxb
      rcases hxa with ⟨u, _, rfl⟩
      rcases hxb with ⟨w, _, hw⟩
      exact hab (by simpa using congrArg Prod.fst hw.symm)
    exact List.pairwise_lt_range (n - 1) |>.imp
      (fun {a b} h => this a b (Nat.ne_of_lt h))


/-- The (negated) table entry the loop writes for pair `p`. -/
def simEntry (d : V → V → ℚ) (col : List V) (p : ℕ × ℕ) : ℚ :=
  -(d (col.getD p.1 default) (col.getD p.2 default))

/-- The table writes of the pair loop: target index and written value. -/
def simWrites (d : V → V → ℚ) (col : List V) : List (ℕ × ℚ) :=
  (pairList col.length).map
    (fun p => (simIdx col.length p.1 p.2, simEntry d col p))

/-- The running-minimum update of the pair loop. -/
def minStep (m s : ℚ) : ℚ := if s < m then s else m

/-- The running minimum over all pairwise similarities, seeded with the
source's `std::numeric_limits<double>::max()`. -/
def minFold (d : V → V → ℚ) (dblMax : ℚ) (col : List V) : ℚ :=
  (pairList col.length).foldl (fun m p => minStep m (simEntry d col p)) dblMax

theorem getSimilarity_spec (d : V → V → ℚ) (dblMax : ℚ) (col : List V) :
    getSimilarity d dblMax col =
      (List.range col.length).foldl
        (fun s i => s.set (simIdx col.length i i) (minFold d dblMax col))
        ((simWrites d col).foldl (fun l w => l.set w.1 w.2)
          (List.replicate (col.length * (col.length + 1) / 2) 0)) := by
  have h1 : ∀ start : List ℚ × ℚ,
      (List.range (col.length - 1)).foldl
        (fun acc i =>
          (List.range' (i + 1) (col.length - (i + 1))).foldl
            (fun acc2 j =>
              (acc2.1.set (simIdx col.length i j) (simEntry d col (i, j)),
               minStep acc2.2 (simEntry d col (i, j))))
            acc)
        start
      = (pairList col.length).foldl
          (fun acc2 p =>
            (acc2.1.set (simIdx col.length p.1 p.2) (simEntry d col p),
             minStep acc2.2 (simEntry d col p)))
          start := by
    intro start
    rw [pairList, foldl_bind']
    simp only [List.foldl_map]
  have h2 : (pairList col.length).foldl
        (fun acc2 p =>
          (acc2.1.set (simIdx col.length p.1 p.2) (simEntry d col p),
           minStep acc2.2 (simEntry d col p)))
        ((List.replicate (col.length * (col.length + 1) / 2) 0 : List ℚ), dblMax)
      = ((simWrites d col).foldl (fun l w => l.set w.1 w.2)
           (List.replicate (col.length * (col.length + 1) / 2) 0),
         minFold d dblMax col) := by
    refine (foldl_pair_split (pairList col.length)
      (fun x t => t.set (simIdx col.length x.1 x.2) (simEntry d col x))
      (fun x m => minStep m (simEntry d col x))
      (List.replicate (col.length * (col.length + 1) / 2) 0) dblMax).trans ?_
    simp [simWrites, List.foldl_map, minFold]
  show (List.range col.length).foldl
      (fun s i =>
        s.set (simIdx col.length i i)
          ((List.range (col.length - 1)).foldl
            (fun acc i =>
              (List.range' (i + 1) (col.length - (i + 1))).foldl
                (fun acc2 j =>
                  (acc2.1.set (simIdx col.length i j) (simEntry d col (i, j)),
                   minStep acc2.2 (simEntry d col (i, j))))
                acc)
            (List.replicate (col.length * (col.length + 1) / 2) 0, dblMax)).2)
      ((List.range (col.length - 1)).foldl
        (fun acc i =>
          (List.range' (i + 1) (col.length - (i + 1))).foldl
            (fun acc2 j =>
              (acc2.1.set (simIdx col.length i j) (simEntry d col (i, j)),
               minStep acc2.2 (simEntry d col (i, j))))
            acc)
        (List.replicate (col.length * (col.length + 1) / 2) 0, dblMax)).1
      = _
  rw [h1, h2]


theorem simWrites_fst_nodup (d : V → V → ℚ) (col : List V) :
    ((simWrites d col).map Prod.fst).Nodup := by
  rw [simWrites, List.map_map]
  refine (pairList_nodup col.length).map_on ?_
  intro x hx y hy hxy
  rcases mem_pairList.1 hx with ⟨hx1, hx2⟩
  rcases mem_pairList.1 hy with ⟨hy1, hy2⟩
  simp only [Function.comp_apply] at hxy
  by_contra hne
  rcases Nat.lt_trichotomy x.1 y.1 with h | h | h
  · exact absurd hxy (Nat.ne_of_lt
      (simIdx_strictMono col.length (le_of_lt hx1) hx2 (le_of_lt hy1) hy2 (Or.inl h)))
  · rcases Nat.lt_trichotomy x.2 y.2 with h2 | h2 | h2
    · exact absurd hxy (Nat.ne_of_lt
        (simIdx_strictMono col.length (le_of_lt hx1) hx2 (le_of_lt hy1) hy2
          (Or.inr ⟨h, h2⟩)))
    · exact hne (Prod.ext h h2)
    · exact absurd hxy.symm (Nat.ne_of_lt
        (simIdx_strictMono col.length (le_of_lt hy1) hy2 (le_of_lt hx1) hx2
          (Or.inr ⟨h.symm, h2⟩)))
  · exact absurd hxy.symm (Nat.ne_of_lt
      (simIdx_strictMono col.length (le_of_lt hy1) hy2 (le_of_lt hx1) hx2 (Or.inl h)))

/-- The off-diagonal entries of the packed similarity table: exactly the
negated pairwise distances, as the claim states. -/
theorem getSimilarity_offdiag (d : V → V → ℚ) (dblMax : ℚ) (col : List V)
    {i j : ℕ} (hij : i < j) (hj : j < col.length) :
    (getSimilarity d dblMax col).getD (simIdx col.length i j) 0 =
      -(d (col.getD i default) (col.getD j default)) := by
  rw [getSimilarity_spec]
  have hdiag : (List.range col.length).foldl
      (fun s k => s.set (simIdx col.length k k) (minFold d dblMax col))
      ((simWrites d col).foldl (fun l w => l.set w.1 w.2)
        (List.replicate (col.length * (col.length + 1) / 2) 0))
      = ((List.range col.length).map
          (fun k => (simIdx col.length k k, minFold d dblMax col))).foldl
          (fun l w => l.set w.1 w.2)
          ((simWrites d col).foldl (fun l w => l.set w.1 w.2)
            (List.replicate (col.length * (col.length + 1) / 2) 0)) := by
    rw [List.foldl_map]
  rw [hdiag, foldl_set_getD_not_mem, foldl_set_getD_mem (simWrites_fst_nodup d col)]
  · rw [simWrites]
    exact List.mem_map_of_mem _ (mem_pairList.2 ⟨hij, hj⟩)
  · rw [List.length_replicate]
    exact simIdx_lt_len col.length (le_of_lt hij) hj
  · intro w hw
    simp only [List.mem_map, List.mem_range] at hw
    rcases hw with ⟨k, hk, rfl⟩
    rcases Nat.lt_trichotomy k i with h | rfl | h
    · exact Nat.ne_of_lt
        (simIdx_strictMono col.length (le_refl k) (lt_trans h (lt_of_lt_of_le hij (le_of_lt hj))) (le_of_lt hij) hj (Or.inl h))
    · exact Nat.ne_of_lt
        (simIdx_strictMono col.length (le_refl k) (lt_of_le_of_lt (le_of_lt hij) hj) (le_of_lt hij) hj (Or.inr ⟨rfl, hij⟩))
    · exact (Nat.ne_of_lt
        (simIdx_strictMono col.length (le_of_lt hij) hj (le_refl k) hk (Or.inl h))).symm

/-- The diagonal entries of the packed similarity table: the running
minimum, over all pairs, of the negated pairwise distances. -/
theorem getSimilarity_diag (d : V → V → ℚ) (dblMax : ℚ) (col : List V)
    {i : ℕ} (hi : i < col.length) :
    (getSimilarity d dblMax col).getD (simIdx col.length i i) 0 =
      minFold d dblMax col := by
  rw [getSimilarity_spec]
  have hdiag : (List.range col.length).foldl
      (fun s k => s.set (simIdx col.length k k) (minFold d dblMax col))
      ((simWrites d col).foldl (fun l w => l.set w.1 w.2)
        (List.replicate (col.length * (col.length + 1) / 2) 0))
      = ((List.range col.length).map
          (fun k => (simIdx col.length k k, minFold d dblMax col))).foldl
          (fun l w => l.set w.1 w.2)
          ((simWrites d col).foldl (fun l w => l.set w.1 w.2)
            (List.replicate (col.length * (col.length + 1) / 2) 0)) := by
    rw [List.foldl_map]
  rw [hdiag, foldl_set_getD_mem]
  · rw [List.map_map]
    refine (List.nodup_range col.length).map_on ?_
    intro x hx y hy hxy
    simp only [List.mem_range] at hx hy
    simp only [Function.comp_apply] at hxy
    by_contra hne
    rcases Nat.lt_trichotomy x y with h | h | h
    · exact absurd hxy (Nat.ne_of_lt
        (simIdx_strictMono col.length (le_refl x) hx (le_refl y) hy (Or.inl h)))
    · exact hne h
    · exact absurd hxy.symm (Nat.ne_of_lt
        (simIdx_strictMono col.length (le_refl y) hy (le_refl x) hx (Or.inl h)))
  · exact List.mem_map_of_mem _ (List.mem_range.2 hi)
  · rw [foldl_set_length, List.length_replicate]
    exact simIdx_lt_len col.length (le_refl i) hi

end AffinityProp


namespace AffinityProp

variable {V : Type} [DecidableEq V] [Inhabited V]

theorem minStep_eq_min (m s : ℚ) : minStep m s = min m s := by
  unfold minStep
  rcases lt_or_le s m with h | h
  · rw [if_pos h, min_eq_right (le_of_lt h)]
  · rw [if_neg (not_lt.2 h), min_eq_left h]

theorem minFold_eq_min? (d : V → V → ℚ) (dblMax : ℚ) (col : List V)
    (h2 : 2 ≤ col.length) (hd : ∀ x y, 0 ≤ d x y) (hm : 0 ≤ dblMax) :
    some (minFold d dblMax col) = (pairSims d col).min? := by
  have hf : minFold d dblMax col = (pairSims d col).foldl min dblMax := by
    rw [minFold, pairSims]
    have : ∀ (ps : List (ℕ × ℕ)) (m : ℚ), ps.foldl
        (fun m p => minStep m (simEntry d col p)) m =
        ps.foldl (fun m p => min m (simEntry d col p)) m := by
      intro ps
      induction ps with
      | nil => intro m; rfl
      | cons p ps ih =>
          intro m
          rw [List.foldl_cons, List.foldl_cons, minStep_eq_min, ih]
    rw [this, ← List.foldl_map (fun p => simEntry d col p) min]
    rfl
  have hne : pairSims d col ≠ [] := by
    have : simEntry d col (0, 1) ∈ pairSims d col := by
      rw [pairSims]
      exact List.mem_map_of_mem _ (mem_pairList.2 ⟨Nat.zero_lt_one, by omega⟩)
    exact List.ne_nil_of_mem this
  rcases List.exists_cons_of_ne_nil hne with ⟨a, l, hl⟩
  have ha : a ≤ dblMax := by
    have : a ∈ pairSims d col := by rw [hl]; exact List.mem_cons_self a l
    rw [pairSims] at this
    rcases List.mem_map.1 this with ⟨p, _, rfl⟩
    calc simEntry d col p ≤ 0 := neg_nonpos.2 (hd _ _)
      _ ≤ dblMax := hm
  rw [hf, hl]
  rw [List.foldl_cons, min_comm, min_eq_left ha]
  rfl

end AffinityProp

namespace AffinityProp

variable {V : Type} [DecidableEq V] [Inhabited V]

/-- Claim C5 as stated: off-diagonal entries are the negated distances and
every diagonal entry equals the single global minimum pairwise *distance*
found while building the table. -/
def ClaimC5 (d : V → V → ℚ) (dblMax : ℚ) (col : List V) : Prop :=
  (∀ j < col.length, ∀ i < j,
      (getSimilarity d dblMax col).getD (simIdx col.length i j) 0 =
        -(d (col.getD i default) (col.getD j default))) ∧
  (∀ i < col.length,
      some ((getSimilarity d dblMax col).getD (simIdx col.length i i) 0) =
        (pairDists d col).min?)

instance {d : V → V → ℚ} {dblMax : ℚ} {col : List V} :
    Decidable (ClaimC5 d dblMax col) := by
  unfold ClaimC5; infer_instance

end AffinityProp

/-- **C5** counterexample.  On column `[0, 1, 3]` (squared-difference
distance) the pairwise distances are `1, 9, 4`, so the single global
minimum pairwise *distance* is `1`; but the table builder tracks the
minimum of the *negated* distances, so every diagonal entry is `-9`
(minus the *maximum* pairwise distance), refuting the claim as stated. -/
theorem affinity_c5_counterexample :
    ¬ AffinityProp.ClaimC5 sqDistZQ dblMaxD ([0, 1, 3] : List ℤ) := by decide

/-- **C5** (corrected).  For every column of length `n ≥ 2`, a nonnegative
distance function and a nonnegative `DBL_MAX` model: the packed table has
`simil[idx(i,j)] = -d(col[i], col[j])` for every pair `i < j < n`, and every
diagonal self-similarity entry equals the single global minimum pairwise
*similarity* (the minimum of the negated distances, i.e. minus the maximum
pairwise distance) found while building the table — not the minimum
pairwise distance the claim stated. -/
theorem affinity_c5_amended {V : Type} [DecidableEq V] [Inhabited V]
    (d : V → V → ℚ) (dblMax : ℚ) (col : List V)
    (h2 : 2 ≤ col.length) (hd : ∀ x y, 0 ≤ d x y) (hm : 0 ≤ dblMax) :
    (∀ j < col.length, ∀ i < j,
        (AffinityProp.getSimilarity d dblMax col).getD
            (AffinityProp.simIdx col.length i j) 0 =
          -(d (col.getD i default) (col.getD j default))) ∧
    (∀ i < col.length,
        some ((AffinityProp.getSimilarity d dblMax col).getD
            (AffinityProp.simIdx col.length i i) 0) =
          (AffinityProp.pairSims d col).min?) := by
  constructor
  · intro j hj i hij
    exact AffinityProp.getSimilarity_offdiag d dblMax col hij hj
  · intro i hi
    rw [AffinityProp.getSimilarity_diag d dblMax col hi]
    exact AffinityProp.minFold_eq_min? d dblMax col h2 hd hm

/-- Witness for `affinity_c5_amended` at the column `[0, 1, 3]`. -/
theorem affinity_c5_amended_witness :
    (2 ≤ ([0, 1, 3] : List ℤ).length) ∧ (∀ x y : ℤ, 0 ≤ sqDistZQ x y) ∧
    (0 ≤ dblMaxD) ∧
    ((∀ j < ([0, 1, 3] : List ℤ).length, ∀ i < j,
        (AffinityProp.getSimilarity sqDistZQ dblMaxD [0, 1, 3]).getD
            (AffinityProp.simIdx 3 i j) 0 =
          -(sqDistZQ (([0, 1, 3] : List ℤ).getD i default)
              (([0, 1, 3] : List ℤ).getD j default))) ∧
     (∀ i < ([0, 1, 3] : List ℤ).length,
        some ((AffinityProp.getSimilarity sqDistZQ dblMaxD [0, 1, 3]).getD
            (AffinityProp.simIdx 3 i i) 0) =
          (AffinityProp.pairSims sqDistZQ ([0, 1, 3] : List ℤ)).min?)) := by
  have hd : ∀ x y : ℤ, 0 ≤ sqDistZQ x y := fun x y =>
    Int.cast_nonneg.2 (mul_self_nonneg _)
  have hm : (0 : ℚ) ≤ dblMaxD := Nat.cast_nonneg _
  exact ⟨by decide, hd, hm,
    affinity_c5_amended sqDistZQ dblMaxD ([0, 1, 3] : List ℤ) (by decide) hd hm⟩

namespace MeanShift

/-- Model of a C++ `double` value: `some q` is the finite value `q`; `none`
is a degenerate (NaN/∞) value. -/
abbrev D := Option ℚ

/-- Addition of doubles; degenerate operands propagate. -/
def dAdd : D → D → D
  | some a, some b => some (a + b)
  | _, _ => none

/-- Subtraction of doubles; degenerate operands propagate. -/
def dSub : D → D → D
  | some a, some b => some (a - b)
  | _, _ => none

/-- Multiplication of doubles; degenerate operands propagate. -/
def dMul : D → D → D
  | some a, some b => some (a * b)
  | _, _ => none

/-- Division of doubles: division by zero produces a degenerate value
(IEEE NaN for `0/0`, ±∞ otherwise); degenerate operands propagate. -/
def dDiv : D → D → D
  | some a, some b => if b = 0 then none else some (a / b)
  | _, _ => none

/-- `x <= y` on doubles: false whenever an operand is degenerate (IEEE
comparisons with NaN are false; only finite right-hand sides — program
constants — occur in the runs below). -/
def dLe : D → D → Bool
  | some a, some b => decide (a ≤ b)
  | _, _ => false

/-- The default `distance_func`, `(x - y) * (x - y)`, on doubles. -/
def sqDf (x y : D) : D := dMul (dSub x y) (dSub x y)

/-- `MeanShiftVisitor::uniform_kernel_`: `d <= 1.0 ? 1.0 : 0.0` (note a NaN
argument fails the comparison and yields `0.0`). -/
def uniformK (d : D) : D := if dLe d (some 1) then some 1 else some 0

/-- `MeanShiftVisitor::shift_` (source lines 809–820): if the candidate
`val` is within `max_dist_` of the *original* column value at `index`,
freeze the position; otherwise store `val` in the working buffer. -/
def shiftFn (df : D → D → D) (maxDist : ℚ) (col : List D) (index : ℕ)
    (val : D) (shifted : List D) (shifting : List Bool) :
    List D × List Bool :=
  if dLe (df val (col.getD index none)) (some maxDist)
  then (shifted, shifting.set index false)
  else (shifted.set index val, shifting)

/-- The weighted-sum inner loop of `MeanShiftVisitor::operator()` (source
lines 903–913): over every point within `radius` of the value being
shifted, accumulate `new_val` (first component) and `total_w` (second). -/
def weightedAccum (df : D → D → D) (kf : D → D) (radius dblSqBw : ℚ)
    (col : List D) (v : D) : D × D :=
  col.foldl
    (fun acc tv =>
      let dist := df v tv
      if dLe dist (some radius) then
        let weight := dDiv (kf dist) (some dblSqBw)
        (dAdd acc.1 (dMul tv weight), dAdd acc.2 weight)
      else acc)
    (some 0, some 0)

/-- The candidate new position of a value: the kernel-weighted sum divided
by the total weight — the source performs this division with no guard on a
zero `total_w` (source line 918). -/
def candidate (df : D → D → D) (kf : D → D) (radius dblSqBw : ℚ)
    (col : List D) (v : D) : D :=
  dDiv (weightedAccum df kf radius dblSqBw col v).1
       (weightedAccum df kf radius dblSqBw col v).2

/-- One position of one pass of the shifting loop (source lines 896–920):
skip inactive positions; otherwise compute the candidate for the current
working value and apply `shift_`. -/
def processPos (df : D → D → D) (kf : D → D) (radius dblSqBw maxDist : ℚ)
    (col : List D) (st : List D × List Bool) (i : ℕ) : List D × List Bool :=
  if st.2.getD i false then
    shiftFn df maxDist col i
      (candidate df kf radius dblSqBw col (st.1.getD i none)) st.1 st.2
  else st

/-- One full pass over all positions. -/
def pass (df : D → D → D) (kf : D → D) (radius dblSqBw maxDist : ℚ)
    (col : List D) (st : List D × List Bool) : List D × List Bool :=
  (List.range col.length).foldl (processPos df kf radius dblSqBw maxDist col) st

/-- The iteration loop: at most `max_iter_` passes, stopping early once no
position is still shifting. -/
def loop (df : D → D → D) (kf : D → D) (radius dblSqBw maxDist : ℚ)
    (col : List D) : ℕ → List D × List Bool → List D × List Bool
  | 0, st => st
  | k + 1, st =>
      if st.2.any id then loop df kf radius dblSqBw maxDist col k
        (pass df kf radius dblSqBw maxDist col st)
      else st

/-- The shifting phase of `MeanShiftVisitor::operator()`: copy the column
into the working buffer, mark every position active, and iterate; `radius`
is `kband_ * 3` and the weight divisor is `2 * kband_ * kband_`. -/
def shiftPhase (df : D → D → D) (kf : D → D) (kband maxDist : ℚ)
    (maxIter : ℕ) (col : List D) : List D × List Bool :=
  loop df kf (kband * 3) (2 * kband * kband) maxDist col maxIter
    (col, List.replicate col.length true)

/-- `MeanShiftVisitor::build_cluster_` (source lines 822–863): a single
sequential scan of the final working buffer; each point joins the first
existing cluster whose stored centroid is within `max_dist_` of its shifted
value (pushing only the value reference), else founds a new cluster whose
centroid is its shifted value.  State: cluster views, cluster index lists,
centroids. -/
def buildCluster (df : D → D → D) (maxDist : ℚ) (col : List D)
    (shifted : List D) : List (List PRef) × List (List ℕ) × List D :=
  (List.range shifted.length).foldl
    (fun acc i =>
      let (clusters, idxs, cents) := acc
      match (List.range cents.length).find?
          (fun c => dLe (df (cents.getD c none) (shifted.getD i none))
            (some maxDist)) with
      | some c => (clusters.set c (clusters.getD c [] ++ [PRef.col i]), idxs, cents)
      | none =>
          (clusters ++ [[PRef.col i]], idxs ++ [[i]], cents ++ [shifted.getD i none]))
    ([], [], [])

/-- `MeanShiftVisitor::operator()`: shifting phase then cluster build;
publishes the cluster views and index lists. -/
def apply (df : D → D → D) (kf : D → D) (kband maxDist : ℚ) (maxIter : ℕ)
    (col : List D) : List (List PRef) × List (List ℕ) :=
  let st := shiftPhase df kf kband maxDist maxIter col
  ((buildCluster df maxDist col st.1).1, (buildCluster df maxDist col st.1).2.1)

end MeanShift

/-- **C7** (confirmed).  For every configuration, state and still-active
position `i`: if the candidate kernel-weighted average for `i` lies within
the merge radius (by the distance function) of the original, unshifted
column value at `i`, processing `i` marks it inactive and leaves every
working value unchanged; otherwise the working value at `i` is replaced by
the candidate and the position stays active (the activity flags are
untouched). -/
theorem meanshift_c7_shift_dichotomy (df : MeanShift.D → MeanShift.D → MeanShift.D)
    (kf : MeanShift.D → MeanShift.D) (radius dblSqBw maxDist : ℚ)
    (col : List MeanShift.D) (st : List MeanShift.D × List Bool) (i : ℕ)
    (hact : st.2.getD i false = true) :
    (MeanShift.dLe
        (df (MeanShift.candidate df kf radius dblSqBw col (st.1.getD i none))
          (col.getD i none)) (some maxDist) = true →
      MeanShift.processPos df kf radius dblSqBw maxDist col st i =
        (st.1, st.2.set i false)) ∧
    (MeanShift.dLe
        (df (MeanShift.candidate df kf radius dblSqBw col (st.1.getD i none))
          (col.getD i none)) (some maxDist) = false →
      MeanShift.processPos df kf radius dblSqBw maxDist col st i =
        (st.1.set i (MeanShift.candidate df kf radius dblSqBw col
          (st.1.getD i none)), st.2)) := by
  unfold MeanShift.processPos MeanShift.shiftFn
  constructor <;> intro hc <;> rw [hact, hc] <;> simp

/-- Witness for `meanshift_c7_shift_dichotomy` at a concrete configuration
and state. -/
theorem meanshift_c7_shift_dichotomy_witness :
    (([true] : List Bool).getD 0 false = true) ∧
    ((MeanShift.dLe
        ((fun _ _ => none : MeanShift.D → MeanShift.D → MeanShift.D)
          (MeanShift.candidate (fun _ _ => none) id 30 200 [some 0]
            (([some 0] : List MeanShift.D).getD 0 none))
          (([some 0] : List MeanShift.D).getD 0 none)) (some 1) = true →
      MeanShift.processPos (fun _ _ => none) id 30 200 1 [some 0]
          ([some 0], [true]) 0 =
        ([some 0], ([true] : List Bool).set 0 false)) ∧
     (MeanShift.dLe
        ((fun _ _ => none : MeanShift.D → MeanShift.D → MeanShift.D)
          (MeanShift.candidate (fun _ _ => none) id 30 200 [some 0]
            (([some 0] : List MeanShift.D).getD 0 none))
          (([some 0] : List MeanShift.D).getD 0 none)) (some 1) = false →
      MeanShift.processPos (fun _ _ => none) id 30 200 1 [some 0]
          ([some 0], [true]) 0 =
        (([some 0] : List MeanShift.D).set 0
          (MeanShift.candidate (fun _ _ => none) id 30 200 [some 0]
            (([some 0] : List MeanShift.D).getD 0 none)), [true]))) :=
  ⟨by decide,
   meanshift_c7_shift_dichotomy (fun _ _ => none) id 30 200 1 [some 0]
     ([some 0], [true]) 0 (by decide)⟩

/-- **C8** (confirmed).  With the uniform kernel, bandwidth 10, merge
radius 1, 3 iterations, the default squared-difference distance and the
one-element column holding a NaN sentinel: position 0 stays active, its
accumulated total kernel weight is zero (the degenerate distance fails the
radius test, so no point contributes), the unguarded division `0/0` of the
weighted sum by the total weight yields the degenerate value, which is
stored in the working buffer; the call completes without any error and
publishes a cluster view whose single referenced value is the NaN column
element. -/
theorem meanshift_c8_nan_propagation :
    ((MeanShift.weightedAccum MeanShift.sqDf MeanShift.uniformK
        ((10 : ℚ) * 3) (2 * 10 * 10) [none] none).2 = some 0) ∧
    (MeanShift.candidate MeanShift.sqDf MeanShift.uniformK
        ((10 : ℚ) * 3) (2 * 10 * 10) [none] none = none) ∧
    (MeanShift.dDiv (some 0) (some 0) = none) ∧
    ((MeanShift.shiftPhase MeanShift.sqDf MeanShift.uniformK 10 1 3
        [none]) = ([none], [true])) ∧
    (MeanShift.apply MeanShift.sqDf MeanShift.uniformK 10 1 3 [none] =
      ([[PRef.col 0]], [[0]])) := by
  refine ⟨by decide, by decide, by decide, by decide, by decide⟩

namespace KMeans

variable {V : Type} [DecidableEq V] [Inhabited V]

/-- `KMeansVisitor::calc_clusters_` (source lines 227–262), the additional
nearest-centroid membership pass: each of the `K` cluster views is seeded
with a pointer to the visitor-owned centroid `result_[i]` (`PRef.own i`),
then every non-NaN column value is appended (with its position) to the view
of its nearest centroid.  `min_dist` starts at
`std::numeric_limits<double>::max()` (`dblMax`); the source leaves
`min_idx` uninitialized, the model starts it at 0, which matters only when
no distance is strictly below `dblMax`. -/
def calcClusters (k : ℕ) (isNan : V → Bool) (d : V → V → ℚ) (dblMax : ℚ)
    (col : List V) (means : List V) : List (List PRef) × List (List ℕ) :=
  (List.range col.length).foldl
    (fun acc j =>
      let value := col.getD j default
      if isNan value then acc
      else
        let best := (List.range k).foldl
          (fun (b : ℚ × ℕ) i =>
            let dist := d value (means.getD i default)
            if dist < b.1 then (dist, i) else b)
          (dblMax, 0)
        (acc.1.set best.2 (acc.1.getD best.2 [] ++ [PRef.col j]),
         acc.2.set best.2 (acc.2.getD best.2 [] ++ [j])))
    ((List.range k).map (fun i => [PRef.own i]), List.replicate k [])

end KMeans

namespace AffinityProp

variable {V : Type} [DecidableEq V] [Inhabited V]

/-- `AffinityPropVisitor::calc_clusters_` (source lines 448–481): if no
exemplar was found, publish nothing; otherwise append every column value
(as a value reference, with its position) to the cluster of its nearest
exemplar, the running minimum seeded with the distance to exemplar 0. -/
def calcClusters (d : V → V → ℚ) (col : List V) (centers : List V) :
    List (List PRef) × List (List ℕ) :=
  if centers.length = 0 then ([], [])
  else
    (List.range col.length).foldl
      (fun acc j =>
        let jval := col.getD j default
        let best := (List.range' 1 (centers.length - 1)).foldl
          (fun (b : ℚ × ℕ) i =>
            let dist := d jval (centers.getD i default)
            if dist < b.1 then (dist, i) else b)
          (d jval (centers.getD 0 default), 0)
        (acc.1.set best.2 (acc.1.getD best.2 [] ++ [PRef.col j]),
         acc.2.set best.2 (acc.2.getD best.2 [] ++ [j])))
      (List.replicate centers.length [], List.replicate centers.length [])

end AffinityProp

/-- A published value reference points at an element of the caller-supplied
column of length `n`. -/
def PRefInCol (n : ℕ) : PRef → Prop
  | .col j => j < n
  | .own _ => False

instance {n : ℕ} {r : PRef} : Decidable (PRefInCol n r) := by
  cases r <;> (unfold PRefInCol; infer_instance)

/-- Every reference in every given cluster view points into the column. -/
def AllColRefs (clusters : List (List PRef)) (n : ℕ) : Prop :=
  ∀ cl ∈ clusters, ∀ r ∈ cl, PRefInCol n r

instance {clusters : List (List PRef)} {n : ℕ} :
    Decidable (AllColRefs clusters n) := by
  unfold AllColRefs; infer_instance

theorem allColRefs_set_append {clusters : List (List PRef)} {n c : ℕ}
    {r : PRef} (h : AllColRefs clusters n) (hr : PRefInCol n r) :
    AllColRefs (clusters.set c (clusters.getD c [] ++ [r])) n := by
  intro cl hcl x hx
  rcases List.mem_or_eq_of_mem_set hcl with h1 | rfl
  · exact h cl h1 x hx
  · rcases List.mem_append.1 hx with h2 | h2
    · by_cases hc : c < clusters.length
      · refine h (clusters.getD c []) ?_ x h2
        rw [List.getD_eq_getElem?_getD, List.getElem?_eq_getElem hc]
        exact List.getElem_mem hc
      · rw [List.getD_eq_getElem?_getD,
          List.getElem?_eq_none (le_of_not_lt hc)] at h2
        cases h2
    · rw [List.mem_singleton.1 h2]
      exact hr

theorem allColRefs_replicate (k n : ℕ) :
    AllColRefs (List.replicate k ([] : List PRef)) n := by
  intro cl hcl r hr
  rw [List.eq_of_mem_replicate hcl] at hr
  cases hr

theorem dbscan_materialize_refs (n k : ℕ) (labels : List ℤ) :
    AllColRefs (DBSCAN.materialize n k labels).1 n := by
  unfold DBSCAN.materialize
  refine foldl_invariant
    (fun (acc : List (List PRef) × List (List ℕ) × List ℕ) =>
      AllColRefs acc.1 n) _ (List.range n) _ ?_ ?_
  · exact allColRefs_replicate k n
  · intro a ha b hb
    simp only
    split
    · exact allColRefs_set_append ha (List.mem_range.1 hb)
    · exact ha

theorem affinity_calcClusters_refs {V : Type} [DecidableEq V] [Inhabited V]
    (d : V → V → ℚ) (col centers : List V) :
    AllColRefs (AffinityProp.calcClusters d col centers).1 col.length := by
  unfold AffinityProp.calcClusters
  split
  · intro cl hcl
    cases hcl
  · refine foldl_invariant
      (fun (acc : List (List PRef) × List (List ℕ)) =>
        AllColRefs acc.1 col.length) _ (List.range col.length) _ ?_ ?_
    · exact allColRefs_replicate centers.length col.length
    · intro a ha b hb
      exact allColRefs_set_append ha (List.mem_range.1 hb)

theorem meanshift_buildCluster_refs (df : MeanShift.D → MeanShift.D → MeanShift.D)
    (maxDist : ℚ) (col shifted : List MeanShift.D)
    (hlen : shifted.length = col.length) :
    AllColRefs (MeanShift.buildCluster df maxDist col shifted).1 col.length := by
  unfold MeanShift.buildCluster
  refine foldl_invariant
    (fun (acc : List (List PRef) × List (List ℕ) × List MeanShift.D) =>
      AllColRefs acc.1 col.length) _ (List.range shifted.length) _ ?_ ?_
  · intro cl hcl
    cases hcl
  · intro a ha b hb
    have hbn : b < col.length := hlen ▸ List.mem_range.1 hb
    simp only
    split
    · exact allColRefs_set_append ha hbn
    · intro cl hcl x hx
      rcases List.mem_append.1 hcl with h1 | h1
      · exact ha cl h1 x hx
      · rw [List.mem_singleton.1 h1] at hx
        rw [List.mem_singleton.1 hx]
        exact hbn

theorem kmeans_calcClusters_refs {V : Type} [DecidableEq V] [Inhabited V]
    (k : ℕ) (isNan : V → Bool) (d : V → V → ℚ) (dblMax : ℚ)
    (col means : List V) {c : ℕ} (hc : c < k) :
    ∃ tl, (KMeans.calcClusters k isNan d dblMax col means).1.getD c [] =
        PRef.own c :: tl ∧ ∀ r ∈ tl, PRefInCol col.length r := by
  unfold KMeans.calcClusters
  refine (foldl_invariant
    (fun (acc : List (List PRef) × List (List ℕ)) =>
      acc.1.length = k ∧ ∀ c' < k, ∃ tl,
        acc.1.getD c' [] = PRef.own c' :: tl ∧
        ∀ r ∈ tl, PRefInCol col.length r)
    _ (List.range col.length)
    ((List.range k).map (fun i => [PRef.own i]), List.replicate k [])
    ?_ ?_).2 c hc
  · constructor
    · simp
    · intro c' hc'
      refine ⟨[], ?_, fun r hr => absurd hr (List.not_mem_nil r)⟩
      rw [List.getD_eq_getElem?_getD,
        List.getElem?_eq_getElem (by simpa using hc')]
      simp
  · intro a ha b hb
    simp only
    split
    · exact ha
    · refine ⟨by rw [List.length_set]; exact ha.1, ?_⟩
      intro c' hc'
      rcases ha.2 c' hc' with ⟨tl, htl, htlr⟩
      set best := (List.range k).foldl
        (fun (b' : ℚ × ℕ) i =>
          if d (col.getD b default) (means.getD i default) < b'.1
          then (d (col.getD b default) (means.getD i default), i) else b') (dblMax, 0) with hbest
      rw [getD_set']
      split
      · next hcond =>
          refine ⟨tl ++ [PRef.col b], by rw [hcond.1, htl]; simp, ?_⟩
          intro r hr
          rcases List.mem_append.1 hr with h1 | h1
          · exact htlr r h1
          · rw [List.mem_singleton.1 h1]
            exact List.mem_range.1 hb
      · exact ⟨tl, htl, htlr⟩

/-- **C9** counterexample.  In KMeans' nearest-centroid membership pass
(`calc_clusters_`), each cluster view is seeded with `&result_[i]` — a
pointer to the visitor-owned centroid array, not into the caller's column:
already for `K = 1` and the one-element column `[0]`, the published view's
first reference is the centroid reference, refuting the claim that every
stored reference points to an element of the caller-supplied column. -/
theorem clusters_c9_counterexample :
    ¬ AllColRefs
        (KMeans.calcClusters 1 (fun _ => false) (fun _ _ => 0) dblMaxD
          ([0] : List ℤ) [0]).1 1 := by decide

/-- **C9** (corrected).  Every value reference stored in a published
cluster view points to an element of the caller-supplied column, *except*
that each KMeans cluster view begins with a reference to the visitor-owned
centroid of that cluster: (1) KMeans' view of cluster `c` is the centroid
reference followed by column references only — in particular everything the
nearest-centroid pass itself appends is a column reference; (2) every
AffinityProp view holds column references only; (3) every DBSCAN view holds
column references only; (4) every MeanShift view holds column references
only. -/
theorem clusters_c9_amended :
    (∀ {V : Type} [DecidableEq V] [Inhabited V] (k : ℕ) (isNan : V → Bool)
       (d : V → V → ℚ) (dblMax : ℚ) (col means : List V) (c : ℕ), c < k →
       ∃ tl, (KMeans.calcClusters k isNan d dblMax col means).1.getD c [] =
           PRef.own c :: tl ∧ ∀ r ∈ tl, PRefInCol col.length r) ∧
    (∀ {V : Type} [DecidableEq V] [Inhabited V] (d : V → V → ℚ)
       (col centers : List V),
       AllColRefs (AffinityProp.calcClusters d col centers).1 col.length) ∧
    (∀ (n k : ℕ) (labels : List ℤ),
       AllColRefs (DBSCAN.materialize n k labels).1 n) ∧
    (∀ (df : MeanShift.D → MeanShift.D → MeanShift.D) (maxDist : ℚ)
       (col shifted : List MeanShift.D), shifted.length = col.length →
       AllColRefs (MeanShift.buildCluster df maxDist col shifted).1
         col.length) :=
  ⟨fun k isNan d dblMax col means _ hc =>
      kmeans_calcClusters_refs k isNan d dblMax col means hc,
   fun d col centers => affinity_calcClusters_refs d col centers,
   fun n k labels => dbscan_materialize_refs n k labels,
   fun df maxDist col shifted hlen =>
      meanshift_buildCluster_refs df maxDist col shifted hlen⟩

/-- Witness for `clusters_c9_amended` at concrete inputs for each of the
four materializers. -/
theorem clusters_c9_amended_witness :
    (∃ tl, (KMeans.calcClusters 1 (fun _ => false) (fun _ _ => 0) dblMaxD
        ([0] : List ℤ) [0]).1.getD 0 [] = PRef.own 0 :: tl ∧
        ∀ r ∈ tl, PRefInCol 1 r) ∧
    AllColRefs (AffinityProp.calcClusters (fun _ _ => 0) ([0] : List ℤ)
      [0]).1 1 ∧
    AllColRefs (DBSCAN.materialize 2 1 [0, -2]).1 2 ∧
    AllColRefs (MeanShift.buildCluster MeanShift.sqDf 1 [some 0]
      [some 0]).1 1 :=
  ⟨clusters_c9_amended.1 1 (fun _ => false) (fun _ _ => 0) dblMaxD
      ([0] : List ℤ) [0] 0 (by decide),
   clusters_c9_amended.2.1 (fun _ _ => 0) ([0] : List ℤ) [0],
   clusters_c9_amended.2.2.1 2 1 [0, -2],
   clusters_c9_amended.2.2.2 MeanShift.sqDf 1 [some 0] [some 0] (by decide)⟩

namespace FFT

/-- `FastFourierTransVisitor::reverse_bits_`: accumulator recursion over the
`width` iterations (`result = (result << 1) | (val & 1); val >>= 1`). -/
def reverseBitsAux : ℕ → ℕ → ℕ → ℕ
  | 0, _, acc => acc
  | w + 1, val, acc => reverseBitsAux w (val / 2) (2 * acc + val % 2)

/-- `FastFourierTransVisitor::reverse_bits_`. -/
def reverseBits (val width : ℕ) : ℕ := reverseBitsAux width val 0

/-- A sequential indexed loop `for (i = a; i < a + len; ++i) act i` over a
vector state. -/
def seqFor {C : Type} (act : ℕ → List C → List C) (a len : ℕ)
    (init : List C) : List C :=
  (List.range' a len).foldl (fun w i => act i w) init

/-- The same loop split into consecutive chunks of the given lengths, as the
thread pool's `parallel_loop` dispatches it; chunks are joined in order. -/
def chunkedFor {C : Type} (act : ℕ → List C → List C) :
    ℕ → List ℕ → List C → List C
  | _, [], s => s
  | a, l :: ls, s => chunkedFor act (a + l) ls (seqFor act a l s)

/-- Chunked execution over any chunk-length list summing to `len` computes
the sequential loop. -/
theorem chunkedFor_eq {C : Type} (act : ℕ → List C → List C) (ls : List ℕ) :
    ∀ (a : ℕ) (s : List C), chunkedFor act a ls s = seqFor act a ls.sum s := by
  induction ls with
  | nil => intro a s; rfl
  | cons l ls ih =>
      intro a s
      rw [chunkedFor, ih, List.sum_cons]
      unfold seqFor
      rw [← List.foldl_append, List.range'_append_1, Nat.add_comm ls.sum l]

/-- The per-site dispatch between the chunked-parallel path and the
sequential path: `mode = some ch` models a concurrency level above the
floor (`thread_level > 2`) with `ch` the pool's chunking of a loop length,
applied when the vector size `sz` meets `MUL_THR_THHOLD` (`thhold`);
`mode = none` models a sequential concurrency level. -/
def runLoop {C : Type} (mode : Option (ℕ → List ℕ)) (thhold : ℕ) (sz : ℕ)
    (act : ℕ → List C → List C) (a len : ℕ) (init : List C) : List C :=
  match mode with
  | some ch => if thhold ≤ sz then chunkedFor act a (ch len) init
               else seqFor act a len init
  | none => seqFor act a len init

/-- A well-formed chunking splits every loop length exactly. -/
def ChunksOk (ch : ℕ → List ℕ) : Prop := ∀ k, (ch k).sum = k

theorem runLoop_eq {C : Type} {mode : Option (ℕ → List ℕ)}
    (h : ∀ ch ∈ mode, ChunksOk ch) (thhold sz : ℕ)
    (act : ℕ → List C → List C) (a len : ℕ) (init : List C) :
    runLoop mode thhold sz act a len init = seqFor act a len init := by
  match mode with
  | none => rfl
  | some ch =>
      rw [runLoop]
      split
      · rw [chunkedFor_eq, h ch (Option.mem_def.2 rfl) len]
      · rfl

end FFT


namespace FFT

variable {C : Type} [Field C]

/-- One butterfly of the Cooley–Tukey stage (source lines 1097–1101):
`temp = column[j+half] * exp_table[k]; column[j+half] = column[j] - temp;
column[j] += temp` — the second statement reads `column[j]` unmodified by
the first since `j ≠ j + half` (`half ≥ 1` at every call). -/
def butterfly (tbl : List C) (half j k : ℕ) (v : List C) : List C :=
  let temp := v.getD (j + half) 0 * tbl.getD k 0
  (v.set (j + half) (v.getD j 0 - temp)).set j (v.getD j 0 + temp)

/-- The inner butterfly loop over one block starting at `base` (source
lines 1095–1102): `j = base + r`, `k = r * table_step`. -/
def stageBlock (tbl : List C) (half step base : ℕ) (v : List C) : List C :=
  (List.range half).foldl
    (fun w r => butterfly tbl half (base + r) (r * step) w) v

/-- One stage `s` of the radix-2 FFT (source lines 1090–1104): blocks start
at the multiples of `s` below `n`; `half_size = s / 2`,
`table_step = n / s`. -/
def stage (tbl : List C) (s n : ℕ) (v : List C) : List C :=
  (List.range ((n + s - 1) / s)).foldl
    (fun w b => stageBlock tbl (s / 2) (n / s) (b * s) w) v

/-- The bit-reversed addressing permutation (source lines 1082–1086). -/
def bitrevPerm (n levels : ℕ) (v : List C) : List C :=
  (List.range n).foldl
    (fun w i =>
      let rb := reverseBits i levels
      if rb > i then (w.set i (w.getD rb 0)).set rb (w.getD i 0) else w)
    v

variable (mode : Option (ℕ → List ℕ)) (thhold : ℕ) (cis : ℚ → C)
  (conj : C → C)

/-- `FastFourierTransVisitor::fft_radix2_` (source lines 1041–1105).
`cis q` models `std::polar(1, 2π·q)`, so the table entry
`polar(1, two_pi·i/col_s)` with `two_pi = ±2π` is `cis (±i/n)`; `levels` is
the source's `floor(log2 col_s)` loop, which is exactly `Nat.log2`; the
stage sizes `s = 2, 4, …` are the `2^(t+1)` for `t < levels`.  Only the
trigonometric-table loop has a parallel branch. -/
def fftRadix2 (reverse : Bool) (v : List C) : List C :=
  let n := v.length
  let levels := Nat.log2 n
  let sign : ℚ := if reverse then 1 else -1
  let tbl := runLoop mode thhold n
    (fun i w => w.set i (cis (sign * i / n))) 0 (n / 2)
    (List.replicate (n / 2) 0)
  (List.range levels).foldl (fun w t => stage tbl (2 ^ (t + 1)) n w)
    (bitrevPerm n levels v)

/-- The convolution length search of `fft_bluestein_`
(`size_type m {1}; while (m / 2 <= col_s) m *= 2;`), fuelled. -/
def blueMAux (n : ℕ) : ℕ → ℕ → ℕ
  | 0, m => m
  | f + 1, m => if m / 2 ≤ n then blueMAux n f (m * 2) else m

/-- The power-of-two convolution length `m` with `m / 2 > col_s`
(equivalently `m ≥ 2·col_s + 2 > 2·col_s + 1`). -/
def blueM (n : ℕ) : ℕ := blueMAux n (n + 2) 1

/-- The pointwise-multiply site of `convolve_` (source lines 988–1005),
`xvec[i] *= yvec[i]` over `[0, xvec.size())`: a chunked in-place loop on
the parallel path, `std::transform` with `std::multiplies` on the
sequential path. -/
def mulLoop (y x : List C) : List C :=
  match mode with
  | some ch =>
      if thhold ≤ x.length then
        chunkedFor (fun i w => w.set i (w.getD i 0 * y.getD i 0)) 0
          (ch x.length) x
      else x.zipWith (· * ·) y
  | none => x.zipWith (· * ·) y

/-- The scaling site of `convolve_` (lines 1009–1027) and of `itransform_`
(lines 1289–1310), `x[i] /= sz` over `[0, sz)`: chunked in place on the
parallel path, `std::transform` on the sequential path. -/
def scaleLoop (sz : ℕ) (x : List C) : List C :=
  match mode with
  | some ch =>
      if thhold ≤ sz then
        chunkedFor (fun i w => w.set i (w.getD i 0 / (sz : C))) 0 (ch sz) x
      else x.map (fun z => z / (sz : C))
  | none => x.map (fun z => z / (sz : C))

/-- The conjugation site of `itransform_` (source lines 1240–1262 and
1274–1305), `x[i] = conj(x[i])` over `[0, sz)`. -/
def conjLoop (sz : ℕ) (x : List C) : List C :=
  match mode with
  | some ch =>
      if thhold ≤ sz then
        chunkedFor (fun i w => w.set i (conj (w.getD i 0))) 0 (ch sz) x
      else x.map conj
  | none => x.map conj

/-- `FastFourierTransVisitor::convolve_` (source lines 980–1029), with the
recursive `transform_` supplied as `tr`: forward-transform both operands,
multiply pointwise, reverse-transform, and scale by the convolution length
(`col_s = real_t(xvec.size())`, read after the forward transforms). -/
def convolveWith (tr : Bool → List C → List C) (xv yv : List C) : List C :=
  let x1 := tr false xv
  let y1 := tr false yv
  let L := x1.length
  scaleLoop mode thhold L (tr true (mulLoop mode thhold y1 x1))

/-- The chirp (trigonometric) table of `fft_bluestein_` (source lines
1112–1141): entry `i` is `polar(1, ±π·((i·i) mod 2n)/n)`, i.e.
`cis (±((i·i) mod 2n)/(2n))`; built by a parallel or sequential loop into a
length-`n` buffer. -/
def blueTable (reverse : Bool) (n : ℕ) : List C :=
  runLoop mode thhold n
    (fun i w => w.set i
      (cis (((if reverse then 1 else -1) : ℚ) *
        (((i * i) % (2 * n) : ℕ) : ℚ) / (2 * n))))
    0 n (List.replicate n 0)

/-- The preprocessing of `fft_bluestein_` (source lines 1149–1169): `xvec`
holds `column[i] * exp_table[i]` for `i < n`, zero-padded to length `m`. -/
def blueXvec (v et : List C) (m : ℕ) : List C :=
  runLoop mode thhold v.length
    (fun i w => w.set i (v.getD i 0 * et.getD i 0))
    0 v.length (List.replicate m 0)

/-- The second convolution operand of `fft_bluestein_` (source lines
1171–1190): `yvec[0] = exp_table[0]`, and
`yvec[i] = yvec[m - i] = conj(exp_table[i])` for `1 ≤ i < n`. -/
def blueYvec (et : List C) (n m : ℕ) : List C :=
  runLoop mode thhold n
    (fun i w => (w.set (m - i) (conj (et.getD i 0))).set i
      (conj (et.getD i 0)))
    1 (n - 1) ((List.replicate m (0 : C)).set 0 (et.getD 0 0))

/-- The postprocessing site of `fft_bluestein_` (source lines 1198–1217),
`column[i] = exp_table[i] * conv[i]`: a chunked loop over
`exp_table.size()` on the parallel path, `std::transform` with
`std::multiplies` writing the `n` products into the length-`n` column on
the sequential path. -/
def postLoop (et conv : List C) (n : ℕ) (v : List C) : List C :=
  match mode with
  | some ch =>
      if thhold ≤ n then
        chunkedFor (fun i w => w.set i (et.getD i 0 * conv.getD i 0)) 0
          (ch et.length) v
      else et.zipWith (· * ·) conv
  | none => et.zipWith (· * ·) conv

/-- `FastFourierTransVisitor::fft_bluestein_` (source lines 1107–1218),
with the recursive `transform_` of `convolve_` supplied as `tr`. -/
def fftBluesteinWith (tr : Bool → List C → List C) (reverse : Bool)
    (v : List C) : List C :=
  let n := v.length
  let expTable := blueTable mode thhold cis reverse n
  let m := blueM n
  let conv := convolveWith mode thhold tr
    (blueXvec mode thhold v expTable m)
    (blueYvec mode thhold conj expTable n m)
  postLoop mode thhold expTable conv n v

/-- `FastFourierTransVisitor::transform_` (source lines 1220–1231), fuelled
to express the `transform_ → fft_bluestein_ → convolve_ → transform_`
recursion (the inner call is always on a power-of-two length, so fuel 2
suffices from the public entry points and the fuel-0 fallback is never
reached there): empty input unchanged; power-of-two length
(`(col_s & (col_s - 1)) == 0`) to radix-2, otherwise Bluestein. -/
def transformGo : ℕ → Bool → List C → List C
  | 0, _, v => v
  | fuel + 1, reverse, v =>
      if v.length = 0 then v
      else if v.length &&& (v.length - 1) = 0 then
        fftRadix2 mode thhold cis reverse v
      else
        fftBluesteinWith mode thhold cis conj
          (transformGo fuel) reverse v

/-- `FastFourierTransVisitor::transform_`, the public entry. -/
def transform (reverse : Bool) (v : List C) : List C :=
  transformGo mode thhold cis conj 2 reverse v

/-- `FastFourierTransVisitor::itransform_` (source lines 1233–1312):
conjugate every element, run the *forward* dispatch (radix-2 on
power-of-two lengths, Bluestein otherwise — with no empty-input early
return), conjugate again and scale every element by the length. -/
def itransform (v : List C) : List C :=
  let n := v.length
  let w1 := conjLoop mode thhold conj n v
  let w2 :=
    if n &&& (n - 1) = 0 then fftRadix2 mode thhold cis false w1
    else fftBluesteinWith mode thhold cis conj
      (transformGo mode thhold cis conj 1) false w1
  scaleLoop mode thhold n (conjLoop mode thhold conj n w2)

/-- The copy of `operator()` (source lines 1323–1366): the column is copied
into the freshly allocated result buffer (the model's input is already
complex, so the element transformation is the identity). -/
def copyLoop (v : List C) : List C :=
  match mode with
  | some ch =>
      if thhold ≤ v.length then
        chunkedFor (fun i w => w.set i (v.getD i 0)) 0 (ch v.length)
          (List.replicate v.length 0)
      else v.map id
  | none => v.map id

/-- `FastFourierTransVisitor::operator()` (source lines 1316–1373): copy
the column into the result buffer and transform in place; the `result()`
accessor publishes this buffer. -/
def fftApply (inverse : Bool) (v : List C) : List C :=
  if inverse then itransform mode thhold cis conj (copyLoop mode thhold v)
  else transform mode thhold cis conj false (copyLoop mode thhold v)

end FFT

namespace FFT

variable {C : Type} [Field C]

theorem seqFor_length {act : ℕ → List C → List C}
    (h : ∀ (i : ℕ) (w : List C), (act i w).length = w.length)
    (a len : ℕ) (init : List C) :
    (seqFor act a len init).length = init.length := by
  refine foldl_invariant (fun (w : List C) => w.length = init.length) _ _ _ rfl ?_
  intro w hw i _
  rw [h i w, hw]

theorem chunkedFor_length {act : ℕ → List C → List C}
    (h : ∀ (i : ℕ) (w : List C), (act i w).length = w.length) (ls : List ℕ) :
    ∀ (a : ℕ) (init : List C),
      (chunkedFor act a ls init).length = init.length := by
  induction ls with
  | nil => intro a init; rfl
  | cons l ls ih =>
      intro a init
      rw [chunkedFor, ih, seqFor_length h]

theorem runLoop_length {mode : Option (ℕ → List ℕ)} {thhold sz : ℕ}
    {act : ℕ → List C → List C}
    (h : ∀ (i : ℕ) (w : List C), (act i w).length = w.length)
    (a len : ℕ) (init : List C) :
    (runLoop mode thhold sz act a len init).length = init.length := by
  match mode with
  | none => exact seqFor_length h a len init
  | some ch =>
      rw [runLoop]
      split
      · exact chunkedFor_length h (ch len) a init
      · exact seqFor_length h a len init

theorem butterfly_length (tbl : List C) (half j k : ℕ) (v : List C) :
    (butterfly tbl half j k v).length = v.length := by
  simp [butterfly]

theorem stageBlock_length (tbl : List C) (half step base : ℕ) (v : List C) :
    (stageBlock tbl half step base v).length = v.length := by
  refine foldl_invariant (fun (w : List C) => w.length = v.length) _ _ _ rfl ?_
  intro w hw r _
  rw [butterfly_length, hw]

theorem stage_length (tbl : List C) (s n : ℕ) (v : List C) :
    (stage tbl s n v).length = v.length := by
  refine foldl_invariant (fun (w : List C) => w.length = v.length) _ _ _ rfl ?_
  intro w hw b _
  rw [stageBlock_length, hw]

theorem bitrevPerm_length (n levels : ℕ) (v : List C) :
    (bitrevPerm n levels v).length = v.length := by
  refine foldl_invariant (fun (w : List C) => w.length = v.length) _ _ _ rfl ?_
  intro w hw i _
  simp only
  split <;> simp [hw]

variable (mode : Option (ℕ → List ℕ)) (thhold : ℕ) (cis : ℚ → C)
  (conj : C → C)

theorem fftRadix2_length (reverse : Bool) (v : List C) :
    (fftRadix2 mode thhold cis reverse v).length = v.length := by
  unfold fftRadix2
  refine foldl_invariant (fun (w : List C) => w.length = v.length) _ _ _
    (bitrevPerm_length _ _ v) ?_
  intro w hw t _
  rw [stage_length, hw]

theorem blueMAux_ge (n : ℕ) :
    ∀ (f m : ℕ), 1 ≤ m → 2 * n + 2 ≤ 2 ^ f * m →
      2 * n + 2 ≤ blueMAux n f m := by
  intro f
  induction f with
  | zero => intro m h1 h2; simpa using h2
  | succ f ih =>
      intro m h1 h2
      by_cases hc : m / 2 ≤ n
      · rw [blueMAux, if_pos hc]
        refine ih (m * 2) (by omega) ?_
        have he : 2 ^ f * (m * 2) = 2 ^ (f + 1) * m := by ring
        omega
      · rw [blueMAux, if_neg hc]
        omega

theorem blueM_ge (n : ℕ) : 2 * n + 2 ≤ blueM n := by
  refine blueMAux_ge n (n + 2) 1 le_rfl ?_
  have h := Nat.lt_two_pow n
  have h2 : 2 ^ (n + 1) ≤ 2 ^ (n + 2) :=
    Nat.pow_le_pow_right (by omega) (by omega)
  have h1 : 2 * n + 2 ≤ 2 ^ (n + 1) := by rw [pow_succ]; omega
  omega

theorem blueMAux_pow2 (n : ℕ) :
    ∀ (f m : ℕ), (∃ k, m = 2 ^ k) → ∃ k, blueMAux n f m = 2 ^ k := by
  intro f
  induction f with
  | zero => intro m h; simpa using h
  | succ f ih =>
      intro m h
      rw [blueMAux]
      split
      · rcases h with ⟨k, rfl⟩
        exact ih _ ⟨k + 1, by rw [pow_succ]⟩
      · exact h

theorem blueM_pow2 (n : ℕ) : ∃ k, blueM n = 2 ^ k :=
  blueMAux_pow2 n (n + 2) 1 ⟨0, rfl⟩

theorem blueTable_length (reverse : Bool) (n : ℕ) :
    (blueTable mode thhold cis reverse n).length = n := by
  unfold blueTable
  rw [runLoop_length (fun i (w : List C) => by simp), List.length_replicate]

theorem blueXvec_length (v et : List C) (m : ℕ) :
    (blueXvec mode thhold v et m).length = m := by
  unfold blueXvec
  rw [runLoop_length (fun i (w : List C) => by simp), List.length_replicate]

theorem blueYvec_length (et : List C) (n m : ℕ) :
    (blueYvec mode thhold conj et n m).length = m := by
  unfold blueYvec
  rw [runLoop_length (fun i (w : List C) => by simp), List.length_set,
    List.length_replicate]

theorem mulLoop_length (y x : List C) (hxy : x.length = y.length) :
    (mulLoop mode thhold y x).length = x.length := by
  unfold mulLoop
  match mode with
  | none => rw [List.length_zipWith, ← hxy, min_self]
  | some ch =>
      simp only
      split
      · exact chunkedFor_length (fun i (w : List C) => by simp) _ 0 x
      · rw [List.length_zipWith, ← hxy, min_self]

theorem scaleLoop_length (sz : ℕ) (x : List C) :
    (scaleLoop mode thhold sz x).length = x.length := by
  unfold scaleLoop
  match mode with
  | none => exact List.length_map x _
  | some ch =>
      simp only
      split
      · exact chunkedFor_length (fun i (w : List C) => by simp) _ 0 x
      · exact List.length_map x _

theorem conjLoop_length (sz : ℕ) (x : List C) :
    (conjLoop mode thhold conj sz x).length = x.length := by
  unfold conjLoop
  match mode with
  | none => exact List.length_map x _
  | some ch =>
      simp only
      split
      · exact chunkedFor_length (fun i (w : List C) => by simp) _ 0 x
      · exact List.length_map x _

theorem convolveWith_length (tr : Bool → List C → List C)
    (htr : ∀ (b : Bool) (w : List C), (tr b w).length = w.length)
    (xv yv : List C) (hxy : xv.length = yv.length) :
    (convolveWith mode thhold tr xv yv).length = xv.length := by
  unfold convolveWith
  rw [scaleLoop_length, htr, mulLoop_length, htr]
  rw [htr, htr, hxy]

theorem postLoop_length (et conv : List C) (n : ℕ) (v : List C)
    (hv : v.length = n) (het : et.length = n) (hconv : n ≤ conv.length) :
    (postLoop mode thhold et conv n v).length = n := by
  unfold postLoop
  match mode with
  | none => rw [List.length_zipWith, het]; omega
  | some ch =>
      simp only
      split
      · rw [chunkedFor_length (fun i (w : List C) => by simp) _ 0 v, hv]
      · rw [List.length_zipWith, het]; omega

theorem fftBluesteinWith_length (tr : Bool → List C → List C)
    (htr : ∀ (b : Bool) (w : List C), (tr b w).length = w.length)
    (reverse : Bool) (v : List C) :
    (fftBluesteinWith mode thhold cis conj tr reverse v).length
      = v.length := by
  unfold fftBluesteinWith
  refine postLoop_length mode thhold _ _ _ _ rfl (blueTable_length _ _ _ _ _) ?_
  rw [convolveWith_length mode thhold tr htr _ _
    (by rw [blueXvec_length, blueYvec_length]), blueXvec_length]
  have := blueM_ge v.length
  omega

theorem transformGo_length :
    ∀ (fuel : ℕ) (reverse : Bool) (v : List C),
      (transformGo mode thhold cis conj fuel reverse v).length
        = v.length := by
  intro fuel
  induction fuel with
  | zero => intro reverse v; rfl
  | succ fuel ih =>
      intro reverse v
      rw [transformGo]
      split
      · rfl
      · split
        · exact fftRadix2_length mode thhold cis reverse v
        · exact fftBluesteinWith_length mode thhold cis conj _
            (fun b w => ih b w) reverse v

theorem itransform_length (v : List C) :
    (itransform mode thhold cis conj v).length = v.length := by
  unfold itransform
  rw [scaleLoop_length, conjLoop_length]
  split
  · rw [fftRadix2_length, conjLoop_length]
  · rw [fftBluesteinWith_length mode thhold cis conj _
      (fun b w => transformGo_length mode thhold cis conj 1 b w),
      conjLoop_length]

theorem copyLoop_length (v : List C) :
    (copyLoop mode thhold v).length = v.length := by
  unfold copyLoop
  match mode with
  | none => exact List.length_map v _
  | some ch =>
      simp only
      split
      · rw [chunkedFor_length (fun i (w : List C) => by simp) _ 0,
          List.length_replicate]
      · exact List.length_map v _

end FFT

/-- **C2** (confirmed).  For every input column and both transform
directions, the published spectral result has exactly the input's length;
moreover for every length `n` the Bluestein path's internal convolution
length `blueM n` is a power of two of size at least `2n + 1` (indeed
`≥ 2n + 2`), so the padding never changes the externally observed
length. -/
theorem fft_c2_output_length {C : Type} [Field C]
    (mode : Option (ℕ → List ℕ)) (thhold : ℕ) (cis : ℚ → C) (conj : C → C)
    (inverse : Bool) (v : List C) :
    (FFT.fftApply mode thhold cis conj inverse v).length = v.length ∧
    2 * v.length + 1 ≤ FFT.blueM v.length ∧
    ∃ k, FFT.blueM v.length = 2 ^ k := by
  refine ⟨?_, by have := FFT.blueM_ge v.length; omega,
    FFT.blueM_pow2 v.length⟩
  unfold FFT.fftApply
  split
  · rw [FFT.itransform_length, FFT.copyLoop_length]
  · rw [FFT.transform, FFT.transformGo_length, FFT.copyLoop_length]

namespace FFT

variable {C : Type} [Field C]

/-- Pointwise description of an in-place read-modify-write loop: cell `p`
holds `g p init[p]` when the loop range covers `p` (and `p` is in bounds),
and is untouched otherwise. -/
theorem seqFor_rmw_getD (g : ℕ → C → C) :
    ∀ (len a : ℕ) (init : List C) (p : ℕ),
      (seqFor (fun i w => w.set i (g i (w.getD i 0))) a len init).getD p 0 =
        if a ≤ p ∧ p < a + len ∧ p < init.length
        then g p (init.getD p 0) else init.getD p 0 := by
  intro len
  induction len with
  | zero =>
      intro a init p
      rw [seqFor]
      simp only [List.range'_zero, List.foldl_nil]
      split
      · omega
      · rfl
  | succ len ih =>
      intro a init p
      rw [seqFor, List.range'_succ, List.foldl_cons]
      have hstep : (List.range' (a + 1) len).foldl
          (fun w i => (fun i w => w.set i (g i (w.getD i 0))) i w)
          (init.set a (g a (init.getD a 0)))
          = seqFor (fun i w => w.set i (g i (w.getD i 0))) (a + 1) len
              (init.set a (g a (init.getD a 0))) := rfl
      rw [hstep, ih]
      simp only [List.length_set, getD_set']
      by_cases hpa : a = p
      · subst hpa
        split_ifs <;> first | rfl | omega | simp_all
      · simp only [if_neg (fun hh : a = p ∧ a < init.length => hpa hh.1)]
        split_ifs <;> first | rfl | omega | simp_all

theorem seqFor_rmw_length (g : ℕ → C → C) (a len : ℕ) (init : List C) :
    (seqFor (fun i w => w.set i (g i (w.getD i 0))) a len init).length
      = init.length :=
  seqFor_length (fun i w => by simp) a len init

/-- A full-range in-place map loop is `List.map`. -/
theorem seqFor_map (g : C → C) (x : List C) :
    seqFor (fun i w => w.set i (g (w.getD i 0))) 0 x.length x = x.map g := by
  refine List.ext_getElem
    (by rw [seqFor_rmw_length (fun _ z => g z), List.length_map]) ?_
  intro p h1 h2
  rw [← List.getD_eq_getElem _ 0 h1, seqFor_rmw_getD (fun _ z => g z)]
  rw [seqFor_rmw_length (fun _ z => g z)] at h1
  rw [if_pos (by omega), List.getD_eq_getElem _ 0 h1, List.getElem_map]

/-- A full-range in-place combine with a second vector is `List.zipWith`. -/
theorem seqFor_zip (op : C → C → C) (x y : List C) (h : x.length = y.length) :
    seqFor (fun i w => w.set i (op (w.getD i 0) (y.getD i 0))) 0 x.length x
      = x.zipWith op y := by
  refine List.ext_getElem
    (by rw [seqFor_rmw_length (fun i z => op z (y.getD i 0)),
      List.length_zipWith, ← h, min_self]) ?_
  intro p h1 h2
  rw [← List.getD_eq_getElem _ 0 h1,
    seqFor_rmw_getD (fun i z => op z (y.getD i 0))]
  rw [seqFor_rmw_length (fun i z => op z (y.getD i 0))] at h1
  rw [if_pos (by omega), List.getElem_zipWith,
    List.getD_eq_getElem _ 0 h1, List.getD_eq_getElem _ 0 (by omega)]

/-- A full-range write of `f` into any same-length buffer produces the
elementwise list of `f`-values. -/
theorem seqFor_fill (f : ℕ → C) (len : ℕ) (init : List C)
    (hlen : init.length = len) :
    seqFor (fun i w => w.set i (f i)) 0 len init
      = (List.range len).map f := by
  refine List.ext_getElem
    (by rw [seqFor_rmw_length (fun i _ => f i), hlen, List.length_map,
      List.length_range]) ?_
  intro p h1 h2
  rw [← List.getD_eq_getElem _ 0 h1, seqFor_rmw_getD (fun i _ => f i)]
  rw [seqFor_rmw_length (fun i _ => f i), hlen] at h1
  rw [if_pos (by omega), List.getElem_map, List.getElem_range]

end FFT

namespace FFT

variable {C : Type} [Field C]

theorem getD_range_map (v : List C) :
    (List.range v.length).map (fun i => v.getD i 0) = v := by
  refine List.ext_getElem (by simp) ?_
  intro p h1 h2
  rw [List.getElem_map, List.getElem_range, List.getD_eq_getElem _ 0 h2]


variable {mode : Option (ℕ → List ℕ)}

theorem runLoop_eq_none (hm : ∀ ch ∈ mode, ChunksOk ch) (thhold sz : ℕ)
    (act : ℕ → List C → List C) (a len : ℕ) (init : List C) :
    runLoop mode thhold sz act a len init =
      runLoop none thhold sz act a len init :=
  runLoop_eq hm thhold sz act a len init

theorem fftRadix2_eq (hm : ∀ ch ∈ mode, ChunksOk ch) (thhold : ℕ)
    (cis : ℚ → C) (reverse : Bool) (v : List C) :
    fftRadix2 mode thhold cis reverse v =
      fftRadix2 none thhold cis reverse v := by
  simp only [fftRadix2]
  rw [runLoop_eq_none hm]

theorem mulLoop_eq (hm : ∀ ch ∈ mode, ChunksOk ch) (thhold : ℕ)
    (y x : List C) (hxy : x.length = y.length) :
    mulLoop mode thhold y x = x.zipWith (· * ·) y := by
  unfold mulLoop
  match mode with
  | none => rfl
  | some ch =>
      simp only
      split
      · rw [chunkedFor_eq, hm ch (Option.mem_def.2 rfl) x.length]
        exact seqFor_zip (· * ·) x y hxy
      · rfl

theorem scaleLoop_eq (hm : ∀ ch ∈ mode, ChunksOk ch) (thhold : ℕ)
    (sz : ℕ) (x : List C) (hsz : sz = x.length) :
    scaleLoop mode thhold sz x = x.map (fun z => z / (sz : C)) := by
  unfold scaleLoop
  match mode with
  | none => rfl
  | some ch =>
      simp only
      split
      · rw [chunkedFor_eq, hm ch (Option.mem_def.2 rfl) sz, hsz]
        exact seqFor_map (fun z => z / (x.length : C)) x
      · rfl

theorem conjLoop_eq (hm : ∀ ch ∈ mode, ChunksOk ch) (thhold : ℕ)
    (conj : C → C) (sz : ℕ) (x : List C) (hsz : sz = x.length) :
    conjLoop mode thhold conj sz x = x.map conj := by
  unfold conjLoop
  match mode with
  | none => rfl
  | some ch =>
      simp only
      split
      · rw [chunkedFor_eq, hm ch (Option.mem_def.2 rfl) sz, hsz]
        exact seqFor_map conj x
      · rfl

theorem copyLoop_eq (hm : ∀ ch ∈ mode, ChunksOk ch) (thhold : ℕ)
    (v : List C) : copyLoop mode thhold v = v := by
  unfold copyLoop
  match mode with
  | none => exact List.map_id v
  | some ch =>
      simp only
      split
      · rw [chunkedFor_eq, hm ch (Option.mem_def.2 rfl) v.length,
          seqFor_fill _ _ _ (List.length_replicate _ _), getD_range_map]
      · exact List.map_id v

theorem postLoop_eq (hm : ∀ ch ∈ mode, ChunksOk ch) (thhold : ℕ)
    (et conv : List C) (n : ℕ) (v : List C)
    (hv : v.length = et.length) (hconv : et.length ≤ conv.length) :
    postLoop mode thhold et conv n v = et.zipWith (· * ·) conv := by
  unfold postLoop
  have hseq : seqFor (fun i w => w.set i (et.getD i 0 * conv.getD i 0)) 0
      et.length v = et.zipWith (· * ·) conv := by
    rw [seqFor_fill _ _ _ hv]
    refine List.ext_getElem
      (by rw [List.length_map, List.length_range, List.length_zipWith]
          omega) ?_
    intro p h1 h2
    rw [List.getElem_map, List.getElem_range, List.getElem_zipWith]
    rw [List.length_map, List.length_range] at h1
    rw [List.getD_eq_getElem _ 0 h1, List.getD_eq_getElem _ 0 (by omega)]
  match mode with
  | none => exact hseq.symm ▸ rfl
  | some ch =>
      simp only
      split
      · rw [chunkedFor_eq, hm ch (Option.mem_def.2 rfl) et.length]
        exact hseq
      · rfl

theorem blueTable_eq (hm : ∀ ch ∈ mode, ChunksOk ch) (thhold : ℕ)
    (cis : ℚ → C) (reverse : Bool) (n : ℕ) :
    blueTable mode thhold cis reverse n =
      blueTable none thhold cis reverse n := by
  unfold blueTable
  rw [runLoop_eq_none hm]

theorem blueXvec_eq (hm : ∀ ch ∈ mode, ChunksOk ch) (thhold : ℕ)
    (v et : List C) (m : ℕ) :
    blueXvec mode thhold v et m = blueXvec none thhold v et m := by
  unfold blueXvec
  rw [runLoop_eq_none hm]

theorem blueYvec_eq (hm : ∀ ch ∈ mode, ChunksOk ch) (thhold : ℕ)
    (conj : C → C) (et : List C) (n m : ℕ) :
    blueYvec mode thhold conj et n m = blueYvec none thhold conj et n m := by
  unfold blueYvec
  rw [runLoop_eq_none hm]

theorem convolveWith_eq (hm : ∀ ch ∈ mode, ChunksOk ch) (thhold : ℕ)
    (tr tr' : Bool → List C → List C)
    (htr : ∀ (b : Bool) (w : List C), tr b w = tr' b w)
    (htr' : ∀ (b : Bool) (w : List C), (tr' b w).length = w.length)
    (xv yv : List C) (hxy : xv.length = yv.length) :
    convolveWith mode thhold tr xv yv =
      convolveWith none thhold tr' xv yv := by
  simp only [convolveWith, htr]
  have hlen : (tr' false xv).length = (tr' false yv).length := by
    rw [htr', htr', hxy]
  rw [mulLoop_eq hm thhold _ _ hlen]
  have hmul : mulLoop none thhold (tr' false yv) (tr' false xv) =
      (tr' false xv).zipWith (· * ·) (tr' false yv) := rfl
  rw [← hmul]
  rw [scaleLoop_eq hm thhold _ _
    (by rw [htr', htr', mulLoop_length none thhold _ _ hlen, htr'])]
  rfl

theorem fftBluesteinWith_eq (hm : ∀ ch ∈ mode, ChunksOk ch) (thhold : ℕ)
    (cis : ℚ → C) (conj : C → C) (tr tr' : Bool → List C → List C)
    (htr : ∀ (b : Bool) (w : List C), tr b w = tr' b w)
    (htr' : ∀ (b : Bool) (w : List C), (tr' b w).length = w.length)
    (reverse : Bool) (v : List C) :
    fftBluesteinWith mode thhold cis conj tr reverse v =
      fftBluesteinWith none thhold cis conj tr' reverse v := by
  simp only [fftBluesteinWith]
  rw [blueTable_eq hm, blueXvec_eq hm, blueYvec_eq hm,
    convolveWith_eq hm thhold tr tr' htr htr' _ _
      (by rw [blueXvec_length, blueYvec_length])]
  have hconvlen : (convolveWith none thhold tr'
      (blueXvec none thhold v (blueTable none thhold cis reverse v.length)
        (blueM v.length))
      (blueYvec none thhold conj (blueTable none thhold cis reverse v.length)
        v.length (blueM v.length))).length = blueM v.length := by
    rw [convolveWith_length none thhold tr' htr' _ _
      (by rw [blueXvec_length, blueYvec_length]), blueXvec_length]
  rw [postLoop_eq hm thhold _ _ _ _ (by rw [blueTable_length])
    (by rw [blueTable_length, hconvlen]
        have := blueM_ge v.length
        omega)]
  rfl

theorem transformGo_eq (hm : ∀ ch ∈ mode, ChunksOk ch) (thhold : ℕ)
    (cis : ℚ → C) (conj : C → C) :
    ∀ (fuel : ℕ) (reverse : Bool) (v : List C),
      transformGo mode thhold cis conj fuel reverse v =
        transformGo none thhold cis conj fuel reverse v := by
  intro fuel
  induction fuel with
  | zero => intro reverse v; rfl
  | succ fuel ih =>
      intro reverse v
      rw [transformGo, transformGo]
      split
      · rfl
      · split
        · exact fftRadix2_eq hm thhold cis reverse v
        · exact fftBluesteinWith_eq hm thhold cis conj _ _
            (fun b w => ih b w)
            (fun b w => transformGo_length none thhold cis conj fuel b w)
            reverse v

theorem itransform_eq (hm : ∀ ch ∈ mode, ChunksOk ch) (thhold : ℕ)
    (cis : ℚ → C) (conj : C → C) (v : List C) :
    itransform mode thhold cis conj v =
      itransform none thhold cis conj v := by
  simp only [itransform]
  rw [conjLoop_eq hm thhold conj _ _ rfl]
  have h1 : conjLoop none thhold conj v.length v = v.map conj := rfl
  rw [← h1]
  have hb : (if v.length &&& (v.length - 1) = 0 then
        fftRadix2 mode thhold cis false (conjLoop none thhold conj v.length v)
      else fftBluesteinWith mode thhold cis conj
        (transformGo mode thhold cis conj 1) false
        (conjLoop none thhold conj v.length v)) =
      (if v.length &&& (v.length - 1) = 0 then
        fftRadix2 none thhold cis false (conjLoop none thhold conj v.length v)
      else fftBluesteinWith none thhold cis conj
        (transformGo none thhold cis conj 1) false
        (conjLoop none thhold conj v.length v)) := by
    split
    · exact fftRadix2_eq hm thhold cis false _
    · exact fftBluesteinWith_eq hm thhold cis conj _ _
        (fun b w => transformGo_eq hm thhold cis conj 1 b w)
        (fun b w => transformGo_length none thhold cis conj 1 b w) false _
  rw [hb]
  have hlen2 : (if v.length &&& (v.length - 1) = 0 then
      fftRadix2 none thhold cis false (conjLoop none thhold conj v.length v)
    else fftBluesteinWith none thhold cis conj
      (transformGo none thhold cis conj 1) false
      (conjLoop none thhold conj v.length v)).length = v.length := by
    split
    · rw [fftRadix2_length, conjLoop_length]
    · rw [fftBluesteinWith_length none thhold cis conj _
        (fun b w => transformGo_length none thhold cis conj 1 b w),
        conjLoop_length]
  rw [conjLoop_eq hm thhold conj _ _ hlen2.symm]
  have h2 : conjLoop none thhold conj v.length
      (if v.length &&& (v.length - 1) = 0 then
        fftRadix2 none thhold cis false (conjLoop none thhold conj v.length v)
      else fftBluesteinWith none thhold cis conj
        (transformGo none thhold cis conj 1) false
        (conjLoop none thhold conj v.length v)) =
      (if v.length &&& (v.length - 1) = 0 then
        fftRadix2 none thhold cis false (conjLoop none thhold conj v.length v)
      else fftBluesteinWith none thhold cis conj
        (transformGo none thhold cis conj 1) false
        (conjLoop none thhold conj v.length v)).map conj := rfl
  rw [← h2]
  rw [scaleLoop_eq hm thhold _ _ (by rw [conjLoop_length, hlen2])]
  rfl

theorem fftApply_eq (hm : ∀ ch ∈ mode, ChunksOk ch) (thhold : ℕ)
    (cis : ℚ → C) (conj : C → C) (inverse : Bool) (v : List C) :
    fftApply mode thhold cis conj inverse v =
      fftApply none thhold cis conj inverse v := by
  have hc : copyLoop none thhold v = v :=
    copyLoop_eq (by intro ch h; cases h) thhold v
  unfold fftApply
  rw [copyLoop_eq hm thhold v, hc]
  split
  · exact itransform_eq hm thhold cis conj v
  · rw [transform, transform]
    exact transformGo_eq hm thhold cis conj 2 false v

end FFT

/-- **C6** (confirmed).  For every input column, both transform directions,
every threshold and every chunk decomposition with the correct total (the
model of the thread-pool's parallel chunking of each loop), the spectral
transform's chunked-parallel code path produces exactly the same list as
the sequential code path; consequently the two runs agree within `1e-9`
per element. -/
theorem fft_c6_par_seq_equiv {C : Type} [LinearOrderedField C]
    (ch : ℕ → List ℕ) (hch : FFT.ChunksOk ch) (thhold : ℕ)
    (cis : ℚ → C) (conj : C → C) (inverse : Bool) (v : List C) :
    FFT.fftApply (some ch) thhold cis conj inverse v =
      FFT.fftApply none thhold cis conj inverse v ∧
    ∀ i : ℕ,
      |(FFT.fftApply (some ch) thhold cis conj inverse v).getD i 0 -
        (FFT.fftApply none thhold cis conj inverse v).getD i 0| ≤
          1 / 1000000000 := by
  have hm : ∀ c ∈ some ch, FFT.ChunksOk c := by
    intro c hc
    simp only [Option.mem_def, Option.some.injEq] at hc
    subst hc
    exact hch
  have h := FFT.fftApply_eq hm thhold cis conj inverse v
  refine ⟨h, ?_⟩
  intro i
  rw [h, sub_self, abs_zero]
  positivity

/-- Witness for C6: the chunk map sending each length to the single chunk
holding it satisfies the totality hypothesis, and the conclusion holds on
the rational column `[1, 2, 3]`. -/
theorem fft_c6_par_seq_equiv_witness :
    FFT.ChunksOk (fun n => [n]) ∧
    (FFT.fftApply (some (fun n => [n])) 2 (fun _ => (1 : ℚ)) id false
        [1, 2, 3] =
      FFT.fftApply none 2 (fun _ => (1 : ℚ)) id false [1, 2, 3] ∧
    ∀ i : ℕ,
      |(FFT.fftApply (some (fun n => [n])) 2 (fun _ => (1 : ℚ)) id false
            [1, 2, 3]).getD i 0 -
        (FFT.fftApply none 2 (fun _ => (1 : ℚ)) id false
            [1, 2, 3]).getD i 0| ≤ 1 / 1000000000) :=
  ⟨fun k => by simp, fft_c6_par_seq_equiv (fun n => [n]) (fun k => by simp)
    2 (fun _ => (1 : ℚ)) id false [1, 2, 3]⟩

namespace FFT

variable {C : Type} [Field C]

/-- Invariant induction along `List.range' a len`, tracking the loop
counter. -/
theorem foldl_range'_invariant {α : Type} (P : ℕ → α → Prop)
    (step : α → ℕ → α) :
    ∀ (len a : ℕ) (init : α), P a init →
      (∀ i s, a ≤ i → i < a + len → P i s → P (i + 1) (step s i)) →
      P (a + len) ((List.range' a len).foldl step init) := by
  intro len
  induction len with
  | zero =>
      intro a init h0 _
      simpa using h0
  | succ len ih =>
      intro a init h0 hstep
      rw [List.range'_succ, List.foldl_cons]
      have hres := ih (a + 1) (step init a)
        (hstep a init le_rfl (by omega) h0)
        (fun i s h1 h2 h3 => hstep i s (by omega) (by omega) h3)
      have he : a + 1 + len = a + (len + 1) := by omega
      exact he ▸ hres

/-- Splitting a sum over an even range into even- and odd-indexed parts. -/
theorem sum_range_even_odd (f : ℕ → C) :
    ∀ M : ℕ, ∑ k ∈ Finset.range (2 * M), f k =
      (∑ k ∈ Finset.range M, f (2 * k)) +
        ∑ k ∈ Finset.range M, f (2 * k + 1) := by
  intro M
  induction M with
  | zero => simp
  | succ M ih =>
      have h2 : 2 * (M + 1) = 2 * M + 1 + 1 := by ring
      rw [h2, Finset.sum_range_succ, Finset.sum_range_succ,
        Finset.sum_range_succ, Finset.sum_range_succ, ih]
      ring_nf
      ring

/-- The algebraic facts about `polar(1, 2π·q)` that the round-trip theorem
uses: it is an additive-to-multiplicative homomorphism from `ℚ` and its
kernel is exactly the integers. -/
def IsCis (cis : ℚ → C) : Prop :=
  (∀ a b : ℚ, cis (a + b) = cis a * cis b) ∧
  ∀ q : ℚ, cis q = 1 ↔ ∃ z : ℤ, q = (z : ℚ)

/-- The algebraic facts about complex conjugation used by the round-trip
theorem: a ring involution sending `cis q` to `cis (-q)`. -/
def IsConjOf (conj : C → C) (cis : ℚ → C) : Prop :=
  (∀ a b : C, conj (a + b) = conj a + conj b) ∧
  (∀ a b : C, conj (a * b) = conj a * conj b) ∧
  (∀ a : C, conj (conj a) = a) ∧
  ∀ q : ℚ, conj (cis q) = cis (-q)

theorem IsCis.cis_zero {cis : ℚ → C} (h : IsCis cis) : cis 0 = 1 :=
  (h.2 0).2 ⟨0, by norm_num⟩

theorem IsCis.cis_int {cis : ℚ → C} (h : IsCis cis) (z : ℤ) :
    cis (z : ℚ) = 1 :=
  (h.2 _).2 ⟨z, rfl⟩

theorem IsCis.mul_neg {cis : ℚ → C} (h : IsCis cis) (q : ℚ) :
    cis q * cis (-q) = 1 := by
  rw [← h.1, add_neg_cancel, h.cis_zero]

theorem IsCis.ne_zero {cis : ℚ → C} (h : IsCis cis) (q : ℚ) :
    cis q ≠ 0 :=
  left_ne_zero_of_mul_eq_one (h.mul_neg q)

theorem IsCis.add_int {cis : ℚ → C} (h : IsCis cis) (q : ℚ) (z : ℤ) :
    cis (q + z) = cis q := by
  rw [h.1, h.cis_int, mul_one]

theorem IsCis.cis_pow {cis : ℚ → C} (h : IsCis cis) (q : ℚ) :
    ∀ k : ℕ, cis q ^ k = cis ((k : ℚ) * q) := by
  intro k
  induction k with
  | zero => rw [pow_zero, Nat.cast_zero, zero_mul, h.cis_zero]
  | succ k ih =>
      rw [pow_succ, ih, ← h.1]
      congr 1
      push_cast
      ring

theorem IsCis.cis_one {cis : ℚ → C} (h : IsCis cis) : cis 1 = 1 := by
  have hh := h.cis_int 1
  push_cast at hh
  exact hh

theorem IsCis.half {cis : ℚ → C} (h : IsCis cis) :
    cis (1 / 2 : ℚ) = -1 := by
  have hsq : cis (1 / 2 : ℚ) * cis (1 / 2 : ℚ) = 1 := by
    rw [← h.1]
    norm_num [h.cis_one]
  have hne : cis (1 / 2 : ℚ) ≠ 1 := by
    intro hc
    rcases (h.2 _).1 hc with ⟨z, hz⟩
    have h2 : (2 : ℚ) * z = 1 := by rw [← hz]; norm_num
    have h3 : (2 * z : ℤ) = 1 := by exact_mod_cast h2
    omega
  have hfac : (cis (1 / 2 : ℚ) - 1) * (cis (1 / 2 : ℚ) + 1) = 0 := by
    linear_combination hsq
  rcases mul_eq_zero.1 hfac with h0 | h0
  · exact absurd (by linear_combination h0) hne
  · linear_combination h0

theorem IsCis.neg_half {cis : ℚ → C} (h : IsCis cis) :
    cis (-(1 / 2) : ℚ) = -1 := by
  have hh := h.mul_neg (1 / 2 : ℚ)
  rw [h.half] at hh
  linear_combination -hh

/-- Orthogonality, divisible case: all terms are `1`. -/
theorem cis_orth_dvd {cis : ℚ → C} (h : IsCis cis) (n : ℕ) (hn : 0 < n)
    (d : ℤ) (hd : (n : ℤ) ∣ d) :
    ∑ k ∈ Finset.range n, cis ((d : ℚ) * (k : ℚ) / (n : ℚ)) = (n : C) := by
  have hn' : (n : ℚ) ≠ 0 := Nat.cast_ne_zero.2 hn.ne'
  rcases hd with ⟨e, rfl⟩
  have hterm : ∀ k ∈ Finset.range n,
      cis ((((n : ℤ) * e : ℤ) : ℚ) * (k : ℚ) / (n : ℚ)) = 1 := by
    intro k _
    have harg : (((n : ℤ) * e : ℤ) : ℚ) * (k : ℚ) / (n : ℚ)
        = ((e * (k : ℤ) : ℤ) : ℚ) := by
      push_cast
      field_simp
      ring
    rw [harg, h.cis_int]
  rw [Finset.sum_congr rfl hterm]
  simp

/-- Orthogonality, non-divisible case: a vanishing geometric sum. -/
theorem cis_orth_not_dvd {cis : ℚ → C} (h : IsCis cis) (n : ℕ) (hn : 0 < n)
    (d : ℤ) (hd : ¬ (n : ℤ) ∣ d) :
    ∑ k ∈ Finset.range n, cis ((d : ℚ) * (k : ℚ) / (n : ℚ)) = 0 := by
  have hn' : (n : ℚ) ≠ 0 := Nat.cast_ne_zero.2 hn.ne'
  have hterm : ∀ k ∈ Finset.range n,
      cis ((d : ℚ) * (k : ℚ) / (n : ℚ)) = cis ((d : ℚ) / (n : ℚ)) ^ k := by
    intro k _
    rw [h.cis_pow]
    congr 1
    field_simp
    ring
  have hne : cis ((d : ℚ) / (n : ℚ)) ≠ 1 := by
    intro hone
    rcases (h.2 _).1 hone with ⟨z, hz⟩
    apply hd
    refine ⟨z, ?_⟩
    have hq : (d : ℚ) = (n : ℚ) * (z : ℚ) := by
      field_simp at hz
      linarith
    exact_mod_cast hq
  have hpow : cis ((d : ℚ) / (n : ℚ)) ^ n = 1 := by
    rw [h.cis_pow]
    have harg : (n : ℚ) * ((d : ℚ) / (n : ℚ)) = ((d : ℤ) : ℚ) := by
      field_simp
    rw [harg, h.cis_int]
  rw [Finset.sum_congr rfl hterm, geom_sum_eq hne, hpow]
  simp

end FFT

namespace FFT

theorem reverseBitsAux_acc : ∀ (w v acc : ℕ),
    reverseBitsAux w v acc = acc * 2 ^ w + reverseBitsAux w v 0 := by
  intro w
  induction w with
  | zero => intro v acc; simp [reverseBitsAux]
  | succ w ih =>
      intro v acc
      rw [reverseBitsAux, reverseBitsAux, ih (v / 2) (2 * acc + v % 2),
        ih (v / 2) (2 * 0 + v % 2), pow_succ]
      ring

/-- The bit-reversal recursion: peel the least-significant bit. -/
theorem reverseBits_succ (v w : ℕ) :
    reverseBits v (w + 1) = v % 2 * 2 ^ w + reverseBits (v / 2) w := by
  unfold reverseBits
  rw [reverseBitsAux, reverseBitsAux_acc w (v / 2) (2 * 0 + v % 2)]
  ring_nf

theorem reverseBits_lt (w : ℕ) : ∀ v, reverseBits v w < 2 ^ w := by
  induction w with
  | zero => intro v; simp [reverseBits, reverseBitsAux]
  | succ w ih =>
      intro v
      rw [reverseBits_succ]
      have h1 := ih (v / 2)
      have h2 : v % 2 < 2 := Nat.mod_lt _ (by norm_num)
      have h3 : v % 2 * 2 ^ w ≤ 1 * 2 ^ w :=
        Nat.mul_le_mul_right _ (by omega)
      have h4 : 2 ^ (w + 1) = 2 ^ w + 2 ^ w := by rw [pow_succ]; ring
      omega

theorem reverseBits_add_pow (w : ℕ) : ∀ r b : ℕ, r < 2 ^ w → b < 2 →
    reverseBits (r + b * 2 ^ w) (w + 1) = 2 * reverseBits r w + b := by
  induction w with
  | zero =>
      intro r b hr hb
      have hr0 : r = 0 := by omega
      subst hr0
      have hb2 : b = 0 ∨ b = 1 := by omega
      rcases hb2 with rfl | rfl <;>
        simp [reverseBits_succ, reverseBits, reverseBitsAux]
  | succ w ih =>
      intro r b hr hb
      have hb2 : b = 0 ∨ b = 1 := by omega
      have hp : 2 ^ (w + 1) = 2 ^ w + 2 ^ w := by rw [pow_succ]; ring
      have hmod : (r + b * 2 ^ (w + 1)) % 2 = r % 2 := by
        rcases hb2 with rfl | rfl <;> omega
      have hdiv : (r + b * 2 ^ (w + 1)) / 2 = r / 2 + b * 2 ^ w := by
        rcases hb2 with rfl | rfl <;> omega
      rw [reverseBits_succ, hmod, hdiv,
        ih (r / 2) b (by omega) hb, reverseBits_succ]
      ring

theorem reverseBits_reverseBits (w : ℕ) :
    ∀ v, v < 2 ^ w → reverseBits (reverseBits v w) w = v := by
  induction w with
  | zero =>
      intro v hv
      have hv0 : v = 0 := by omega
      subst hv0
      rfl
  | succ w ih =>
      intro v hv
      have hrb : reverseBits (v / 2) w < 2 ^ w := reverseBits_lt w (v / 2)
      have hm2 : v % 2 < 2 := by omega
      have hp : 2 ^ (w + 1) = 2 ^ w + 2 ^ w := by rw [pow_succ]; ring
      rw [reverseBits_succ v w,
        Nat.add_comm (v % 2 * 2 ^ w) (reverseBits (v / 2) w),
        reverseBits_add_pow w _ _ hrb hm2, ih (v / 2) (by omega)]
      omega

end FFT

namespace FFT

/-- Invariant for the swap loop of `bitrevPerm` after processing indices
`< I`: a cell is already swapped exactly when its index or its reversal has
been visited. -/
def brInv {C : Type} [Field C] (L : ℕ) (v : List C) (I : ℕ)
    (w : List C) : Prop :=
  w.length = v.length ∧ ∀ q, q < 2 ^ L →
    w.getD q 0 = if q < I ∨ reverseBits q L < I
      then v.getD (reverseBits q L) 0 else v.getD q 0

theorem bitrevPerm_getD {C : Type} [Field C] (L : ℕ) (v : List C)
    (hv : v.length = 2 ^ L) (p : ℕ) (hp : p < 2 ^ L) :
    (bitrevPerm (2 ^ L) L v).getD p 0 = v.getD (reverseBits p L) 0 := by
  have hbase : brInv L v 0 v := by
    refine ⟨rfl, ?_⟩
    intro q hq
    rw [if_neg (by omega)]
  have hstep : ∀ i (s : List C), 0 ≤ i → i < 0 + 2 ^ L →
      brInv L v i s → brInv L v (i + 1)
        ((fun (w : List C) i =>
          let rb := reverseBits i L
          if rb > i then (w.set i (w.getD rb 0)).set rb (w.getD i 0)
          else w) s i) := by
    intro i s _ hilt hs
    rcases hs with ⟨hlen, hptw⟩
    have hi_lt : i < 2 ^ L := by omega
    have hrb_lt : reverseBits i L < 2 ^ L := reverseBits_lt L i
    have hri : reverseBits (reverseBits i L) L = i :=
      reverseBits_reverseBits L i hi_lt
    show brInv L v (i + 1)
      (if reverseBits i L > i
       then (s.set i (s.getD (reverseBits i L) 0)).set (reverseBits i L)
         (s.getD i 0)
       else s)
    by_cases hgt : reverseBits i L > i
    · rw [if_pos hgt]
      refine ⟨by simp [hlen], ?_⟩
      intro q hq
      rw [getD_set', getD_set']
      simp only [List.length_set, hlen, hv]
      by_cases hq_rb : reverseBits i L = q
      · have hrevq : reverseBits q L = i := by rw [← hq_rb, hri]
        rw [if_pos ⟨hq_rb, hrb_lt⟩]
        rw [if_pos (Or.inr (by omega)), hrevq]
        rw [hptw i hi_lt, if_neg (by omega)]
      · rw [if_neg (fun hc => hq_rb hc.1)]
        by_cases hq_i : i = q
        · rw [if_pos ⟨hq_i, hi_lt⟩]
          subst hq_i
          rw [hptw (reverseBits i L) hrb_lt, if_neg (by omega),
            if_pos (Or.inl (by omega))]
        · rw [if_neg (fun hc => hq_i hc.1)]
          rw [hptw q hq]
          have hrq : reverseBits q L ≠ i := by
            intro he
            apply hq_rb
            rw [← he, reverseBits_reverseBits L q hq]
          split_ifs with h1 h2 h2 <;> first | rfl | (exfalso; omega)
    · rw [if_neg hgt]
      refine ⟨hlen, ?_⟩
      intro q hq
      rw [hptw q hq]
      by_cases hq_i : q = i
      · subst hq_i
        by_cases hlt : reverseBits q L < q
        · rw [if_pos (Or.inr hlt), if_pos (Or.inr (by omega))]
        · have heq : reverseBits q L = q := by omega
          rw [if_neg (by omega), if_pos (Or.inl (by omega)), heq]
      · by_cases hrevq : reverseBits q L = i
        · have hq_ri : q = reverseBits i L := by
            rw [← hrevq, reverseBits_reverseBits L q hq]
          have hqlt : q < i := by omega
          rw [if_pos (Or.inl hqlt), if_pos (Or.inl (by omega))]
        · split_ifs with h1 h2 h2 <;> first | rfl | (exfalso; omega)
  have hperm : brInv L v (0 + 2 ^ L) (bitrevPerm (2 ^ L) L v) := by
    unfold bitrevPerm
    rw [List.range_eq_range']
    exact foldl_range'_invariant (brInv L v) _ (2 ^ L) 0 v hbase hstep
  rcases hperm with ⟨_, hptw⟩
  rw [hptw p hp, if_pos (Or.inl (by omega))]

end FFT

namespace FFT

/-- Invariant for the butterfly loop of one block after processing offsets
`< R`: the lower and upper halves written so far hold the sum/difference
form, everything else is untouched. -/
def sbInv {C : Type} [Field C] (tbl : List C) (half step base : ℕ)
    (w : List C) (R : ℕ) (w' : List C) : Prop :=
  w'.length = w.length ∧ ∀ p, w'.getD p 0 =
    if base ≤ p ∧ p < base + R then
      w.getD p 0 + w.getD (p + half) 0 * tbl.getD ((p - base) * step) 0
    else if base + half ≤ p ∧ p < base + half + R then
      w.getD (p - half) 0 - w.getD p 0 * tbl.getD ((p - base - half) * step) 0
    else w.getD p 0

theorem stageBlock_getD {C : Type} [Field C] (tbl : List C)
    (half step base : ℕ) (w : List C)
    (hb : base + half + half ≤ w.length) (p : ℕ) :
    (stageBlock tbl half step base w).getD p 0 =
      if base ≤ p ∧ p < base + half then
        w.getD p 0 + w.getD (p + half) 0 * tbl.getD ((p - base) * step) 0
      else if base + half ≤ p ∧ p < base + half + half then
        w.getD (p - half) 0 - w.getD p 0 * tbl.getD ((p - base - half) * step) 0
      else w.getD p 0 := by
  have hbase : sbInv tbl half step base w 0 w := by
    refine ⟨rfl, ?_⟩
    intro q
    rw [if_neg (by omega), if_neg (by omega)]
  have hstep : ∀ r (s : List C), 0 ≤ r → r < 0 + half →
      sbInv tbl half step base w r s → sbInv tbl half step base w (r + 1)
        ((fun (w : List C) r => butterfly tbl half (base + r) (r * step) w)
          s r) := by
    intro r s _ hrlt hs
    rcases hs with ⟨hlen, hptw⟩
    have hr1 : base + r < w.length := by omega
    have hr2 : base + r + half < w.length := by omega
    have hbdef : butterfly tbl half (base + r) (r * step) s =
        (s.set (base + r + half)
          (s.getD (base + r) 0 -
            s.getD (base + r + half) 0 * tbl.getD (r * step) 0)).set
          (base + r)
          (s.getD (base + r) 0 +
            s.getD (base + r + half) 0 * tbl.getD (r * step) 0) := rfl
    show sbInv tbl half step base w (r + 1)
      (butterfly tbl half (base + r) (r * step) s)
    rw [hbdef]
    have hv1 : s.getD (base + r) 0 = w.getD (base + r) 0 := by
      rw [hptw (base + r), if_neg (by omega), if_neg (by omega)]
    have hv2 : s.getD (base + r + half) 0 = w.getD (base + r + half) 0 := by
      rw [hptw (base + r + half), if_neg (by omega), if_neg (by omega)]
    refine ⟨by simp [hlen], ?_⟩
    intro q
    rw [getD_set', getD_set']
    simp only [List.length_set, hlen]
    rw [hv1, hv2]
    by_cases hq1 : base + r = q
    · rw [if_pos ⟨hq1, by omega⟩]
      rw [if_pos (by omega)]
      have he1 : q - base = r := by omega
      rw [he1]
      have he2 : q + half = base + r + half := by omega
      rw [he2]
      have he3 : w.getD q 0 = w.getD (base + r) 0 := by rw [← hq1]
      rw [he3]
    · rw [if_neg (fun hc => hq1 hc.1)]
      by_cases hq2 : base + r + half = q
      · rw [if_pos ⟨hq2, by omega⟩]
        rw [if_neg (by omega), if_pos (by omega)]
        have he1 : q - half = base + r := by omega
        have he2 : q - base - half = r := by omega
        rw [he1, he2]
        have he3 : w.getD q 0 = w.getD (base + r + half) 0 := by rw [← hq2]
        rw [he3]
      · rw [if_neg (fun hc => hq2 hc.1), hptw q]
        split_ifs <;> first | rfl | (exfalso; omega)
  have hres : sbInv tbl half step base w (0 + half)
      (stageBlock tbl half step base w) := by
    unfold stageBlock
    rw [List.range_eq_range']
    exact foldl_range'_invariant (sbInv tbl half step base w) _ half 0 w
      hbase hstep
  rcases hres with ⟨_, hptw⟩
  rw [hptw p]
  simp only [Nat.zero_add]

theorem mod_eq_sub_of_block {s b p : ℕ} (h1 : b * s ≤ p)
    (h2 : p < b * s + s) : p % s = p - b * s := by
  have h0 : p = (p - b * s) + b * s := by omega
  conv_lhs => rw [h0]
  rw [Nat.add_mul_mod_self_right]
  exact Nat.mod_eq_of_lt (by omega)

/-- Invariant for the block loop of one stage after processing blocks
`< B`. -/
def stInv {C : Type} [Field C] (tbl : List C) (s n : ℕ) (w : List C)
    (B : ℕ) (w' : List C) : Prop :=
  w'.length = w.length ∧ ∀ p, p < n → w'.getD p 0 =
    if p < B * s then
      (if p % s < s / 2 then
        w.getD p 0 + w.getD (p + s / 2) 0 * tbl.getD (p % s * (n / s)) 0
      else
        w.getD (p - s / 2) 0 -
          w.getD p 0 * tbl.getD ((p % s - s / 2) * (n / s)) 0)
    else w.getD p 0

theorem stage_getD {C : Type} [Field C] (tbl : List C) (s n : ℕ)
    (w : List C) (hlen : w.length = n) (hs : 0 < s) (he : s % 2 = 0)
    (hdvd : s ∣ n) (p : ℕ) (hp : p < n) :
    (stage tbl s n w).getD p 0 =
      if p % s < s / 2 then
        w.getD p 0 + w.getD (p + s / 2) 0 * tbl.getD (p % s * (n / s)) 0
      else
        w.getD (p - s / 2) 0 -
          w.getD p 0 * tbl.getD ((p % s - s / 2) * (n / s)) 0 := by
  have hhalf : s / 2 + s / 2 = s := by omega
  have hns : n / s * s = n := Nat.div_mul_cancel hdvd
  have hbase : stInv tbl s n w 0 w := by
    refine ⟨rfl, ?_⟩
    intro q hq
    have h0 : 0 * s = 0 := Nat.zero_mul s
    rw [if_neg (by omega)]
  have hstep : ∀ b (s' : List C), 0 ≤ b → b < 0 + n / s →
      stInv tbl s n w b s' → stInv tbl s n w (b + 1)
        ((fun (w : List C) b => stageBlock tbl (s / 2) (n / s) (b * s) w)
          s' b) := by
    intro b s' _ hblt hs'
    rcases hs' with ⟨hlen', hptw⟩
    have hb1 : (b + 1) * s ≤ n := by
      have h1 : b + 1 ≤ n / s := by omega
      calc (b + 1) * s ≤ n / s * s := Nat.mul_le_mul_right s h1
        _ = n := hns
    have hbs : b * s + s = (b + 1) * s := by ring
    show stInv tbl s n w (b + 1)
      (stageBlock tbl (s / 2) (n / s) (b * s) s')
    refine ⟨by rw [stageBlock_length, hlen'], ?_⟩
    intro p hp
    rw [stageBlock_getD tbl (s / 2) (n / s) (b * s) s'
      (by rw [hlen', hlen]; omega) p]
    by_cases hc1 : b * s ≤ p ∧ p < b * s + s / 2
    · rw [if_pos hc1]
      have hv1 : s'.getD p 0 = w.getD p 0 := by
        rw [hptw p hp, if_neg (by omega)]
      have hv2 : s'.getD (p + s / 2) 0 = w.getD (p + s / 2) 0 := by
        rw [hptw (p + s / 2) (by omega), if_neg (by omega)]
      rw [hv1, hv2]
      have hmod : p % s = p - b * s := mod_eq_sub_of_block hc1.1 (by omega)
      rw [if_pos (by omega), if_pos (by omega), hmod]
    · by_cases hc2 : b * s + s / 2 ≤ p ∧ p < b * s + s / 2 + s / 2
      · rw [if_neg hc1, if_pos hc2]
        have hv1 : s'.getD (p - s / 2) 0 = w.getD (p - s / 2) 0 := by
          rw [hptw (p - s / 2) (by omega), if_neg (by omega)]
        have hv2 : s'.getD p 0 = w.getD p 0 := by
          rw [hptw p hp, if_neg (by omega)]
        rw [hv1, hv2]
        have hmod : p % s = p - b * s := mod_eq_sub_of_block (by omega)
          (by omega)
        rw [if_pos (by omega), if_neg (by omega), hmod]
      · rw [if_neg hc1, if_neg hc2, hptw p hp]
        have hmono : b * s ≤ (b + 1) * s :=
          Nat.mul_le_mul_right s (Nat.le_succ b)
        by_cases hc3 : p < b * s
        · rw [if_pos hc3]
          have hcond : p < (b + 1) * s := by omega
          rw [if_pos hcond]
        · rw [if_neg hc3]
          have hcond : ¬ p < (b + 1) * s := by omega
          rw [if_neg hcond]
  have hcount : (n + s - 1) / s = n / s := by
    rcases hdvd with ⟨q, rfl⟩
    rcases Nat.eq_zero_or_pos q with rfl | hq
    · rw [Nat.mul_zero, Nat.zero_add, Nat.div_eq_of_lt (by omega),
        Nat.zero_div]
    · have h1 : s * q + s - 1 = s * q + (s - 1) := by omega
      rw [h1, Nat.mul_add_div hs, Nat.div_eq_of_lt (by omega),
        Nat.mul_div_cancel_left q hs]
      omega
  have hres : stInv tbl s n w (0 + n / s) (stage tbl s n w) := by
    unfold stage
    rw [hcount, List.range_eq_range']
    exact foldl_range'_invariant (stInv tbl s n w) _ (n / s) 0 w hbase hstep
  rcases hres with ⟨_, hptw⟩
  have hBn : (0 + n / s) * s = n := by rw [Nat.zero_add, hns]
  rw [hptw p hp, if_pos (by omega)]

end FFT

namespace FFT

/-- The discrete Fourier transform with sign `sgn` in the exponent, the
specification both radix-2 and Bluestein paths are proved against. -/
def dft {C : Type} [Field C] (cis : ℚ → C) (sgn : ℚ) (v : List C) :
    List C :=
  (List.range v.length).map (fun j =>
    ∑ k ∈ Finset.range v.length,
      v.getD k 0 * cis (sgn * ((j * k : ℕ) : ℚ) / ((v.length : ℕ) : ℚ)))

theorem dft_length {C : Type} [Field C] (cis : ℚ → C) (sgn : ℚ)
    (v : List C) : (dft cis sgn v).length = v.length := by
  simp [dft]

theorem dft_getD {C : Type} [Field C] (cis : ℚ → C) (sgn : ℚ)
    (v : List C) (j : ℕ) (hj : j < v.length) :
    (dft cis sgn v).getD j 0 =
      ∑ k ∈ Finset.range v.length,
        v.getD k 0 * cis (sgn * ((j * k : ℕ) : ℚ) / ((v.length : ℕ) : ℚ)) := by
  unfold dft
  rw [List.getD_eq_getElem _ 0 (by simp [hj]), List.getElem_map,
    List.getElem_range]

/-- The running value of cell `p` after the first `T` Cooley–Tukey stages:
a partial DFT of length `2^T` over a bit-reversed-stride slice of the
input. -/
def ctVal {C : Type} [Field C] (cis : ℚ → C) (sgn : ℚ) (v : List C)
    (L T p : ℕ) : C :=
  ∑ k ∈ Finset.range (2 ^ T),
    v.getD (k * 2 ^ (L - T) + reverseBits (p / 2 ^ T) (L - T)) 0 *
      cis (sgn * ((p % 2 ^ T * k : ℕ) : ℚ) / ((2 ^ T : ℕ) : ℚ))

theorem ctVal_zero {C : Type} [Field C] {cis : ℚ → C} (h : IsCis cis)
    (sgn : ℚ) (v : List C) (L p : ℕ) :
    ctVal cis sgn v L 0 p = v.getD (reverseBits p L) 0 := by
  unfold ctVal
  simp only [pow_zero, Nat.div_one, Nat.sub_zero, Nat.mod_one]
  rw [Finset.sum_range_one]
  simp only [Nat.zero_mul, Nat.mul_zero, Nat.zero_add, Nat.cast_zero,
    Nat.cast_one, mul_zero, zero_mul, zero_div, h.cis_zero, mul_one]

theorem ctVal_top {C : Type} [Field C] (cis : ℚ → C) (sgn : ℚ)
    (v : List C) (L p : ℕ) (hp : p < 2 ^ L) :
    ctVal cis sgn v L L p =
      ∑ k ∈ Finset.range (2 ^ L),
        v.getD k 0 * cis (sgn * ((p * k : ℕ) : ℚ) / ((2 ^ L : ℕ) : ℚ)) := by
  unfold ctVal
  rw [Nat.sub_self]
  refine Finset.sum_congr rfl ?_
  intro k _
  rw [Nat.div_eq_of_lt hp, Nat.mod_eq_of_lt hp]
  have h1 : reverseBits 0 0 = 0 := rfl
  rw [h1, pow_zero, Nat.mul_one, Nat.add_zero]

theorem ctVal_succ_lower {C : Type} [Field C] {cis : ℚ → C} (h : IsCis cis)
    (sgn : ℚ) (v : List C) (L T p : ℕ) (hTL : T < L)
    (hj : p % 2 ^ (T + 1) < 2 ^ T) :
    ctVal cis sgn v L (T + 1) p =
      ctVal cis sgn v L T p +
        cis (sgn * ((p % 2 ^ (T + 1) : ℕ) : ℚ) / ((2 ^ (T + 1) : ℕ) : ℚ)) *
          ctVal cis sgn v L T (p + 2 ^ T) := by
  have hposT : (0 : ℕ) < 2 ^ T := pow_pos (by norm_num) T
  set b := p / 2 ^ (T + 1) with hbdef
  set j := p % 2 ^ (T + 1) with hjdef
  have hdm := Nat.div_add_mod p (2 ^ (T + 1))
  have h2T : (2 : ℕ) ^ (T + 1) = 2 * 2 ^ T := by rw [pow_succ]; ring
  have hL1 : L - T = (L - T - 1) + 1 := by omega
  have h2LT : (2 : ℕ) ^ (L - T) = 2 * 2 ^ (L - T - 1) := by
    have hps := pow_succ 2 (L - T - 1)
    rw [← hL1] at hps
    rw [hps]; ring
  have hp' : p = 2 ^ T * (2 * b) + j := by
    rw [hbdef, hjdef]
    conv_lhs => rw [← hdm]
    rw [h2T]
    ring
  have hdivT : p / 2 ^ T = 2 * b := by
    rw [hp', Nat.mul_add_div hposT, Nat.div_eq_of_lt hj, Nat.add_zero]
  have hmodT : p % 2 ^ T = j := by
    rw [hp', Nat.mul_add_mod, Nat.mod_eq_of_lt hj]
  have hp1 : p + 2 ^ T = 2 ^ T * (2 * b + 1) + j := by
    rw [hp']; ring
  have hdivT1 : (p + 2 ^ T) / 2 ^ T = 2 * b + 1 := by
    rw [hp1, Nat.mul_add_div hposT, Nat.div_eq_of_lt hj, Nat.add_zero]
  have hmodT1 : (p + 2 ^ T) % 2 ^ T = j := by
    rw [hp1, Nat.mul_add_mod, Nat.mod_eq_of_lt hj]
  have hrev0 : reverseBits (2 * b) (L - T) = reverseBits b (L - T - 1) := by
    conv_lhs => rw [hL1]
    rw [reverseBits_succ, Nat.mul_mod_right, Nat.zero_mul,
      Nat.zero_add, Nat.mul_div_cancel_left b (by norm_num)]
  have hrev1 : reverseBits (2 * b + 1) (L - T) =
      2 ^ (L - T - 1) + reverseBits b (L - T - 1) := by
    conv_lhs => rw [hL1]
    rw [reverseBits_succ]
    have hm : (2 * b + 1) % 2 = 1 := by omega
    have hd : (2 * b + 1) / 2 = b := by omega
    rw [hm, hd, Nat.one_mul]
  have hqT : ((2 ^ T : ℕ) : ℚ) ≠ 0 := by
    rw [Nat.cast_ne_zero]; omega
  unfold ctVal
  rw [(by omega : L - (T + 1) = L - T - 1)]
  rw [← hjdef, ← hbdef, h2T, sum_range_even_odd]
  have heven : ∑ k ∈ Finset.range (2 ^ T),
      v.getD (2 * k * 2 ^ (L - T - 1) + reverseBits b (L - T - 1)) 0 *
        cis (sgn * ((j * (2 * k) : ℕ) : ℚ) / ((2 * 2 ^ T : ℕ) : ℚ)) =
      ∑ k ∈ Finset.range (2 ^ T),
        v.getD (k * 2 ^ (L - T) + reverseBits (p / 2 ^ T) (L - T)) 0 *
          cis (sgn * ((p % 2 ^ T * k : ℕ) : ℚ) / ((2 ^ T : ℕ) : ℚ)) := by
    refine Finset.sum_congr rfl ?_
    intro k _
    rw [hdivT, hmodT, hrev0]
    have hidx : 2 * k * 2 ^ (L - T - 1) = k * 2 ^ (L - T) := by
      rw [h2LT]; ring
    rw [hidx]
    have harg : sgn * ((j * (2 * k) : ℕ) : ℚ) / ((2 * 2 ^ T : ℕ) : ℚ) =
        sgn * ((j * k : ℕ) : ℚ) / ((2 ^ T : ℕ) : ℚ) := by
      push_cast
      field_simp
      ring
    rw [harg]
  have hodd : ∑ k ∈ Finset.range (2 ^ T),
      v.getD ((2 * k + 1) * 2 ^ (L - T - 1) + reverseBits b (L - T - 1)) 0 *
        cis (sgn * ((j * (2 * k + 1) : ℕ) : ℚ) / ((2 * 2 ^ T : ℕ) : ℚ)) =
      cis (sgn * (j : ℚ) / ((2 * 2 ^ T : ℕ) : ℚ)) *
        ∑ k ∈ Finset.range (2 ^ T),
          v.getD (k * 2 ^ (L - T) +
            reverseBits ((p + 2 ^ T) / 2 ^ T) (L - T)) 0 *
            cis (sgn * (((p + 2 ^ T) % 2 ^ T * k : ℕ) : ℚ) /
              ((2 ^ T : ℕ) : ℚ)) := by
    rw [Finset.mul_sum]
    refine Finset.sum_congr rfl ?_
    intro k _
    rw [hdivT1, hmodT1, hrev1]
    have hidx : (2 * k + 1) * 2 ^ (L - T - 1) + reverseBits b (L - T - 1) =
        k * 2 ^ (L - T) + (2 ^ (L - T - 1) + reverseBits b (L - T - 1)) := by
      rw [h2LT]; ring
    rw [hidx]
    have harg : sgn * ((j * (2 * k + 1) : ℕ) : ℚ) / ((2 * 2 ^ T : ℕ) : ℚ) =
        sgn * (j : ℚ) / ((2 * 2 ^ T : ℕ) : ℚ) +
          sgn * ((j * k : ℕ) : ℚ) / ((2 ^ T : ℕ) : ℚ) := by
      push_cast
      field_simp
      ring
    rw [harg, h.1]
    ring
  rw [heven, hodd]

end FFT

namespace FFT

theorem IsCis.sgn_nat {C : Type} [Field C] {cis : ℚ → C} (h : IsCis cis)
    {sgn : ℚ} (hsgn : sgn = 1 ∨ sgn = -1) (m : ℕ) :
    cis (sgn * (m : ℚ)) = 1 := by
  rcases hsgn with rfl | rfl
  · rw [one_mul]
    have hh := h.cis_int (m : ℤ)
    push_cast at hh
    exact hh
  · have hh := h.cis_int (-(m : ℤ))
    push_cast at hh
    have harg : (-1 : ℚ) * (m : ℚ) = -(m : ℚ) := by ring
    rw [harg]
    exact hh

theorem IsCis.sgn_half {C : Type} [Field C] {cis : ℚ → C} (h : IsCis cis)
    {sgn : ℚ} (hsgn : sgn = 1 ∨ sgn = -1) :
    cis (sgn * (1 / 2 : ℚ)) = -1 := by
  rcases hsgn with rfl | rfl
  · rw [one_mul]
    exact h.half
  · have harg : (-1 : ℚ) * (1 / 2 : ℚ) = -(1 / 2 : ℚ) := by ring
    rw [harg]
    exact h.neg_half

theorem ctVal_succ_upper {C : Type} [Field C] {cis : ℚ → C} (h : IsCis cis)
    (sgn : ℚ) (hsgn : sgn = 1 ∨ sgn = -1) (v : List C) (L T p : ℕ)
    (hTL : T < L) (hj : 2 ^ T ≤ p % 2 ^ (T + 1)) :
    ctVal cis sgn v L (T + 1) p =
      ctVal cis sgn v L T (p - 2 ^ T) -
        cis (sgn * ((p % 2 ^ (T + 1) - 2 ^ T : ℕ) : ℚ) /
          ((2 ^ (T + 1) : ℕ) : ℚ)) * ctVal cis sgn v L T p := by
  have hposT : (0 : ℕ) < 2 ^ T := pow_pos (by norm_num) T
  have hposT1 : (0 : ℕ) < 2 ^ (T + 1) := pow_pos (by norm_num) (T + 1)
  set b := p / 2 ^ (T + 1) with hbdef
  set j := p % 2 ^ (T + 1) with hjdef
  set j' := j - 2 ^ T with hj'def
  have hdm := Nat.div_add_mod p (2 ^ (T + 1))
  have hjlt : j < 2 ^ (T + 1) := by
    rw [hjdef]
    exact Nat.mod_lt _ hposT1
  have h2T : (2 : ℕ) ^ (T + 1) = 2 * 2 ^ T := by rw [pow_succ]; ring
  have hjj' : j = j' + 2 ^ T := by omega
  have hj'lt : j' < 2 ^ T := by omega
  have hL1 : L - T = (L - T - 1) + 1 := by omega
  have h2LT : (2 : ℕ) ^ (L - T) = 2 * 2 ^ (L - T - 1) := by
    have hps := pow_succ 2 (L - T - 1)
    rw [← hL1] at hps
    rw [hps]; ring
  have hp0 : p = 2 ^ (T + 1) * b + j := by
    rw [hbdef, hjdef]
    exact hdm.symm
  have hp' : p = 2 ^ T * (2 * b + 1) + j' := by
    have hh : 2 ^ (T + 1) * b + j = 2 ^ T * (2 * b + 1) + j' := by
      rw [h2T, hjj']; ring
    exact hp0.trans hh
  have hdivT : p / 2 ^ T = 2 * b + 1 := by
    rw [hp', Nat.mul_add_div hposT, Nat.div_eq_of_lt hj'lt, Nat.add_zero]
  have hmodT : p % 2 ^ T = j' := by
    rw [hp', Nat.mul_add_mod, Nat.mod_eq_of_lt hj'lt]
  have hsub : p - 2 ^ T = 2 ^ T * (2 * b) + j' := by
    rw [hp']
    have hexp : 2 ^ T * (2 * b + 1) = 2 ^ T * (2 * b) + 2 ^ T := by ring
    omega
  have hdiv0 : (p - 2 ^ T) / 2 ^ T = 2 * b := by
    rw [hsub, Nat.mul_add_div hposT, Nat.div_eq_of_lt hj'lt, Nat.add_zero]
  have hmod0 : (p - 2 ^ T) % 2 ^ T = j' := by
    rw [hsub, Nat.mul_add_mod, Nat.mod_eq_of_lt hj'lt]
  have hrev0 : reverseBits (2 * b) (L - T) = reverseBits b (L - T - 1) := by
    conv_lhs => rw [hL1]
    rw [reverseBits_succ, Nat.mul_mod_right, Nat.zero_mul,
      Nat.zero_add, Nat.mul_div_cancel_left b (by norm_num)]
  have hrev1 : reverseBits (2 * b + 1) (L - T) =
      2 ^ (L - T - 1) + reverseBits b (L - T - 1) := by
    conv_lhs => rw [hL1]
    rw [reverseBits_succ]
    have hm : (2 * b + 1) % 2 = 1 := by omega
    have hd : (2 * b + 1) / 2 = b := by omega
    rw [hm, hd, Nat.one_mul]
  unfold ctVal
  rw [(by omega : L - (T + 1) = L - T - 1)]
  rw [← hjdef, ← hbdef, h2T, sum_range_even_odd]
  have heven : ∑ k ∈ Finset.range (2 ^ T),
      v.getD (2 * k * 2 ^ (L - T - 1) + reverseBits b (L - T - 1)) 0 *
        cis (sgn * ((j * (2 * k) : ℕ) : ℚ) / ((2 * 2 ^ T : ℕ) : ℚ)) =
      ∑ k ∈ Finset.range (2 ^ T),
        v.getD (k * 2 ^ (L - T) +
          reverseBits ((p - 2 ^ T) / 2 ^ T) (L - T)) 0 *
          cis (sgn * (((p - 2 ^ T) % 2 ^ T * k : ℕ) : ℚ) /
            ((2 ^ T : ℕ) : ℚ)) := by
    refine Finset.sum_congr rfl ?_
    intro k _
    rw [hdiv0, hmod0, hrev0]
    have hidx : 2 * k * 2 ^ (L - T - 1) = k * 2 ^ (L - T) := by
      rw [h2LT]; ring
    rw [hidx]
    have harg : sgn * ((j * (2 * k) : ℕ) : ℚ) / ((2 * 2 ^ T : ℕ) : ℚ) =
        sgn * ((j' * k : ℕ) : ℚ) / ((2 ^ T : ℕ) : ℚ) + sgn * (k : ℚ) := by
      push_cast [hjj']
      field_simp
      ring
    rw [harg, h.1, h.sgn_nat hsgn k, mul_one]
  have hodd : ∑ k ∈ Finset.range (2 ^ T),
      v.getD ((2 * k + 1) * 2 ^ (L - T - 1) + reverseBits b (L - T - 1)) 0 *
        cis (sgn * ((j * (2 * k + 1) : ℕ) : ℚ) / ((2 * 2 ^ T : ℕ) : ℚ)) =
      -(cis (sgn * (j' : ℚ) / ((2 * 2 ^ T : ℕ) : ℚ)) *
        ∑ k ∈ Finset.range (2 ^ T),
          v.getD (k * 2 ^ (L - T) + reverseBits (p / 2 ^ T) (L - T)) 0 *
            cis (sgn * ((p % 2 ^ T * k : ℕ) : ℚ) / ((2 ^ T : ℕ) : ℚ))) := by
    rw [Finset.mul_sum, ← Finset.sum_neg_distrib]
    refine Finset.sum_congr rfl ?_
    intro k _
    rw [hdivT, hmodT, hrev1]
    have hidx : (2 * k + 1) * 2 ^ (L - T - 1) + reverseBits b (L - T - 1) =
        k * 2 ^ (L - T) + (2 ^ (L - T - 1) + reverseBits b (L - T - 1)) := by
      rw [h2LT]; ring
    rw [hidx]
    have harg : sgn * ((j * (2 * k + 1) : ℕ) : ℚ) / ((2 * 2 ^ T : ℕ) : ℚ) =
        (sgn * ((j' * k : ℕ) : ℚ) / ((2 ^ T : ℕ) : ℚ) +
          sgn * (j' : ℚ) / ((2 * 2 ^ T : ℕ) : ℚ)) +
          (sgn * (k : ℚ) + sgn * (1 / 2 : ℚ)) := by
      push_cast [hjj']
      field_simp
      ring
    rw [harg, h.1, h.1, h.1, h.sgn_nat hsgn k, h.sgn_half hsgn]
    ring
  rw [heven, hodd]
  ring

end FFT

namespace FFT

/-- The stage loop of `fft_radix2_` after the bit-reversal permutation,
cut off after `T` stages. -/
def radix2Stages {C : Type} [Field C] (tbl : List C) (n T : ℕ)
    (w0 : List C) : List C :=
  (List.range T).foldl (fun w t => stage tbl (2 ^ (t + 1)) n w) w0

theorem radix2Stages_succ {C : Type} [Field C] (tbl : List C) (n T : ℕ)
    (w0 : List C) :
    radix2Stages tbl n (T + 1) w0 =
      stage tbl (2 ^ (T + 1)) n (radix2Stages tbl n T w0) := by
  unfold radix2Stages
  rw [List.range_succ, List.foldl_append, List.foldl_cons, List.foldl_nil]

theorem radix2Stages_length {C : Type} [Field C] (tbl : List C) (n T : ℕ)
    (w0 : List C) : (radix2Stages tbl n T w0).length = w0.length := by
  unfold radix2Stages
  refine foldl_invariant (fun (w : List C) => w.length = w0.length) _ _ _
    rfl ?_
  intro w hw t _
  rw [stage_length, hw]

theorem radix2Stages_getD {C : Type} [Field C] {cis : ℚ → C} (h : IsCis cis)
    (sgn : ℚ) (hsgn : sgn = 1 ∨ sgn = -1) (L : ℕ) (v : List C)
    (hv : v.length = 2 ^ L) (tbl : List C)
    (htbl : ∀ k, k < 2 ^ L / 2 →
      tbl.getD k 0 = cis (sgn * (k : ℚ) / ((2 ^ L : ℕ) : ℚ))) :
    ∀ T, T ≤ L → ∀ p, p < 2 ^ L →
      (radix2Stages tbl (2 ^ L) T (bitrevPerm (2 ^ L) L v)).getD p 0 =
        ctVal cis sgn v L T p := by
  intro T
  induction T with
  | zero =>
      intro _ p hp
      unfold radix2Stages
      rw [List.range_zero, List.foldl_nil, ctVal_zero h]
      exact bitrevPerm_getD L v hv p hp
  | succ T ih =>
      intro hTL p hp
      rw [radix2Stages_succ]
      set w := radix2Stages tbl (2 ^ L) T (bitrevPerm (2 ^ L) L v) with hwdef
      have hwlen : w.length = 2 ^ L := by
        rw [hwdef, radix2Stages_length, bitrevPerm_length, hv]
      have hTL' : T ≤ L := by omega
      have hs : (0 : ℕ) < 2 ^ (T + 1) := pow_pos (by norm_num) _
      have hposT : (0 : ℕ) < 2 ^ T := pow_pos (by norm_num) _
      have he : 2 ^ (T + 1) % 2 = 0 := by
        rw [pow_succ]
        exact Nat.mul_mod_left _ 2
      have hdvd : 2 ^ (T + 1) ∣ 2 ^ L := pow_dvd_pow 2 (by omega)
      rw [stage_getD tbl (2 ^ (T + 1)) (2 ^ L) w hwlen hs he hdvd p hp]
      have hhalf : 2 ^ (T + 1) / 2 = 2 ^ T := by
        rw [pow_succ]
        exact Nat.mul_div_cancel _ (by norm_num)
      have hstep : 2 ^ L / 2 ^ (T + 1) = 2 ^ (L - T - 1) := by
        rw [Nat.pow_div (by omega) (by norm_num)]
        rfl
      rw [hhalf, hstep]
      have hL2a : (2 : ℕ) ^ L = 2 ^ (L - 1) * 2 := by
        rw [← pow_succ]
        congr 1
        omega
      have hL2 : (2 : ℕ) ^ L / 2 = 2 ^ (L - 1) := by
        rw [hL2a, Nat.mul_div_cancel _ (by norm_num)]
      have hTsplit : (2 : ℕ) ^ T * 2 ^ (L - T - 1) = 2 ^ (L - 1) := by
        rw [← pow_add]
        congr 1
        omega
      have hmodlt : p % 2 ^ (T + 1) < 2 ^ (T + 1) := Nat.mod_lt _ hs
      have hpowQ : ((2 : ℚ)) ^ L = (2 : ℚ) ^ (T + 1) * (2 : ℚ) ^ (L - T - 1) := by
        rw [← pow_add]
        congr 1
        omega
      have hq1 : ((2 : ℚ)) ^ (T + 1) ≠ 0 := by positivity
      have hq2 : ((2 : ℚ)) ^ (L - T - 1) ≠ 0 := by positivity
      by_cases hc : p % 2 ^ (T + 1) < 2 ^ T
      · rw [if_pos hc]
        have hdm := Nat.div_add_mod p (2 ^ (T + 1))
        have hBlt : p / 2 ^ (T + 1) < 2 ^ (L - T - 1) := by
          rw [← hstep]
          exact Nat.div_lt_div_of_lt_of_dvd hdvd hp
        have hplt : p + 2 ^ T < 2 ^ L := by
          have h1 : 2 ^ (T + 1) * (p / 2 ^ (T + 1) + 1) ≤
              2 ^ (T + 1) * 2 ^ (L - T - 1) :=
            Nat.mul_le_mul_left _ (by omega)
          have h2 : (2 : ℕ) ^ (T + 1) * 2 ^ (L - T - 1) = 2 ^ L := by
            rw [← pow_add]
            congr 1
            omega
          have h3 : 2 ^ (T + 1) * (p / 2 ^ (T + 1) + 1) =
              2 ^ (T + 1) * (p / 2 ^ (T + 1)) + 2 ^ (T + 1) := by ring
          have h4 : (2 : ℕ) ^ (T + 1) = 2 * 2 ^ T := by rw [pow_succ]; ring
          omega
        have hidxlt : p % 2 ^ (T + 1) * 2 ^ (L - T - 1) < 2 ^ L / 2 := by
          rw [hL2, ← hTsplit]
          exact Nat.mul_lt_mul_of_lt_of_le hc le_rfl
            (pow_pos (by norm_num) _)
        have htblval : tbl.getD (p % 2 ^ (T + 1) * 2 ^ (L - T - 1)) 0 =
            cis (sgn * ((p % 2 ^ (T + 1) : ℕ) : ℚ) /
              ((2 ^ (T + 1) : ℕ) : ℚ)) := by
          rw [htbl _ hidxlt]
          congr 1
          push_cast
          rw [hpowQ]
          field_simp
          ring
        rw [htblval, ih hTL' p hp, ih hTL' (p + 2 ^ T) hplt,
          ctVal_succ_lower h sgn v L T p (by omega) hc]
        ring
      · rw [if_neg hc]
        have hlow : p - 2 ^ T < 2 ^ L := by omega
        have hidxlt : (p % 2 ^ (T + 1) - 2 ^ T) * 2 ^ (L - T - 1) <
            2 ^ L / 2 := by
          rw [hL2, ← hTsplit]
          exact Nat.mul_lt_mul_of_lt_of_le (by omega) le_rfl
            (pow_pos (by norm_num) _)
        have htblval : tbl.getD ((p % 2 ^ (T + 1) - 2 ^ T) *
            2 ^ (L - T - 1)) 0 =
            cis (sgn * ((p % 2 ^ (T + 1) - 2 ^ T : ℕ) : ℚ) /
              ((2 ^ (T + 1) : ℕ) : ℚ)) := by
          rw [htbl _ hidxlt]
          congr 1
          push_cast
          rw [hpowQ]
          field_simp
          ring
        rw [htblval, ih hTL' p hp, ih hTL' (p - 2 ^ T) hlow,
          ctVal_succ_upper h sgn hsgn v L T p (by omega) (le_of_not_lt hc)]
        ring

end FFT

namespace FFT

theorem getD_map_range {C : Type} [Field C] (f : ℕ → C) (len k : ℕ)
    (hk : k < len) : ((List.range len).map f).getD k 0 = f k := by
  rw [List.getD_eq_getElem _ 0 (by simp [hk]), List.getElem_map,
    List.getElem_range]

/-- `fft_radix2_` at the sequential mode, with its trigonometric table in
closed form. -/
theorem fftRadix2_none_eq {C : Type} [Field C] (thhold : ℕ) (cis : ℚ → C)
    (reverse : Bool) (v : List C) :
    fftRadix2 none thhold cis reverse v =
      radix2Stages
        ((List.range (v.length / 2)).map (fun (i : ℕ) =>
          cis ((if reverse then (1 : ℚ) else -1) * (i : ℚ) /
            (v.length : ℚ))))
        v.length (Nat.log2 v.length)
        (bitrevPerm v.length (Nat.log2 v.length) v) := by
  simp only [fftRadix2, radix2Stages]
  have hrl : runLoop (none : Option (ℕ → List ℕ)) thhold v.length
      (fun i (w : List C) => w.set i
        (cis ((if reverse then (1 : ℚ) else -1) * (i : ℚ) /
          (v.length : ℚ))))
      0 (v.length / 2) (List.replicate (v.length / 2) (0 : C)) =
      (List.range (v.length / 2)).map (fun (i : ℕ) =>
        cis ((if reverse then (1 : ℚ) else -1) * (i : ℚ) /
          (v.length : ℚ))) := by
    exact seqFor_fill
      (fun (i : ℕ) => cis ((if reverse then (1 : ℚ) else -1) * (i : ℚ) /
        (v.length : ℚ)))
      (v.length / 2) (List.replicate (v.length / 2) (0 : C)) (by simp)
  rw [hrl]

/-- The radix-2 path computes the DFT with sign `-1` forward and `1`
inverse, on every power-of-two length. -/
theorem fftRadix2_dft {C : Type} [Field C] {cis : ℚ → C} (h : IsCis cis)
    (thhold : ℕ) (reverse : Bool) (L : ℕ) (v : List C)
    (hv : v.length = 2 ^ L) :
    fftRadix2 none thhold cis reverse v =
      dft cis (if reverse then 1 else -1) v := by
  set sgn : ℚ := if reverse then 1 else -1 with hsgndef
  have hsgn : sgn = 1 ∨ sgn = -1 := by
    rw [hsgndef]
    cases reverse
    · right; rfl
    · left; rfl
  have hlog : Nat.log2 v.length = L := by
    rw [hv, Nat.log2_eq_log_two, Nat.log_pow (by norm_num)]
  have htbl : ∀ k, k < 2 ^ L / 2 →
      ((List.range (2 ^ L / 2)).map (fun (i : ℕ) =>
        cis (sgn * (i : ℚ) / ((2 ^ L : ℕ) : ℚ)))).getD k 0 =
      cis (sgn * (k : ℚ) / ((2 ^ L : ℕ) : ℚ)) := by
    intro k hk
    exact getD_map_range _ _ _ hk
  refine List.ext_getElem ?_ ?_
  · rw [fftRadix2_length, dft_length]
  · intro p h1 h2
    have hp : p < 2 ^ L := by rw [fftRadix2_length, hv] at h1; exact h1
    rw [← List.getD_eq_getElem _ 0 h1, ← List.getD_eq_getElem _ 0 h2]
    rw [fftRadix2_none_eq thhold cis reverse v, ← hsgndef, hlog, hv]
    rw [radix2Stages_getD h sgn hsgn L v hv _ htbl L le_rfl p hp]
    rw [ctVal_top cis sgn v L p hp]
    rw [dft_getD cis sgn v p (by rw [hv]; exact hp)]
    rw [hv]

end FFT

namespace FFT

/-- A power of two passes the source's `(col_s & (col_s - 1)) == 0` test. -/
theorem pow2_land_pred (L : ℕ) : 2 ^ L &&& (2 ^ L - 1) = 0 := by
  refine Nat.eq_of_testBit_eq ?_
  intro i
  rw [Nat.testBit_and, Nat.zero_testBit, Nat.testBit_two_pow,
    Nat.testBit_two_pow_sub_one]
  by_cases hLi : L = i
  · subst hLi
    simp
  · simp [hLi]

/-- Conversely, the test passes only on powers of two (for nonzero
lengths). -/
theorem land_pred_pow2 (n : ℕ) (hn : 0 < n) (h : n &&& (n - 1) = 0) :
    ∃ L, n = 2 ^ L := by
  refine ⟨Nat.log2 n, ?_⟩
  by_contra hne
  have h1 : 2 ^ Nat.log2 n ≤ n := Nat.log2_self_le hn.ne'
  have h2 : n < 2 ^ (Nat.log2 n + 1) := Nat.lt_log2_self
  have h3 : 2 ^ Nat.log2 n < n := by omega
  have hp2 : 2 ^ (Nat.log2 n + 1) = 2 ^ Nat.log2 n * 2 := by
    rw [pow_succ]
  have htn : n.testBit (Nat.log2 n) = true := by
    rw [Nat.testBit_to_div_mod]
    have hd : n / 2 ^ Nat.log2 n = 1 :=
      Nat.div_eq_of_lt_le (by omega) (by omega)
    rw [hd]
    rfl
  have htn1 : (n - 1).testBit (Nat.log2 n) = true := by
    rw [Nat.testBit_to_div_mod]
    have hd : (n - 1) / 2 ^ Nat.log2 n = 1 :=
      Nat.div_eq_of_lt_le (by omega) (by omega)
    rw [hd]
    rfl
  have hbit : (n &&& (n - 1)).testBit (Nat.log2 n) = true := by
    rw [Nat.testBit_and, htn, htn1]
    rfl
  rw [h, Nat.zero_testBit] at hbit
  exact Bool.false_ne_true hbit

/-- With positive fuel, `transform_` on a power-of-two length is exactly
the radix-2 kernel. -/
theorem transformGo_pow2 {C : Type} [Field C] (thhold : ℕ) (cis : ℚ → C)
    (conj : C → C) (fuel : ℕ) (reverse : Bool) (x : List C) (L : ℕ)
    (hx : x.length = 2 ^ L) (hpos : 0 < x.length) :
    transformGo none thhold cis conj (fuel + 1) reverse x =
      fftRadix2 none thhold cis reverse x := by
  rw [transformGo, if_neg (by omega), if_pos (by rw [hx]; exact pow2_land_pred L)]

end FFT

namespace FFT

theorem getD_map_of_lt {C : Type} [Field C] (g : C → C) (l : List C)
    (j : ℕ) (hj : j < l.length) :
    (l.map g).getD j 0 = g (l.getD j 0) := by
  rw [List.getD_eq_getElem _ 0 (by simpa using hj), List.getElem_map,
    List.getD_eq_getElem _ 0 hj]

theorem getD_zipWith_of_lt {C : Type} [Field C] (x y : List C) (j : ℕ)
    (hx : j < x.length) (hy : j < y.length) :
    (x.zipWith (· * ·) y).getD j 0 = x.getD j 0 * y.getD j 0 := by
  rw [List.getD_eq_getElem _ 0 (by rw [List.length_zipWith]; omega),
    List.getElem_zipWith, List.getD_eq_getElem _ 0 hx,
    List.getD_eq_getElem _ 0 hy]

/-- The unique representative of `j - l` modulo `m` inside `[0, m)`. -/
theorem dvd_sub_iff_mod {m j l : ℕ} (hpos : 0 < m) (hj : j < m)
    (hl : l < m) (r : ℕ) (hr : r < m) :
    (m : ℤ) ∣ ((j : ℤ) - l - r) ↔ r = (j + m - l) % m := by
  have hr0val : (j + m - l) % m = if l ≤ j then j - l else j + m - l := by
    by_cases hlj : l ≤ j
    · rw [if_pos hlj]
      have he : j + m - l = (j - l) + m := by omega
      rw [he, Nat.add_mod_right]
      exact Nat.mod_eq_of_lt (by omega)
    · rw [if_neg hlj]
      exact Nat.mod_eq_of_lt (by omega)
  constructor
  · rintro ⟨t, ht⟩
    have hmz : (0 : ℤ) < (m : ℤ) := by exact_mod_cast hpos
    have ht1 : t < 1 := by
      by_contra hcon
      push_neg at hcon
      have hh : (m : ℤ) * 1 ≤ (m : ℤ) * t :=
        mul_le_mul_of_nonneg_left hcon (le_of_lt hmz)
      have hm1 : (m : ℤ) * 1 = (m : ℤ) := by ring
      omega
    have ht2 : -2 < t := by
      by_contra hcon
      push_neg at hcon
      have hh : (m : ℤ) * t ≤ (m : ℤ) * (-2) :=
        mul_le_mul_of_nonneg_left hcon (le_of_lt hmz)
      have hm2 : (m : ℤ) * (-2) = -(2 * (m : ℤ)) := by ring
      omega
    have hcase : t = 0 ∨ t = -1 := by omega
    rw [hr0val]
    rcases hcase with rfl | rfl
    · have hml0 : (m : ℤ) * 0 = 0 := by ring
      have hlj : l ≤ j := by omega
      rw [if_pos hlj]
      omega
    · have hm1 : (m : ℤ) * (-1) = -(m : ℤ) := by ring
      have hlj : ¬ l ≤ j := by omega
      rw [if_neg hlj]
      omega
  · intro hreq
    rw [hr0val] at hreq
    by_cases hlj : l ≤ j
    · rw [if_pos hlj] at hreq
      refine ⟨0, ?_⟩
      have hml0 : (m : ℤ) * 0 = 0 := by ring
      omega
    · rw [if_neg hlj] at hreq
      refine ⟨-1, ?_⟩
      have hm1 : (m : ℤ) * (-1) = -(m : ℤ) := by ring
      omega

/-- `convolve_` with the recursive transform, on power-of-two operand
length `m`, computes the cyclic convolution. -/
theorem convolve_dft {C : Type} [Field C] [CharZero C] {cis : ℚ → C}
    (h : IsCis cis) (thhold : ℕ) (conj : C → C) (L m : ℕ) (hm : m = 2 ^ L)
    (hpos : 0 < m) (xv yv : List C) (hx : xv.length = m)
    (hy : yv.length = m) (j : ℕ) (hj : j < m) :
    (convolveWith none thhold (transformGo none thhold cis conj 1) xv
      yv).getD j 0 =
      ∑ l ∈ Finset.range m, xv.getD l 0 * yv.getD ((j + m - l) % m) 0 := by
  have hmC : ((m : ℕ) : C) ≠ 0 := Nat.cast_ne_zero.2 hpos.ne'
  have htf : ∀ z : List C, z.length = m →
      transformGo none thhold cis conj 1 false z = dft cis (-1) z := by
    intro z hz
    rw [transformGo_pow2 thhold cis conj 0 false z L (by rw [hz, hm])
      (by omega), fftRadix2_dft h thhold false L z (by rw [hz, hm])]
    rfl
  have htt : ∀ z : List C, z.length = m →
      transformGo none thhold cis conj 1 true z = dft cis 1 z := by
    intro z hz
    rw [transformGo_pow2 thhold cis conj 0 true z L (by rw [hz, hm])
      (by omega), fftRadix2_dft h thhold true L z (by rw [hz, hm])]
    rfl
  simp only [convolveWith]
  rw [htf xv hx, htf yv hy]
  have hmul : mulLoop none thhold (dft cis (-1) yv) (dft cis (-1) xv) =
      (dft cis (-1) xv).zipWith (· * ·) (dft cis (-1) yv) := rfl
  rw [hmul]
  set X := dft cis (-1) xv with hXdef
  set Y := dft cis (-1) yv with hYdef
  have hXlen : X.length = m := by rw [hXdef, dft_length, hx]
  have hYlen : Y.length = m := by rw [hYdef, dft_length, hy]
  set Z := X.zipWith (· * ·) Y with hZdef
  have hZlen : Z.length = m := by
    rw [hZdef, List.length_zipWith, hXlen, hYlen, min_self]
  rw [htt Z hZlen]
  have hscale : scaleLoop none thhold X.length (dft cis 1 Z) =
      (dft cis 1 Z).map (fun z => z / ((X.length : ℕ) : C)) := rfl
  rw [hscale, hXlen]
  rw [getD_map_of_lt _ _ j (by rw [dft_length, hZlen]; exact hj)]
  rw [dft_getD cis 1 Z j (by rw [hZlen]; exact hj), hZlen]
  have hZp : ∀ p, p < m → Z.getD p 0 =
      (∑ l ∈ Finset.range m,
        xv.getD l 0 * cis ((-1) * ((p * l : ℕ) : ℚ) / ((m : ℕ) : ℚ))) *
      (∑ r ∈ Finset.range m,
        yv.getD r 0 * cis ((-1) * ((p * r : ℕ) : ℚ) / ((m : ℕ) : ℚ))) := by
    intro p hp
    rw [hZdef, getD_zipWith_of_lt X Y p (by rw [hXlen]; exact hp)
      (by rw [hYlen]; exact hp), hXdef, hYdef,
      dft_getD cis (-1) xv p (by rw [hx]; exact hp),
      dft_getD cis (-1) yv p (by rw [hy]; exact hp), hx, hy]
  have hexp : ∀ p, p < m →
      Z.getD p 0 * cis (1 * ((j * p : ℕ) : ℚ) / ((m : ℕ) : ℚ)) =
      ∑ l ∈ Finset.range m, ∑ r ∈ Finset.range m,
        xv.getD l 0 * yv.getD r 0 *
          cis ((((j : ℤ) - l - r : ℤ) : ℚ) * (p : ℚ) / ((m : ℕ) : ℚ)) := by
    intro p hp
    rw [hZp p hp, Finset.sum_mul, Finset.sum_mul]
    refine Finset.sum_congr rfl ?_
    intro l _
    rw [Finset.mul_sum, Finset.sum_mul]
    refine Finset.sum_congr rfl ?_
    intro r _
    have harg : (((j : ℤ) - l - r : ℤ) : ℚ) * (p : ℚ) / ((m : ℕ) : ℚ) =
        (-1) * ((p * l : ℕ) : ℚ) / ((m : ℕ) : ℚ) +
          ((-1) * ((p * r : ℕ) : ℚ) / ((m : ℕ) : ℚ) +
            1 * ((j * p : ℕ) : ℚ) / ((m : ℕ) : ℚ)) := by
      push_cast
      ring
    rw [harg, h.1, h.1]
    ring
  have hinner : ∀ l, l < m →
      ∑ r ∈ Finset.range m, ∑ p ∈ Finset.range m,
        xv.getD l 0 * yv.getD r 0 *
          cis ((((j : ℤ) - l - r : ℤ) : ℚ) * (p : ℚ) / ((m : ℕ) : ℚ)) =
      xv.getD l 0 * yv.getD ((j + m - l) % m) 0 * ((m : ℕ) : C) := by
    intro l hl
    have hstep1 : ∀ r, r < m →
        ∑ p ∈ Finset.range m,
          xv.getD l 0 * yv.getD r 0 *
            cis ((((j : ℤ) - l - r : ℤ) : ℚ) * (p : ℚ) / ((m : ℕ) : ℚ)) =
        if r = (j + m - l) % m
        then xv.getD l 0 * yv.getD r 0 * ((m : ℕ) : C) else 0 := by
      intro r hr
      rw [← Finset.mul_sum]
      by_cases hdv : (m : ℤ) ∣ ((j : ℤ) - l - r)
      · rw [cis_orth_dvd h m hpos _ hdv,
          if_pos ((dvd_sub_iff_mod hpos hj hl r hr).1 hdv)]
      · rw [cis_orth_not_dvd h m hpos _ hdv,
          if_neg (fun heq => hdv ((dvd_sub_iff_mod hpos hj hl r hr).2 heq)),
          mul_zero]
    rw [Finset.sum_congr rfl
      (fun r hr => hstep1 r (Finset.mem_range.1 hr))]
    rw [Finset.sum_ite_eq' (Finset.range m) ((j + m - l) % m)
      (fun r => xv.getD l 0 * yv.getD r 0 * ((m : ℕ) : C))]
    rw [if_pos (Finset.mem_range.2 (Nat.mod_lt _ hpos))]
  rw [Finset.sum_congr rfl
    (fun p hp => hexp p (Finset.mem_range.1 hp))]
  rw [Finset.sum_comm]
  rw [Finset.sum_congr rfl
    (fun l _ => Finset.sum_comm)]
  rw [Finset.sum_congr rfl
    (fun l hl => hinner l (Finset.mem_range.1 hl))]
  rw [Finset.sum_div]
  refine Finset.sum_congr rfl ?_
  intro l _
  rw [mul_div_cancel_right₀ _ hmC]

end FFT

namespace FFT

theorem chunksOk_none : ∀ c ∈ (none : Option (ℕ → List ℕ)), ChunksOk c := by
  intro c hc
  cases hc

theorem getD_replicate_zero {C : Type} [Field C] (m q : ℕ) :
    (List.replicate m (0 : C)).getD q 0 = 0 := by
  rcases lt_or_ge q m with hq | hq
  · rw [List.getD_eq_getElem _ 0 (by simpa using hq),
      List.getElem_replicate]
  · rw [List.getD_eq_default _ _ (by simpa using hq)]

/-- The chirp table entry of the Bluestein path. -/
theorem blueTable_getD {C : Type} [Field C] (thhold : ℕ) (cis : ℚ → C)
    (reverse : Bool) (n k : ℕ) (hk : k < n) :
    (blueTable none thhold cis reverse n).getD k 0 =
      cis (((if reverse then 1 else -1) : ℚ) *
        (((k * k) % (2 * n) : ℕ) : ℚ) / (2 * n)) := by
  unfold blueTable
  rw [runLoop_eq chunksOk_none]
  rw [seqFor_fill
    (fun (i : ℕ) => cis (((if reverse then 1 else -1) : ℚ) *
      (((i * i) % (2 * n) : ℕ) : ℚ) / (2 * n)))
    n (List.replicate n (0 : C)) (by simp)]
  exact getD_map_range _ _ _ hk

/-- The padded first convolution operand of the Bluestein path. -/
theorem blueXvec_getD {C : Type} [Field C] (thhold : ℕ) (v et : List C)
    (m p : ℕ) :
    (blueXvec none thhold v et m).getD p 0 =
      if p < v.length ∧ p < m then v.getD p 0 * et.getD p 0 else 0 := by
  unfold blueXvec
  rw [runLoop_eq chunksOk_none]
  rw [seqFor_rmw_getD (fun i (c : C) => v.getD i 0 * et.getD i 0)]
  simp only [List.length_replicate, getD_replicate_zero]
  split_ifs <;> first | rfl | omega

/-- Invariant for the mirrored-write loop of `blueYvec` after processing
indices in `[1, I)`. -/
def byInv {C : Type} [Field C] (conj : C → C) (et : List C) (n m : ℕ)
    (I : ℕ) (w : List C) : Prop :=
  w.length = m ∧ ∀ p, w.getD p 0 =
    if p = 0 then et.getD 0 0
    else if p < I then conj (et.getD p 0)
    else if m - I < p ∧ p < m then conj (et.getD (m - p) 0)
    else 0

/-- The mirrored second convolution operand of the Bluestein path. -/
theorem blueYvec_getD {C : Type} [Field C] (thhold : ℕ) (conj : C → C)
    (et : List C) (n m : ℕ) (hn : 0 < n) (hmn : 2 * n + 2 ≤ m) (p : ℕ) :
    (blueYvec none thhold conj et n m).getD p 0 =
      if p = 0 then et.getD 0 0
      else if p < n then conj (et.getD p 0)
      else if m - n < p ∧ p < m then conj (et.getD (m - p) 0)
      else 0 := by
  have hbase : byInv conj et n m 1
      ((List.replicate m (0 : C)).set 0 (et.getD 0 0)) := by
    refine ⟨by simp, ?_⟩
    intro q
    rw [getD_set']
    simp only [List.length_replicate, getD_replicate_zero]
    by_cases hq0 : q = 0
    · subst hq0
      rw [if_pos ⟨rfl, by omega⟩, if_pos rfl]
    · rw [if_neg (fun hc => hq0 hc.1.symm), if_neg hq0,
        if_neg (by omega), if_neg (by omega)]
  have hstep : ∀ i (s : List C), 1 ≤ i → i < 1 + (n - 1) →
      byInv conj et n m i s → byInv conj et n m (i + 1)
        ((fun (w : List C) i =>
          (w.set (m - i) (conj (et.getD i 0))).set i (conj (et.getD i 0)))
          s i) := by
    intro i s hi1 hilt hs
    rcases hs with ⟨hlen, hptw⟩
    have hin : i < n := by omega
    have hmi : n < m - i := by omega
    have hmi2 : m - i < m := by omega
    refine ⟨by simp [hlen], ?_⟩
    intro q
    show ((s.set (m - i) (conj (et.getD i 0))).set i
      (conj (et.getD i 0))).getD q 0 = _
    rw [getD_set', getD_set']
    simp only [List.length_set, hlen]
    by_cases hqi : i = q
    · rw [if_pos ⟨hqi, by omega⟩]
      subst hqi
      rw [if_neg (by omega), if_pos (by omega)]
    · rw [if_neg (fun hc => hqi hc.1)]
      by_cases hqmi : m - i = q
      · rw [if_pos ⟨hqmi, by omega⟩]
        subst hqmi
        rw [if_neg (by omega), if_neg (by omega),
          if_pos ⟨by omega, by omega⟩]
        have hmm : m - (m - i) = i := by omega
        rw [hmm]
      · rw [if_neg (fun hc => hqmi hc.1), hptw q]
        split_ifs <;> first | rfl | (exfalso; omega)
  have hfin : byInv conj et n m (1 + (n - 1))
      (seqFor (fun i (w : List C) =>
        (w.set (m - i) (conj (et.getD i 0))).set i (conj (et.getD i 0)))
        1 (n - 1) ((List.replicate m (0 : C)).set 0 (et.getD 0 0))) := by
    unfold seqFor
    exact foldl_range'_invariant (byInv conj et n m) _ (n - 1) 1 _
      hbase hstep
  have h1n : 1 + (n - 1) = n := by omega
  rw [h1n] at hfin
  rcases hfin with ⟨_, hptw⟩
  unfold blueYvec
  rw [runLoop_eq chunksOk_none]
  exact hptw p

/-- Reducing the chirp exponent modulo `2n` does not change the table
value. -/
theorem cis_mod {C : Type} [Field C] {cis : ℚ → C} (h : IsCis cis)
    {sgn : ℚ} (hsgn : sgn = 1 ∨ sgn = -1) (x M : ℕ) (hM : 0 < M) :
    cis (sgn * ((x % M : ℕ) : ℚ) / ((M : ℕ) : ℚ)) =
      cis (sgn * ((x : ℕ) : ℚ) / ((M : ℕ) : ℚ)) := by
  have hMq : ((M : ℕ) : ℚ) ≠ 0 := Nat.cast_ne_zero.2 hM.ne'
  have hx := Nat.div_add_mod x M
  have hcast := congrArg (fun t : ℕ => (t : ℚ)) hx
  push_cast at hcast
  have harg : sgn * ((x : ℕ) : ℚ) / ((M : ℕ) : ℚ) =
      sgn * ((x % M : ℕ) : ℚ) / ((M : ℕ) : ℚ) +
        sgn * ((x / M : ℕ) : ℚ) := by
    field_simp
    linear_combination (-sgn) * hcast
  rw [harg, h.1, h.sgn_nat hsgn, mul_one]

end FFT

namespace FFT

theorem mod_rep {m j l : ℕ} (hpos : 0 < m) (hj : j < m) (hl : l < m) :
    (j + m - l) % m = if l ≤ j then j - l else j + m - l := by
  by_cases hlj : l ≤ j
  · rw [if_pos hlj]
    have he : j + m - l = (j - l) + m := by omega
    rw [he, Nat.add_mod_right]
    exact Nat.mod_eq_of_lt (by omega)
  · rw [if_neg hlj]
    exact Nat.mod_eq_of_lt (by omega)

/-- The Bluestein path computes the same DFT as the radix-2 path, on every
positive length. -/
theorem fftBluestein_dft {C : Type} [Field C] [CharZero C] {cis : ℚ → C}
    (h : IsCis cis) {conj : C → C} (hconj : IsConjOf conj cis)
    (thhold : ℕ) (reverse : Bool) (v : List C) (hpos : 0 < v.length) :
    fftBluesteinWith none thhold cis conj
      (transformGo none thhold cis conj 1) reverse v =
      dft cis (if reverse then 1 else -1) v := by
  have hge := blueM_ge v.length
  obtain ⟨K, hmK⟩ := blueM_pow2 v.length
  have hmpos : 0 < blueM v.length := by omega
  have hnm : v.length ≤ blueM v.length := by omega
  have hNq : ((v.length : ℕ) : ℚ) ≠ 0 := Nat.cast_ne_zero.2 hpos.ne'
  set sgn : ℚ := if reverse then 1 else -1 with hsgndef
  have hsgn : sgn = 1 ∨ sgn = -1 := by
    rw [hsgndef]
    cases reverse
    · right; rfl
    · left; rfl
  have hden : ((2 * v.length : ℕ) : ℚ) = 2 * ((v.length : ℕ) : ℚ) := by
    push_cast
    ring
  simp only [fftBluesteinWith]
  set ET := blueTable none thhold cis reverse v.length with hETdef
  set XV := blueXvec none thhold v ET (blueM v.length) with hXVdef
  set YV := blueYvec none thhold conj ET v.length (blueM v.length)
    with hYVdef
  set CONV := convolveWith none thhold
    (transformGo none thhold cis conj 1) XV YV with hCONVdef
  have hETlen : ET.length = v.length := by
    rw [hETdef]
    exact blueTable_length none thhold cis reverse v.length
  have hXVlen : XV.length = blueM v.length := by
    rw [hXVdef]
    exact blueXvec_length none thhold v ET _
  have hYVlen : YV.length = blueM v.length := by
    rw [hYVdef]
    exact blueYvec_length none thhold conj ET v.length _
  have htrlen : ∀ (b : Bool) (w : List C),
      (transformGo none thhold cis conj 1 b w).length = w.length :=
    fun b w => transformGo_length none thhold cis conj 1 b w
  have hCONVlen : CONV.length = blueM v.length := by
    rw [hCONVdef, convolveWith_length none thhold _ htrlen _ _
      (by rw [hXVlen, hYVlen]), hXVlen]
  have hpostl : postLoop none thhold ET CONV v.length v =
      ET.zipWith (· * ·) CONV := rfl
  rw [hpostl]
  refine List.ext_getElem ?_ ?_
  · rw [List.length_zipWith, hETlen, hCONVlen, dft_length]
    omega
  · intro j h1 h2
    have hj : j < v.length := by
      have hj0 := h2
      rw [dft_length] at hj0
      exact hj0
    rw [← List.getD_eq_getElem _ 0 h1, ← List.getD_eq_getElem _ 0 h2]
    rw [getD_zipWith_of_lt ET CONV j (by rw [hETlen]; exact hj)
      (by rw [hCONVlen]; omega)]
    rw [dft_getD cis sgn v j hj]
    have hETj : ET.getD j 0 =
        cis (sgn * ((j * j : ℕ) : ℚ) / ((2 * v.length : ℕ) : ℚ)) := by
      rw [hETdef, blueTable_getD thhold cis reverse v.length j hj,
        ← hsgndef, ← hden]
      exact cis_mod h hsgn (j * j) (2 * v.length) (by omega)
    rw [hETj]
    rw [hCONVdef, convolve_dft h thhold conj K (blueM v.length) hmK hmpos
      XV YV hXVlen hYVlen j (by omega)]
    have hzero : ∀ x ∈ Finset.range (blueM v.length),
        x ∉ Finset.range v.length →
        XV.getD x 0 *
          YV.getD ((j + blueM v.length - x) % blueM v.length) 0 = 0 := by
      intro x _ hnx
      rw [hXVdef, blueXvec_getD thhold v ET (blueM v.length) x,
        if_neg (fun hc => hnx (Finset.mem_range.2 hc.1)), zero_mul]
    rw [← Finset.sum_subset (Finset.range_subset.2 hnm) hzero]
    rw [Finset.mul_sum]
    refine Finset.sum_congr rfl ?_
    intro l hl
    have hlv : l < v.length := Finset.mem_range.1 hl
    rw [hXVdef, blueXvec_getD thhold v ET (blueM v.length) l,
      if_pos ⟨hlv, by omega⟩]
    have hETl : ET.getD l 0 =
        cis (sgn * ((l * l : ℕ) : ℚ) / ((2 * v.length : ℕ) : ℚ)) := by
      rw [hETdef, blueTable_getD thhold cis reverse v.length l hlv,
        ← hsgndef, ← hden]
      exact cis_mod h hsgn (l * l) (2 * v.length) (by omega)
    rw [hETl]
    have hrmod := mod_rep hmpos (show j < blueM v.length by omega)
      (show l < blueM v.length by omega)
    by_cases hlj : l = j
    · have hr0 : (j + blueM v.length - l) % blueM v.length = 0 := by
        rw [hlj]
        have he : j + blueM v.length - j = blueM v.length := by omega
        rw [he, Nat.mod_self]
      rw [hr0]
      have hYV0 : YV.getD 0 0 = (1 : C) := by
        rw [hYVdef, blueYvec_getD thhold conj ET v.length (blueM v.length)
          hpos (by omega) 0, if_pos rfl]
        rw [hETdef, blueTable_getD thhold cis reverse v.length 0 hpos]
        norm_num [h.cis_zero]
      rw [hYV0, mul_one]
      have harg : sgn * ((j * l : ℕ) : ℚ) / ((v.length : ℕ) : ℚ) =
          sgn * ((j * j : ℕ) : ℚ) / ((2 * v.length : ℕ) : ℚ) +
            sgn * ((l * l : ℕ) : ℚ) / ((2 * v.length : ℕ) : ℚ) := by
        push_cast [hlj]
        field_simp
        ring
      rw [harg, h.1]
      ring
    · by_cases hlj2 : l ≤ j
      · have hrv : (j + blueM v.length - l) % blueM v.length = j - l := by
          rw [hrmod, if_pos hlj2]
        rw [hrv]
        have hYVr : YV.getD (j - l) 0 =
            cis (-(sgn * (((j - l) * (j - l) : ℕ) : ℚ) /
              ((2 * v.length : ℕ) : ℚ))) := by
          rw [hYVdef, blueYvec_getD thhold conj ET v.length
            (blueM v.length) hpos (by omega) (j - l)]
          rw [if_neg (by omega), if_pos (by omega)]
          rw [hETdef, blueTable_getD thhold cis reverse v.length (j - l)
            (by omega), ← hsgndef, ← hden]
          rw [cis_mod h hsgn ((j - l) * (j - l)) (2 * v.length) (by omega)]
          exact hconj.2.2.2 _
        rw [hYVr]
        have hc : ((j - l : ℕ) : ℚ) = (j : ℚ) - (l : ℚ) :=
          Nat.cast_sub hlj2
        have harg : sgn * ((j * l : ℕ) : ℚ) / ((v.length : ℕ) : ℚ) =
            sgn * ((j * j : ℕ) : ℚ) / ((2 * v.length : ℕ) : ℚ) +
              (sgn * ((l * l : ℕ) : ℚ) / ((2 * v.length : ℕ) : ℚ) +
                -(sgn * (((j - l) * (j - l) : ℕ) : ℚ) /
                  ((2 * v.length : ℕ) : ℚ))) := by
          push_cast [hc]
          field_simp
          ring
        rw [harg, h.1, h.1]
        ring
      · have hjl : j < l := by omega
        have hrv : (j + blueM v.length - l) % blueM v.length =
            j + blueM v.length - l := by
          rw [hrmod, if_neg hlj2]
        rw [hrv]
        have hYVr : YV.getD (j + blueM v.length - l) 0 =
            cis (-(sgn * (((l - j) * (l - j) : ℕ) : ℚ) /
              ((2 * v.length : ℕ) : ℚ))) := by
          rw [hYVdef, blueYvec_getD thhold conj ET v.length
            (blueM v.length) hpos (by omega) _]
          rw [if_neg (by omega), if_neg (by omega),
            if_pos ⟨by omega, by omega⟩]
          have hsub : blueM v.length - (j + blueM v.length - l) = l - j := by
            omega
          rw [hsub]
          rw [hETdef, blueTable_getD thhold cis reverse v.length (l - j)
            (by omega), ← hsgndef, ← hden]
          rw [cis_mod h hsgn ((l - j) * (l - j)) (2 * v.length) (by omega)]
          exact hconj.2.2.2 _
        rw [hYVr]
        have hc : ((l - j : ℕ) : ℚ) = (l : ℚ) - (j : ℚ) :=
          Nat.cast_sub hjl.le
        have harg : sgn * ((j * l : ℕ) : ℚ) / ((v.length : ℕ) : ℚ) =
            sgn * ((j * j : ℕ) : ℚ) / ((2 * v.length : ℕ) : ℚ) +
              (sgn * ((l * l : ℕ) : ℚ) / ((2 * v.length : ℕ) : ℚ) +
                -(sgn * (((l - j) * (l - j) : ℕ) : ℚ) /
                  ((2 * v.length : ℕ) : ℚ))) := by
          push_cast [hc]
          field_simp
          ring
        rw [harg, h.1, h.1]
        ring

end FFT

namespace FFT

/-- The power-of-two dispatch of `transform_`/`itransform_` computes the
DFT on every positive length. -/
theorem dispatch_dft {C : Type} [Field C] [CharZero C] {cis : ℚ → C}
    (h : IsCis cis) {conj : C → C} (hconj : IsConjOf conj cis)
    (thhold : ℕ) (reverse : Bool) (w : List C) (hpos : 0 < w.length) :
    (if w.length &&& (w.length - 1) = 0 then
      fftRadix2 none thhold cis reverse w
    else fftBluesteinWith none thhold cis conj
      (transformGo none thhold cis conj 1) reverse w) =
    dft cis (if reverse then 1 else -1) w := by
  by_cases hp2 : w.length &&& (w.length - 1) = 0
  · rw [if_pos hp2]
    obtain ⟨L, hL⟩ := land_pred_pow2 w.length hpos hp2
    exact fftRadix2_dft h thhold reverse L w hL
  · rw [if_neg hp2]
    exact fftBluestein_dft h hconj thhold reverse w hpos

/-- `transform_` from the public entry computes the DFT. -/
theorem transform_dft {C : Type} [Field C] [CharZero C] {cis : ℚ → C}
    (h : IsCis cis) {conj : C → C} (hconj : IsConjOf conj cis)
    (thhold : ℕ) (reverse : Bool) (v : List C) (hpos : 0 < v.length) :
    transform none thhold cis conj reverse v =
      dft cis (if reverse then 1 else -1) v := by
  unfold transform
  rw [transformGo, if_neg (by omega)]
  exact dispatch_dft h hconj thhold reverse v hpos

theorem conj_zero {C : Type} [Field C] {conj : C → C} {cis : ℚ → C}
    (hconj : IsConjOf conj cis) : conj 0 = 0 := by
  have h00 := hconj.1 0 0
  rw [add_zero] at h00
  linear_combination -h00

theorem conj_sum {C : Type} [Field C] {conj : C → C} {cis : ℚ → C}
    (hconj : IsConjOf conj cis) (s : Finset ℕ) (f : ℕ → C) :
    conj (∑ i ∈ s, f i) = ∑ i ∈ s, conj (f i) := by
  induction s using Finset.cons_induction with
  | empty => simpa using conj_zero hconj
  | cons a s ha ih => rw [Finset.sum_cons, Finset.sum_cons, hconj.1, ih]

theorem dvd_sub_iff_eq {n j l : ℕ} (hpos : 0 < n) (hj : j < n)
    (hl : l < n) : (n : ℤ) ∣ ((j : ℤ) - l) ↔ l = j := by
  constructor
  · rintro ⟨t, ht⟩
    have hnz : (0 : ℤ) < (n : ℤ) := by exact_mod_cast hpos
    have ht1 : t < 1 := by
      by_contra hcon
      push_neg at hcon
      have hh : (n : ℤ) * 1 ≤ (n : ℤ) * t :=
        mul_le_mul_of_nonneg_left hcon (le_of_lt hnz)
      have hn1 : (n : ℤ) * 1 = (n : ℤ) := by ring
      omega
    have ht2 : -1 < t := by
      by_contra hcon
      push_neg at hcon
      have hh : (n : ℤ) * t ≤ (n : ℤ) * (-1) :=
        mul_le_mul_of_nonneg_left hcon (le_of_lt hnz)
      have hn1 : (n : ℤ) * (-1) = -(n : ℤ) := by ring
      omega
    have ht0 : t = 0 := by omega
    subst ht0
    have hn0 : (n : ℤ) * 0 = 0 := by ring
    omega
  · rintro rfl
    exact ⟨0, by ring⟩

/-- The heart of the round trip: `itransform_` applied to the forward
transform restores the input. -/
theorem itransform_transform {C : Type} [Field C] [CharZero C]
    {cis : ℚ → C} (h : IsCis cis) {conj : C → C}
    (hconj : IsConjOf conj cis) (thhold : ℕ) (v : List C)
    (hpos : 0 < v.length) :
    itransform none thhold cis conj
      (transform none thhold cis conj false v) = v := by
  have hnQ : ((v.length : ℕ) : ℚ) ≠ 0 := Nat.cast_ne_zero.2 hpos.ne'
  have hnC : ((v.length : ℕ) : C) ≠ 0 := Nat.cast_ne_zero.2 hpos.ne'
  have hX : transform none thhold cis conj false v = dft cis (-1) v := by
    rw [transform_dft h hconj thhold false v hpos]
    rfl
  rw [hX]
  set X := dft cis (-1) v with hXdef
  have hXlen : X.length = v.length := by rw [hXdef, dft_length]
  have hXpos : 0 < X.length := by omega
  simp only [itransform]
  have hw1 : conjLoop none thhold conj X.length X = X.map conj := rfl
  rw [hw1]
  have hmclen : (X.map conj).length = v.length := by
    rw [List.length_map, hXlen]
  have hW2 : (if X.length &&& (X.length - 1) = 0 then
      fftRadix2 none thhold cis false (X.map conj)
    else fftBluesteinWith none thhold cis conj
      (transformGo none thhold cis conj 1) false (X.map conj)) =
      dft cis (-1) (X.map conj) := by
    have hd := dispatch_dft h hconj thhold false (X.map conj)
      (by rw [hmclen]; exact hpos)
    rw [hmclen, ← hXlen] at hd
    rw [hd]
    rfl
  rw [hW2]
  set W2 := dft cis (-1) (X.map conj) with hW2def
  have hW2len : W2.length = v.length := by
    rw [hW2def, dft_length, hmclen]
  have hw3 : conjLoop none thhold conj X.length W2 = W2.map conj := rfl
  rw [hw3]
  have hscale : scaleLoop none thhold X.length (W2.map conj) =
      (W2.map conj).map (fun z => z / ((X.length : ℕ) : C)) := rfl
  rw [hscale, hXlen]
  refine List.ext_getElem ?_ ?_
  · rw [List.length_map, List.length_map, hW2len]
  · intro j h1 h2
    rw [← List.getD_eq_getElem _ 0 h1, ← List.getD_eq_getElem _ 0 h2]
    rw [getD_map_of_lt _ _ j (by rw [List.length_map, hW2len]; exact h2),
      getD_map_of_lt _ _ j (by rw [hW2len]; exact h2)]
    rw [hW2def, dft_getD cis (-1) (X.map conj) j (by rw [hmclen]; exact h2),
      hmclen]
    rw [conj_sum hconj]
    have hterm : ∀ k, k < v.length →
        conj (((X.map conj).getD k 0) *
          cis ((-1) * ((j * k : ℕ) : ℚ) / ((v.length : ℕ) : ℚ))) =
        X.getD k 0 * cis (((j * k : ℕ) : ℚ) / ((v.length : ℕ) : ℚ)) := by
      intro k hk
      rw [getD_map_of_lt _ _ k (by rw [hXlen]; exact hk)]
      rw [hconj.2.1, hconj.2.2.1, hconj.2.2.2]
      have harg : -((-1) * ((j * k : ℕ) : ℚ) / ((v.length : ℕ) : ℚ)) =
          ((j * k : ℕ) : ℚ) / ((v.length : ℕ) : ℚ) := by ring
      rw [harg]
    rw [Finset.sum_congr rfl
      (fun k hk => hterm k (Finset.mem_range.1 hk))]
    have hXk : ∀ k, k < v.length → X.getD k 0 =
        ∑ l ∈ Finset.range v.length,
          v.getD l 0 * cis ((-1) * ((k * l : ℕ) : ℚ) /
            ((v.length : ℕ) : ℚ)) := by
      intro k hk
      rw [hXdef, dft_getD cis (-1) v k hk]
    rw [Finset.sum_congr rfl (fun k hk => by
      rw [hXk k (Finset.mem_range.1 hk), Finset.sum_mul])]
    rw [Finset.sum_comm]
    have hinner : ∀ l, l < v.length →
        ∑ k ∈ Finset.range v.length,
          v.getD l 0 * cis ((-1) * ((k * l : ℕ) : ℚ) /
            ((v.length : ℕ) : ℚ)) *
            cis (((j * k : ℕ) : ℚ) / ((v.length : ℕ) : ℚ)) =
        if l = j then v.getD l 0 * ((v.length : ℕ) : C) else 0 := by
      intro l hl
      have hterm2 : ∀ k, k < v.length →
          v.getD l 0 * cis ((-1) * ((k * l : ℕ) : ℚ) /
            ((v.length : ℕ) : ℚ)) *
            cis (((j * k : ℕ) : ℚ) / ((v.length : ℕ) : ℚ)) =
          v.getD l 0 * cis ((((j : ℤ) - l : ℤ) : ℚ) * (k : ℚ) /
            ((v.length : ℕ) : ℚ)) := by
        intro k _
        have harg : (((j : ℤ) - l : ℤ) : ℚ) * (k : ℚ) /
            ((v.length : ℕ) : ℚ) =
            (-1) * ((k * l : ℕ) : ℚ) / ((v.length : ℕ) : ℚ) +
              ((j * k : ℕ) : ℚ) / ((v.length : ℕ) : ℚ) := by
          push_cast
          ring
        rw [harg, h.1]
        ring
      rw [Finset.sum_congr rfl
        (fun k hk => hterm2 k (Finset.mem_range.1 hk))]
      rw [← Finset.mul_sum]
      by_cases hdv : (v.length : ℤ) ∣ ((j : ℤ) - l)
      · rw [cis_orth_dvd h v.length hpos _ hdv,
          if_pos ((dvd_sub_iff_eq hpos h2 hl).1 hdv)]
      · rw [cis_orth_not_dvd h v.length hpos _ hdv,
          if_neg (fun heq => hdv ((dvd_sub_iff_eq hpos h2 hl).2 heq)),
          mul_zero]
    rw [Finset.sum_congr rfl
      (fun l hl => hinner l (Finset.mem_range.1 hl))]
    rw [Finset.sum_ite_eq' (Finset.range v.length) j
      (fun l => v.getD l 0 * ((v.length : ℕ) : C))]
    rw [if_pos (Finset.mem_range.2 h2)]
    rw [mul_div_cancel_right₀ _ hnC]

end FFT

/-- `std::polar(1, 2π·q)` at rational turns `q`, realized in `ℂ`. -/
noncomputable def cisC : ℚ → ℂ := fun q =>
  Complex.exp (2 * Real.pi * Complex.I * (q : ℂ))

theorem cisC_isCis : FFT.IsCis cisC := by
  constructor
  · intro a b
    unfold cisC
    rw [← Complex.exp_add]
    congr 1
    push_cast
    ring
  · intro q
    unfold cisC
    rw [Complex.exp_eq_one_iff]
    have hne : (2 * (Real.pi : ℂ) * Complex.I) ≠ 0 := by
      apply mul_ne_zero
      apply mul_ne_zero
      · norm_num
      · exact_mod_cast Real.pi_ne_zero
      · exact Complex.I_ne_zero
    constructor
    · rintro ⟨z, hz⟩
      refine ⟨z, ?_⟩
      have hq : (q : ℂ) * (2 * (Real.pi : ℂ) * Complex.I) =
          (z : ℂ) * (2 * (Real.pi : ℂ) * Complex.I) := by
        linear_combination hz
      have hq2 : (q : ℂ) = (z : ℂ) := mul_right_cancel₀ hne hq
      exact_mod_cast hq2
    · rintro ⟨z, hz⟩
      exact ⟨z, by rw [hz]; push_cast; ring⟩

theorem conjC_isConj : FFT.IsConjOf (fun z => (starRingEnd ℂ) z) cisC := by
  refine ⟨?_, ?_, ?_, ?_⟩
  · intro a b
    exact map_add _ a b
  · intro a b
    exact map_mul _ a b
  · intro a
    exact Complex.conj_conj a
  · intro q
    show (starRingEnd ℂ) (cisC q) = cisC (-q)
    unfold cisC
    rw [← Complex.exp_conj]
    congr 1
    simp only [map_mul, Complex.conj_I, Complex.conj_ofReal, map_ofNat,
      map_ratCast]
    push_cast
    ring

theorem chunksOk_single :
    ∀ c ∈ (some (fun k => [k]) : Option (ℕ → List ℕ)), FFT.ChunksOk c := by
  intro c hc
  simp only [Option.mem_def, Option.some.injEq] at hc
  subst hc
  intro k
  simp

/-- **C1** (confirmed).  For every nonempty input sequence, running the
spectral visitor forward and then inverse reproduces the input exactly —
in the exact-arithmetic model the round trip is the identity, hence every
element is within any floating-point tolerance (in particular `1e-9`); the
proof covers both the radix-2 dispatch (power-of-two lengths) and the
Bluestein dispatch (all other lengths), each reduced to the DFT and
inverted by orthogonality of the `cis` characters, and holds on both the
sequential and the chunked-parallel path. -/
theorem fft_c1_round_trip {C : Type} [Field C] [CharZero C]
    {mode : Option (ℕ → List ℕ)} (hm : ∀ c ∈ mode, FFT.ChunksOk c)
    (thhold : ℕ) {cis : ℚ → C} (h : FFT.IsCis cis) {conj : C → C}
    (hconj : FFT.IsConjOf conj cis) (v : List C) (hv : v ≠ []) :
    FFT.fftApply mode thhold cis conj true
      (FFT.fftApply mode thhold cis conj false v) = v := by
  have hpos : 0 < v.length := List.length_pos.2 hv
  rw [FFT.fftApply_eq hm thhold cis conj false v,
    FFT.fftApply_eq hm thhold cis conj true _]
  have hcopy : ∀ x : List C, FFT.copyLoop none thhold x = x := by
    intro x
    show x.map id = x
    exact List.map_id x
  have hinner : FFT.fftApply none thhold cis conj false v =
      FFT.transform none thhold cis conj false
        (FFT.copyLoop none thhold v) := rfl
  have houter : ∀ x : List C, FFT.fftApply none thhold cis conj true x =
      FFT.itransform none thhold cis conj (FFT.copyLoop none thhold x) :=
    fun x => rfl
  rw [hinner, houter, hcopy, hcopy]
  exact FFT.itransform_transform h hconj thhold v hpos

/-- Witness for C1 at `C := ℂ` with the true `polar`/conjugation
realization, on the length-3 column `[1, 2, 3]` (Bluestein path) under a
chunked-parallel mode. -/
theorem fft_c1_round_trip_witness :
    (∀ c ∈ (some (fun k => [k]) : Option (ℕ → List ℕ)), FFT.ChunksOk c) ∧
    FFT.IsCis cisC ∧
    FFT.IsConjOf (fun z => (starRingEnd ℂ) z) cisC ∧
    ([(1 : ℂ), 2, 3] ≠ []) ∧
    FFT.fftApply (some (fun k => [k])) 4 cisC (fun z => (starRingEnd ℂ) z)
      true (FFT.fftApply (some (fun k => [k])) 4 cisC
        (fun z => (starRingEnd ℂ) z) false [(1 : ℂ), 2, 3]) =
      [(1 : ℂ), 2, 3] :=
  ⟨chunksOk_single, cisC_isCis, conjC_isConj, by simp,
    fft_c1_round_trip chunksOk_single 4 cisC_isCis conjC_isConj
      [(1 : ℂ), 2, 3] (by simp)⟩
